import Mathlib

/-!
Shallow embedding of the `pr-splitter-cli` partition engine
(`internal/partition/{partitioner,tarjan,namer,grouper}.go`,
`internal/plugin/manager.go`) and proofs about the claims of the
specification.

Modelling conventions:
* Go slices become `List`, Go strings become `String` (`String.data`
  exposes the character list; all inputs in scope are ASCII).
* A Go `map[K]V` becomes an association list `List (K × V)` keeping the
  order of first insertion; `range` over a map iterates in that order.
  Go randomises `range` order, so every place where the range order is
  observable is parameterised by a reordering function (see
  `createRemainingFilePartitionsOrd`); the canonical model fixes the
  insertion order.
* Reads of a missing key yield the zero value, as in Go
  (`alistGetD`).
* Interactive prompts (`config.PromptForSCCDecision`) are modelled by a
  boolean oracle passed to `CreatePlan`.
* `time.Now()` (the `createdAt` metadata field) is wall-clock input and
  is omitted from the model; no claim mentions it.
-/

namespace PRSplit

/-! ## Association-list model of Go maps -/

/-- Lookup in an association list (Go `v, ok := m[k]`). -/
def alistGet {β : Type} (m : List (String × β)) (k : String) : Option β :=
  match m with
  | [] => none
  | (k', v) :: rest => if k' = k then some v else alistGet rest k

/-- Lookup with a default, like a Go map read (`m[k]` yields the zero
value when the key is absent). -/
def alistGetD {β : Type} (m : List (String × β)) (k : String) (d : β) : β :=
  (alistGet m k).getD d

/-- Key membership (Go `_, ok := m[k]`). -/
def alistHas {β : Type} (m : List (String × β)) (k : String) : Bool :=
  (alistGet m k).isSome

/-- Go `m[k] = v`: replace the binding in place, or append a new one.
First-insertion order is preserved, which is the canonical iteration
order of the model. -/
def alistSet {β : Type} (m : List (String × β)) (k : String) (v : β) :
    List (String × β) :=
  match m with
  | [] => [(k, v)]
  | (k', v') :: rest =>
      if k' = k then (k, v) :: rest else (k', v') :: alistSet rest k v

/-- Go `m[k] = f(m[k])` where a missing key reads as `d`. -/
def alistUpd {β : Type} (m : List (String × β)) (k : String) (d : β)
    (f : β → β) : List (String × β) :=
  alistSet m k (f (alistGetD m k d))

/-- Association list over `Nat` keys (used for the depth buckets). -/
def nlistGet {β : Type} (m : List (Nat × β)) (k : Nat) : Option β :=
  match m with
  | [] => none
  | (k', v) :: rest => if k' = k then some v else nlistGet rest k

/-- Go `m[k]` with zero value over `Nat` keys. -/
def nlistGetD {β : Type} (m : List (Nat × β)) (k : Nat) (d : β) : β :=
  (nlistGet m k).getD d

/-- Go `m[k] = v` over `Nat` keys. -/
def nlistSet {β : Type} (m : List (Nat × β)) (k : Nat) (v : β) :
    List (Nat × β) :=
  match m with
  | [] => [(k, v)]
  | (k', v') :: rest =>
      if k' = k then (k, v) :: rest else (k', v') :: nlistSet rest k v

/-! ## Go string and path helpers (ASCII) -/

/-- ASCII lower-casing of one character (`strings.ToLower`). -/
def lowerChar (c : Char) : Char :=
  if 'A' ≤ c ∧ c ≤ 'Z' then Char.ofNat (c.toNat + 32) else c

/-- ASCII upper-casing of one character (`strings.ToUpper`). -/
def upperChar (c : Char) : Char :=
  if 'a' ≤ c ∧ c ≤ 'z' then Char.ofNat (c.toNat - 32) else c

/-- `strings.ToLower` for ASCII strings. -/
def goToLower (s : String) : String := ⟨s.data.map lowerChar⟩

/-- List prefix test. -/
def listIsPref : List Char → List Char → Bool
  | [], _ => true
  | _ :: _, [] => false
  | p :: ps, c :: cs => p = c && listIsPref ps cs

/-- Substring occurrence test on character lists. -/
def listHasSub (pat : List Char) : List Char → Bool
  | [] => listIsPref pat []
  | c :: cs => listIsPref pat (c :: cs) || listHasSub pat cs

/-- Go `strings.Contains` (substring test). -/
def goContains (s sub : String) : Bool := listHasSub sub.data s.data

/-- Go `strings.HasSuffix`. -/
def goHasSuffix (s suf : String) : Bool := listIsPref suf.data.reverse s.data.reverse

/-- Character-for-character replacement; implements the
`strings.ReplaceAll(s, old, new)` calls of `sanitizeName`, whose
patterns are single characters. -/
def replaceChar (s : String) (old new : Char) : String :=
  ⟨s.data.map fun c => if c = old then new else c⟩

/-- One left-to-right pass of `strings.ReplaceAll(s, "--", "-")`. -/
def replaceDashPairs : List Char → List Char
  | '-' :: '-' :: rest => '-' :: replaceDashPairs rest
  | c :: rest => c :: replaceDashPairs rest
  | [] => []

/-- Decimal digits of a natural number, most significant first, with
fuel (a number below `10 ^ fuel` is rendered fully; callers pass
`n + 1`, which always suffices). -/
def natCharsF (fuel : Nat) (n : Nat) : List Char :=
  match fuel with
  | 0 => []
  | fuel + 1 =>
      if n < 10 then [Char.ofNat (48 + n)]
      else natCharsF fuel (n / 10) ++ [Char.ofNat (48 + n % 10)]

/-- Decimal digits of a natural number, most significant first
(`fmt.Sprintf("%d", n)` for non-negative values). -/
def natChars (n : Nat) : List Char := natCharsF (n + 1) n

/-- `fmt.Sprintf("%d", n)`. -/
def natStr (n : Nat) : String := ⟨natChars n⟩

/-- Splitting a character list at a separator (keeping empty
segments, as Go's `strings.Split` does). -/
def splitChar (sep : Char) : List Char → List (List Char)
  | [] => [[]]
  | c :: rest =>
      match splitChar sep rest with
      | [] => [[]]
      | g :: gs => if c = sep then [] :: g :: gs else (c :: g) :: gs

/-- Go `strings.Split(s, "/")`: the path segments. -/
def splitSlash (s : String) : List String :=
  (splitChar '/' s.data).map fun l => ⟨l⟩

/-- Go `filepath.Dir` for the slash-normalised, already-clean paths this
program works with: everything before the last `/`, or `"."` when there
is no `/`. -/
def goDir (p : String) : String :=
  let parts := splitSlash p
  if parts.length ≤ 1 then "." else String.intercalate "/" (parts.dropLast)

/-- Go `filepath.Ext`: the suffix starting at the final dot of the final
path element, or `""` if that element has no dot. -/
def goExt (p : String) : String :=
  let last := (splitSlash p).getLastD ""
  let idxs := (List.range last.data.length).filter fun i => last.data.getD i ' ' = '.'
  match idxs.getLast? with
  | none => ""
  | some i => ⟨last.data.drop i⟩

/-- Go `strings.Trim(s, "-")`. -/
def trimDashes (s : String) : String :=
  ⟨((s.data.dropWhile (· = '-')).reverse.dropWhile (· = '-')).reverse⟩

/-- Go `strings.Title` (ASCII): upper-case every letter that follows a
non-letter. Used only for partition descriptions. -/
def goTitle (s : String) : String :=
  let isLetter := fun c : Char =>
    ('a' ≤ c ∧ c ≤ 'z') ∨ ('A' ≤ c ∧ c ≤ 'Z')
  let rec go : List Char → Bool → List Char
    | [], _ => []
    | c :: rest, prevLetter =>
        (if prevLetter then c else upperChar c) :: go rest (decide (isLetter c))
  ⟨go s.data false⟩

/-! ## Data model (`internal/types/types.go`) -/

/-- `types.FileChange`. -/
structure FileChange where
  path : String
  changeType : String
  content : String
  linesAdded : Nat
  linesDeleted : Nat
  isChanged : Bool
  oldPath : String
deriving DecidableEq, Repr

/-- `types.Dependency`. `From`/`To` keep the Go field names; `dtype`
stands for the Go field `Type` (a reserved word in Lean). -/
structure Dependency where
  From : String
  To : String
  dtype : String
  strength : String
  line : Nat
  context : String
deriving DecidableEq, Repr

/-- `types.Config` (the fields the engine reads; `branchPref` is the Go
field `BranchPrefix`). -/
structure Config where
  maxFilesPerPartition : Nat
  maxPartitions : Nat
  branchPref : String
  strategy : String
  targetBranch : String
deriving DecidableEq, Repr

/-- `types.Partition`. -/
structure Partition where
  id : Nat
  name : String
  description : String
  files : List FileChange
  dependencies : List Nat
  branchName : String
deriving DecidableEq, Repr

/-- `types.PlanMetadata` without the wall-clock `CreatedAt` field. -/
structure PlanMetadata where
  totalFiles : Nat
  totalPartitions : Nat
  maxFilesPerPartition : Nat
  strategy : String
deriving DecidableEq, Repr

/-- `types.PartitionPlan`. -/
structure PartitionPlan where
  partitions : List Partition
  metadata : PlanMetadata
deriving DecidableEq, Repr

/-- `types.StronglyConnectedComponent`. -/
structure SCCData where
  filePaths : List String
  size : Nat
deriving DecidableEq, Repr

/-- `types.DependencyGraph` (the `SCCs` field is never populated by the
graph builder and is omitted). -/
structure DependencyGraph where
  nodes : List String
  edges : List Dependency
  adjacency : List (String × List String)
  inDegree : List (String × Nat)
  outDegree : List (String × Nat)
deriving DecidableEq, Repr

/-! ## Namer (`internal/partition/namer.go`) -/

/-- `sanitizeName`: the dash-collapsing loop
`for strings.Contains(name, "--") { name = ReplaceAll(name, "--", "-") }`,
with explicit fuel. Each pass on a string containing `"--"` strictly
shrinks it, so `fuel = cs.length` never runs out
(`collapseDashesF_fuel_irrelevant` below). -/
def collapseDashesF (fuel : Nat) (cs : List Char) : List Char :=
  match fuel with
  | 0 => cs
  | fuel + 1 =>
      if listHasSub ['-', '-'] cs then collapseDashesF fuel (replaceDashPairs cs)
      else cs

/-- The dash-collapsing loop of `sanitizeName`. -/
def collapseDashes (cs : List Char) : List Char :=
  collapseDashesF cs.length cs

/-- `sanitizeName`. -/
def sanitizeName (name : String) : String :=
  let name := replaceChar name '/' '-'
  let name := replaceChar name '\\' '-'
  let name := replaceChar name '_' '-'
  let name := replaceChar name ' ' '-'
  let name := (⟨collapseDashes name.data⟩ : String)
  let name := trimDashes name
  let name := if name = "" then "files" else name
  let name := if 30 < name.data.length then trimDashes ⟨name.data.take 30⟩ else name
  goToLower name

/-- `findCommonDirectory`: count full and top-level directories, then
take the first (in insertion order; Go ranges the map in unspecified
order) directory whose count exceeds both the running maximum and
`len(files)/2`. -/
def findCommonDirectory (files : List FileChange) : String :=
  if files = [] then "" else
  let dirCount := files.foldl (fun m file =>
    let dir := goDir file.path
    if dir = "." then m else
    let m := alistUpd m dir 0 (· + 1)
    let parts := splitSlash dir
    if parts.length > 0 then alistUpd m (parts.headD "") 0 (· + 1) else m) []
  let threshold := files.length / 2
  let best := dirCount.foldl (fun (acc : String × Nat) (p : String × Nat) =>
    if p.2 > acc.2 ∧ p.2 > threshold then (p.1, p.2) else acc) ("", 0)
  best.1

/-- The extension table of `generateByFileType`. -/
def typeNames : List (String × String) :=
  [(".tsx", "components"), (".jsx", "components"), (".ts", "typescript"),
   (".js", "javascript"), (".py", "python"), (".go", "golang"),
   (".css", "styles"), (".scss", "styles"), (".sass", "styles"),
   (".json", "config"), (".yaml", "config"), (".yml", "config"),
   (".md", "docs"), (".html", "markup")]

/-- `generateByFileType`: name of the dominant extension, if any. -/
def generateByFileType (files : List FileChange) : String :=
  let extensions := files.foldl (fun m file =>
    let ext := goToLower (goExt file.path)
    if ext ≠ "" then alistUpd m ext 0 (· + 1) else m) []
  let total := files.length
  let hit := extensions.find? fun p =>
    p.2 > total / 2 ∧ (alistGet typeNames p.1).isSome
  match hit with
  | some p => alistGetD typeNames p.1 ""
  | none => ""

/-- The keyword table of `generateByFunctionality`. -/
def functionalityPatterns : List (List String × String) :=
  [([ "auth", "authentication", "login", "signin"], "authentication"),
   (["user", "profile", "account"], "user-management"),
   (["api", "endpoint", "route", "handler"], "api"),
   (["database", "db", "model", "schema"], "database"),
   (["component", "ui", "interface"], "components"),
   (["util", "helper", "common"], "utilities"),
   (["test", "spec", "__test__"], "tests"),
   (["config", "setting", "constant"], "configuration"),
   (["style", "css", "theme"], "styling"),
   (["service", "client", "provider"], "services"),
   (["hook", "context", "state"], "state-management"),
   (["layout", "template", "page"], "layout"),
   (["form", "input", "validation"], "forms"),
   (["chart", "graph", "visualization"], "visualization"),
   (["admin", "dashboard", "panel"], "admin")]

/-- `generateByFunctionality`. -/
def generateByFunctionality (files : List FileChange) : String :=
  let pathText := String.intercalate " " (files.map (·.path))
  let lowerPathText := goToLower pathText
  let hit := functionalityPatterns.find? fun pat =>
    let hits := (pat.1.filter fun kw => goContains lowerPathText kw).length
    hits ≥ 2 ∨ (hits ≥ 1 ∧ files.length ≤ 5)
  match hit with
  | some pat => pat.2
  | none => ""

/-- `PartitionNamer.GenerateName`. -/
def generateName (files : List FileChange) : String :=
  if files = [] then "empty" else
  let commonDir := findCommonDirectory files
  if commonDir ≠ "" then sanitizeName commonDir else
  let byType := generateByFileType files
  if byType ≠ "" then byType else
  let byFunc := generateByFunctionality files
  if byFunc ≠ "" then byFunc else
  "partition-" ++ natStr files.length ++ "-files"

/-- `PartitionNamer.GenerateDescription`. -/
def generateDescription (files : List FileChange) : String :=
  let name := generateName files
  let readable := goTitle (replaceChar name '-' ' ')
  readable ++ " (" ++ natStr files.length ++ " files)"

/-! ## Grouper (`internal/partition/grouper.go`) -/

/-- The extension table of `groupByFileType` (grouper). -/
def typeGroups : List (String × String) :=
  [(".md", "documentation"), (".txt", "documentation"), (".mdx", "documentation"),
   (".json", "configuration"), (".yaml", "configuration"), (".yml", "configuration"),
   (".toml", "configuration"), (".xml", "configuration"),
   (".css", "styles"), (".scss", "styles"), (".sass", "styles"),
   (".less", "styles"), (".styl", "styles"),
   (".png", "assets"), (".jpg", "assets"), (".jpeg", "assets"),
   (".gif", "assets"), (".svg", "assets"), (".ico", "assets"),
   (".woff", "assets"), (".woff2", "assets"), (".ttf", "assets"), (".eot", "assets")]

/-- `FileGrouper.groupByFileType`. -/
def grouperByFileType (path : String) : String :=
  alistGetD typeGroups (goToLower (goExt path)) ""

/-- The directory table of `groupByDirectory`. -/
def directoryGroups : List (String × String) :=
  [("public", "static-assets"), ("static", "static-assets"),
   ("assets", "static-assets"), ("images", "static-assets"),
   ("docs", "documentation"), ("doc", "documentation"),
   ("documentation", "documentation"),
   ("config", "configuration"), ("configs", "configuration"),
   ("settings", "configuration"),
   ("tests", "tests"), ("test", "tests"), ("__tests__", "tests"),
   ("spec", "tests"), ("specs", "tests"),
   ("styles", "styles"), ("css", "styles"), ("scss", "styles"),
   ("components", "components"), ("component", "components"),
   ("pages", "pages"), ("views", "views"), ("routes", "routes"),
   ("api", "api"), ("services", "services"), ("service", "services"),
   ("utils", "utilities"), ("util", "utilities"), ("helpers", "utilities"),
   ("lib", "libraries"), ("libs", "libraries"),
   ("vendor", "vendor"), ("node_modules", "vendor")]

/-- `FileGrouper.containsTestPattern`. -/
def containsTestPattern (path : String) : Bool :=
  let lower := goToLower path
  [".test.", ".spec.", "_test.", "_spec.", "/test/", "/tests/",
   "/spec/", "/specs/", "/__tests__/"].any fun pat => goContains lower pat

/-- `FileGrouper.groupByDirectory`. -/
def grouperByDirectory (path : String) : String :=
  let parts := splitSlash path
  if parts.length ≤ 1 then "" else
  let topDir := goToLower (parts.headD "")
  let hit := alistGet directoryGroups topDir
  match hit with
  | some g => g
  | none =>
      if containsTestPattern path then "tests"
      else "dir-" ++ topDir

/-- `FileGrouper.determineGroup`. -/
def determineGroup (file : FileChange) : String :=
  let byType := grouperByFileType file.path
  if byType ≠ "" then byType else
  let byDir := grouperByDirectory file.path
  if byDir ≠ "" then byDir else
  "miscellaneous"

/-- `FileGrouper.GroupFiles`: a map from group tag to the files of the
tag, iterated in first-insertion order. -/
def groupFiles (files : List FileChange) : List (String × List FileChange) :=
  files.foldl (fun m file => alistUpd m (determineGroup file) [] (· ++ [file])) []

/-! ## Tarjan SCC (`internal/partition/tarjan.go`) -/

/-- The mutable state of `TarjanSCC`. The stack is kept with its most
recently pushed element first (Go pushes and pops at the end of a
slice). -/
structure TarjanState where
  index : Nat
  stack : List String
  indices : List (String × Nat)
  lowlinks : List (String × Nat)
  onStack : List (String × Bool)
  sccs : List SCCData
deriving Repr

/-- `popSCC`: pop until the root is reached, collecting in pop order. -/
def popSCC (root : String) : List String → (List String × List String)
  | [] => ([], [])
  | w :: rest =>
      if w = root then ([w], rest)
      else
        let p := popSCC root rest
        (w :: p.1, p.2)

/-- `strongConnect`, fuelled: each recursive call indexes one previously
unindexed node, so `fuel = |nodes| + 1` at the top level never runs
out. Out of fuel, the state is returned unchanged. -/
def strongConnect (g : DependencyGraph) (fuel : Nat) (st : TarjanState)
    (v : String) : TarjanState :=
  match fuel with
  | 0 => st
  | fuel + 1 =>
    let st := { st with
      indices := alistSet st.indices v st.index,
      lowlinks := alistSet st.lowlinks v st.index,
      index := st.index + 1,
      stack := v :: st.stack,
      onStack := alistSet st.onStack v true }
    let st := (alistGetD g.adjacency v []).foldl (fun st w =>
      if ¬ alistHas st.indices w then
        let st := strongConnect g fuel st w
        let low := min (alistGetD st.lowlinks v 0) (alistGetD st.lowlinks w 0)
        { st with lowlinks := alistSet st.lowlinks v low }
      else if alistGetD st.onStack w false then
        let low := min (alistGetD st.lowlinks v 0) (alistGetD st.indices w 0)
        { st with lowlinks := alistSet st.lowlinks v low }
      else st) st
    if alistGetD st.lowlinks v 0 = alistGetD st.indices v 0 then
      let p := popSCC v st.stack
      let st := { st with
        stack := p.2,
        onStack := p.1.foldl (fun m w => alistSet m w false) st.onStack }
      if p.1.length > 0 then
        { st with sccs := st.sccs ++ [⟨p.1, p.1.length⟩] }
      else st
    else st

/-- `TarjanSCC.FindSCCs`. -/
def findSCCs (g : DependencyGraph) : List SCCData :=
  let st : TarjanState := ⟨0, [], [], [], [], []⟩
  let st := g.nodes.foldl (fun st node =>
    if ¬ alistHas st.indices node then strongConnect g (g.nodes.length + 1) st node
    else st) st
  st.sccs

/-! ## Partitioner (`internal/partition/partitioner.go`) -/

/-- `filterChangedFiles`. -/
def filterChangedFiles (changes : List FileChange) : List FileChange :=
  changes.filter (·.isChanged)

/-- `buildDependencyGraph`. The node set is the set of changed paths
(first-occurrence order); an edge is kept iff both endpoints are
nodes. Self-loops are NOT filtered. -/
def buildDependencyGraph (files : List FileChange)
    (dependencies : List Dependency) : DependencyGraph :=
  let nodeSet := files.foldl (fun m file => alistSet m file.path true) []
  let g : DependencyGraph :=
    { nodes := nodeSet.map (·.1)
      edges := []
      adjacency := []
      inDegree := nodeSet.map (fun p => (p.1, 0))
      outDegree := nodeSet.map (fun p => (p.1, 0)) }
  dependencies.foldl (fun g dep =>
    if alistGetD nodeSet dep.From false ∧ alistGetD nodeSet dep.To false then
      { g with
        edges := g.edges ++ [dep]
        adjacency := alistUpd g.adjacency dep.From [] (· ++ [dep.To])
        outDegree := alistUpd g.outDegree dep.From 0 (· + 1)
        inDegree := alistUpd g.inDegree dep.To 0 (· + 1) }
    else g) g

/-- Insertion into a size-descending list; `sortBySizeDesc` is the
canonical (stable) model of the unstable `sort.Slice(sccs,
size_i > size_j)`. -/
def insertBySizeDesc (s : SCCData) : List SCCData → List SCCData
  | [] => [s]
  | t :: rest => if t.size < s.size then s :: t :: rest else t :: insertBySizeDesc s rest

/-- Size-descending sort of the circular groups. -/
def sortBySizeDesc (l : List SCCData) : List SCCData :=
  l.foldr insertBySizeDesc []

/-- `findCircularDependencies`: keep only components of size `> 1`,
largest first. -/
def findCircularDependencies (g : DependencyGraph) : List SCCData :=
  sortBySizeDesc ((findSCCs g).filter (·.size > 1))

/-- `handleOversizedCircularGroups`. `approve` models the interactive
`config.PromptForSCCDecision(files, size, max)`. -/
def handleOversizedCircularGroups (approve : List String → Nat → Nat → Bool)
    (sccs : List SCCData) (maxSize : Nat) : Except String (List SCCData) :=
  match sccs with
  | [] => Except.ok []
  | scc :: rest =>
      if scc.size > maxSize ∧ ¬ approve scc.filePaths scc.size maxSize then
        Except.error "user rejected oversized SCC"
      else
        (handleOversizedCircularGroups approve rest maxSize).map (scc :: ·)

/-- `calculateDependencies` — the source returns the empty list
unconditionally (`// Simplified dependency calculation - can be
enhanced`). -/
def calculateDependencies (filePaths : List String)
    (existingPartitions : List Partition) : List Nat := []

/-- `getFilesByPaths`. -/
def getFilesByPaths (files : List FileChange) (paths : List String) :
    List FileChange :=
  files.filter fun file => paths.contains file.path

/-- `getFileByPath` (first match). -/
def getFileByPath (files : List FileChange) (path : String) :
    Option FileChange :=
  files.find? (·.path = path)

/-- `getRemainingFiles`. -/
def getRemainingFiles (files : List FileChange)
    (allocated : List (String × Bool)) : List FileChange :=
  files.filter fun file => ¬ alistGetD allocated file.path false

/-- `getFilePaths`. -/
def getFilePaths (files : List FileChange) : List String :=
  files.map (·.path)

/-- `removeAllocatedNodes`. -/
def removeAllocatedNodes (nodes : List String)
    (allocated : List (String × Bool)) : List String :=
  nodes.filter fun node => ¬ alistGetD allocated node false

/-- `calculateDependencyDepth`, fuelled. `visiting` is the set of nodes
on the current DFS path (the Go code sets `visiting[node] = true`
before the successor loop and back to `false` after it, so the shared
map always holds exactly the path). The memo cache is threaded through.
Fuel `|nodes| + 1` never runs out because the path cannot repeat
nodes. -/
def calcDepth (g : DependencyGraph) (fuel : Nat)
    (cache : List (String × Nat)) (visiting : List String)
    (node : String) : Nat × List (String × Nat) :=
  match fuel with
  | 0 => (0, cache)
  | fuel + 1 =>
    if visiting.contains node then (0, cache)
    else match alistGet cache node with
    | some d => (d, cache)
    | none =>
        let step := (alistGetD g.adjacency node []).foldl
          (fun (acc : Nat × List (String × Nat)) dep =>
            let r := calcDepth g fuel acc.2 (node :: visiting) dep
            (max acc.1 (1 + r.1), r.2)) (0, cache)
        (step.1, alistSet step.2 node step.1)

/-- `groupByDependencyDepth`: bucket the nodes by their dependency
depth, sharing the memo cache. -/
def groupByDependencyDepth (g : DependencyGraph) (nodes : List String) :
    List (Nat × List String) :=
  (nodes.foldl (fun (acc : List (Nat × List String) × List (String × Nat)) node =>
    let r := calcDepth g (g.nodes.length + 1) acc.2 [] node
    (nlistSet acc.1 r.1 (nlistGetD acc.1 r.1 [] ++ [node]), r.2)) ([], [])).1

/-- One step of the file-collection loop of `createPartitionForDepth`:
skip files that are already allocated, stop collecting once
`maxFilesPerPartition` files have been gathered, and skip paths with no
matching record. -/
def depthScanStep (allFiles : List FileChange) (cfg : Config)
    (acc : List FileChange × List (String × Bool)) (filePath : String) :
    List FileChange × List (String × Bool) :=
  if alistGetD acc.2 filePath false then acc
  else if acc.1.length ≥ cfg.maxFilesPerPartition then acc
  else match getFileByPath allFiles filePath with
    | some file => (acc.1 ++ [file], alistSet acc.2 filePath true)
    | none => acc

/-- `createPartitionForDepth`: collect up to `maxFilesPerPartition`
not-yet-allocated files of the depth bucket, then emit one partition
(or none when the bucket was exhausted). Returns the emitted
partitions and the updated allocation map. -/
def createPartitionForDepth (depthFiles : List String)
    (allFiles : List FileChange) (allocated : List (String × Bool))
    (existingPartitions currentPartitions : List Partition) (cfg : Config) :
    List Partition × List (String × Bool) :=
  let scan := depthFiles.foldl (depthScanStep allFiles cfg) ([], allocated)
  let partitionFiles := scan.1
  if partitionFiles.length = 0 then ([], scan.2)
  else
    let id := existingPartitions.length + currentPartitions.length + 1
    let name := generateName partitionFiles
    let partition : Partition :=
      { id := id
        name := name
        description := generateDescription partitionFiles
        files := partitionFiles
        dependencies := calculateDependencies (getFilePaths partitionFiles)
          (existingPartitions ++ currentPartitions)
        branchName := cfg.branchPref ++ "-" ++ natStr id ++ "-" ++ name }
    ([partition], scan.2)

/-- The depth loop of `createDependencyPartitions`:
`for depth := 0; len(workingNodes) > 0 && depth <= len(workingNodes); depth++`,
with fuel. The loop runs while `depth` is at most the current length of
`workingNodes`, which never grows, so at most `len + 1` iterations
happen and the `len + 2` fuel passed by `createDependencyPartitions`
never runs out. -/
def phaseBLoop (depthGroups : List (Nat × List String))
    (allFiles : List FileChange) (existingPartitions : List Partition)
    (cfg : Config) : Nat → Nat → List String → List (String × Bool) →
    List Partition → List Partition
  | 0, _, _, _, partitions => partitions
  | fuel + 1, depth, workingNodes, allocated, partitions =>
    if workingNodes.length = 0 ∨ workingNodes.length < depth then partitions
    else
      let depthFiles := nlistGetD depthGroups depth []
      if depthFiles.length = 0 then
        phaseBLoop depthGroups allFiles existingPartitions cfg fuel (depth + 1)
          workingNodes allocated partitions
      else
        let r := createPartitionForDepth depthFiles allFiles allocated
          existingPartitions partitions cfg
        phaseBLoop depthGroups allFiles existingPartitions cfg fuel (depth + 1)
          (removeAllocatedNodes workingNodes r.2) r.2 (partitions ++ r.1)

/-- `createDependencyPartitions`. -/
def createDependencyPartitions (files : List FileChange)
    (g : DependencyGraph) (existingPartitions : List Partition)
    (cfg : Config) : List Partition :=
  let workingNodes := getFilePaths files
  let depthGroups := groupByDependencyDepth g workingNodes
  phaseBLoop depthGroups files existingPartitions cfg
    (workingNodes.length + 2) 0 workingNodes [] []

/-- One step of `createCircularDependencyPartitions`: emit the
partition of one circular group and mark its files allocated. -/
def circStep (files : List FileChange) (existingPartitions : List Partition)
    (cfg : Config) (acc : List Partition × List (String × Bool))
    (scc : SCCData) : List Partition × List (String × Bool) :=
  let sccFiles := getFilesByPaths files scc.filePaths
  let id := existingPartitions.length + acc.1.length + 1
  let name := generateName sccFiles
  let partition : Partition :=
    { id := id
      name := name
      description := "Circular dependency group (" ++
        natStr sccFiles.length ++ " files)"
      files := sccFiles
      dependencies := calculateDependencies scc.filePaths
        (existingPartitions ++ acc.1)
      branchName := cfg.branchPref ++ "-" ++ natStr id ++ "-" ++ name }
  (acc.1 ++ [partition],
   scc.filePaths.foldl (fun m p => alistSet m p true) acc.2)

/-- `createCircularDependencyPartitions`. Returns the partitions and
the allocation map. -/
def createCircularDependencyPartitions (sccs : List SCCData)
    (files : List FileChange) (existingPartitions : List Partition)
    (cfg : Config) (allocated : List (String × Bool)) :
    List Partition × List (String × Bool) :=
  sccs.foldl (circStep files existingPartitions cfg) ([], allocated)

/-- The chunk loop of `createSimplePartitions`, with fuel; `maxm1 + 1`
is `maxFilesPerPartition` (kept in successor form: every chunk consumes
at least one file, so the `|files| + 1` fuel passed by
`createSimplePartitions` never runs out), `num` is the running
`partitionNum = i/max + 1`. -/
def simpleChunks (maxm1 : Nat) (branchPref baseName : String) :
    Nat → Nat → Nat → List FileChange → List Partition
  | _, _, _, [] => []
  | 0, _, _, _ :: _ => []
  | fuel + 1, startID, num, f :: rest =>
      let partitionFiles := (f :: rest).take (maxm1 + 1)
      let name := baseName ++ "-" ++ natStr num
      { id := startID + 1
        name := name
        description := baseName ++ " files (" ++
          natStr partitionFiles.length ++ " files)"
        files := partitionFiles
        dependencies := []
        branchName := branchPref ++ "-" ++ natStr (startID + 1) ++ "-" ++ name }
        :: simpleChunks maxm1 branchPref baseName fuel (startID + 1) (num + 1)
          ((f :: rest).drop (maxm1 + 1))

/-- `createSimplePartitions`: size-based chunks `files[i:i+max]` named
`baseName-N`, ids continuing from `startID`. Go diverges when
`maxFilesPerPartition = 0`; the model returns `[]` there, and every
theorem that touches this code assumes `maxFilesPerPartition ≥ 1`. -/
def createSimplePartitions (files : List FileChange) (startID : Nat)
    (cfg : Config) (baseName : String) : List Partition :=
  match cfg.maxFilesPerPartition with
  | 0 => []
  | maxm1 + 1 =>
      simpleChunks maxm1 cfg.branchPref baseName (files.length + 1) startID 1 files

/-- `createRemainingFilePartitions`, with the order in which Go's
`range` enumerates the group map made explicit: `ord` reorders the
association list before emission (Go's map iteration order is
unspecified; the canonical model passes `id`, which iterates in
first-insertion order). -/
def createRemainingFilePartitionsOrd
    (ord : List (String × List FileChange) → List (String × List FileChange))
    (files : List FileChange) (existingPartitions : List Partition)
    (cfg : Config) : List Partition :=
  let groups := ord (groupFiles files)
  let partitions := groups.foldl (fun partitions g =>
    partitions ++ createSimplePartitions g.2
      (existingPartitions.length + partitions.length) cfg g.1) []
  if partitions.length = 0 then
    createSimplePartitions files existingPartitions.length cfg "remaining"
  else partitions

/-- `createAllPartitions` (with explicit Phase C group order). -/
def createAllPartitionsOrd
    (ord : List (String × List FileChange) → List (String × List FileChange))
    (files : List FileChange) (g : DependencyGraph) (sccs : List SCCData)
    (cfg : Config) : List Partition :=
  let r := createCircularDependencyPartitions sccs files [] cfg []
  let partitions := r.1
  let allocated := r.2
  let remainingFiles := getRemainingFiles files allocated
  let step2 :=
    if remainingFiles.length > 0 then
      let depPartitions := createDependencyPartitions remainingFiles g partitions cfg
      (partitions ++ depPartitions,
       depPartitions.foldl (fun m part =>
         part.files.foldl (fun m file => alistSet m file.path true) m) allocated)
    else (partitions, allocated)
  let partitions := step2.1
  let allocated := step2.2
  let unallocatedFiles := getRemainingFiles files allocated
  if unallocatedFiles.length > 0 then
    partitions ++ createRemainingFilePartitionsOrd ord unallocatedFiles partitions cfg
  else partitions

/-- `validateExhaustiveness` as a boolean check: every changed file's
path occurs in some partition. -/
def validateExhaustiveness (changedFiles : List FileChange)
    (partitions : List Partition) : Bool :=
  changedFiles.all fun file =>
    partitions.any fun partition =>
      partition.files.any fun f => f.path = file.path

/-- `CreatePlan` with explicit Phase C group order and prompt oracle. -/
def createPlanOrd
    (ord : List (String × List FileChange) → List (String × List FileChange))
    (approve : List String → Nat → Nat → Bool)
    (changes : List FileChange) (dependencies : List Dependency)
    (cfg : Config) : Except String PartitionPlan :=
  let changedFiles := filterChangedFiles changes
  if changedFiles.length = 0 then
    Except.error "no changed files to partition"
  else
    let graph := buildDependencyGraph changedFiles dependencies
    let sccs := findCircularDependencies graph
    match handleOversizedCircularGroups approve sccs cfg.maxFilesPerPartition with
    | Except.error e => Except.error e
    | Except.ok approvedSCCs =>
        let partitions := createAllPartitionsOrd ord changedFiles graph approvedSCCs cfg
        if ¬ validateExhaustiveness changedFiles partitions then
          Except.error "exhaustiveness validation failed"
        else
          Except.ok
            { partitions := partitions
              metadata :=
                { totalFiles := changedFiles.length
                  totalPartitions := partitions.length
                  maxFilesPerPartition := cfg.maxFilesPerPartition
                  strategy := cfg.strategy } }

/-- `CreatePlan` in the canonical model (insertion-order map
iteration). -/
def createPlan (approve : List String → Nat → Nat → Bool)
    (changes : List FileChange) (dependencies : List Dependency)
    (cfg : Config) : Except String PartitionPlan :=
  createPlanOrd id approve changes dependencies cfg

/-! ## Analyzer driver (`internal/plugin/manager.go`) -/

/-- A plugin registration: name plus the extensions it handles
(`Plugin.Extensions`). -/
structure PluginInfo where
  name : String
  extensions : List String
deriving DecidableEq, Repr

/-- `Manager.getPluginForFile`: the first registered plugin whose
extension list contains the file's (lower-cased) extension. -/
def getPluginForFile (plugins : List PluginInfo) (filePath : String) : String :=
  let ext := goToLower (goExt filePath)
  match plugins.find? (fun p => p.extensions.contains ext) with
  | some p => p.name
  | none => ""

/-- `Manager.groupFilesByPlugin`. -/
def groupFilesByPlugin (plugins : List PluginInfo)
    (files : List FileChange) : List (String × List FileChange) :=
  files.foldl (fun m file =>
    let pluginName := getPluginForFile plugins file.path
    if pluginName ≠ "" then alistUpd m pluginName [] (· ++ [file]) else m) []

/-- `Manager.AnalyzeDependencies`. Plugin execution and the regex
fallback are external processes and file scans; `results` returns, for
a plugin name and its file group, the dependency list that the plugin
run (or the fallback analysis on plugin failure) produced. The driver
concatenates those lists in group order, without any deduplication. -/
def analyzeDependencies (plugins : List PluginInfo)
    (results : String → List FileChange → List Dependency)
    (changes : List FileChange) : List Dependency :=
  let fileGroups := groupFilesByPlugin plugins changes
  fileGroups.foldl (fun acc g =>
    if g.2.length = 0 then acc else acc ++ results g.1 g.2) []

/-! ## Claim-support definitions -/

/-- The paths of a partition's files. -/
def partitionPaths (p : Partition) : List String := getFilePaths p.files

/-- The name pattern of spec §8.8: `[a-z0-9][a-z0-9-]*`, length at
most 30. -/
def legalName (s : String) : Bool :=
  let alnum := fun c : Char => ('a' ≤ c ∧ c ≤ 'z') ∨ ('0' ≤ c ∧ c ≤ '9')
  match s.data with
  | [] => false
  | c :: rest =>
      alnum c ∧ (rest.all fun c => alnum c ∨ c = '-') ∧ s.data.length ≤ 30

/-- A character the C8 amendment allows in input paths: `a-z0-9`, dash or slash. -/
def pathCharOK (c : Char) : Bool :=
  ('a' ≤ c ∧ c ≤ 'z') ∨ ('0' ≤ c ∧ c ≤ '9') ∨ c = '-' ∨ c = '/'

/-- A name character: `[a-z0-9-]`. -/
def nameCharOK (c : Char) : Bool :=
  ('a' ≤ c ∧ c ≤ 'z') ∨ ('0' ≤ c ∧ c ≤ '9') ∨ c = '-'

/-- The C8 amendment's restriction on one input path: characters from
`a-z0-9`, dash or slash and a first segment of at most 20 characters. -/
def c8PathOK (p : String) : Bool :=
  p.data.all pathCharOK ∧ ((splitSlash p).headD "").data.length ≤ 20

/-- A name base the residual chunk namer may prepend: nonempty, starts
alphanumeric, name characters only, at most 25 characters (so that
`base ++ "-" ++ natStr k` fits in 30 for `k ≤ 9999`). -/
def baseOK (b : String) : Bool :=
  match b.data with
  | [] => false
  | c :: rest =>
      (('a' ≤ c ∧ c ≤ 'z') ∨ ('0' ≤ c ∧ c ≤ '9')) ∧
      rest.all nameCharOK ∧ b.data.length ≤ 25

/-- An edge `f → g` of the input that is live (both endpoints changed)
and crosses two partitions of the plan in the claimed topological
order: the partition holding `g` has the strictly smaller id. Claim C2
asserts this for all live cross-partition edges. -/
def topoOrderHolds (plan : PartitionPlan) (dependencies : List Dependency) : Bool :=
  dependencies.all fun dep =>
    plan.partitions.all fun pf =>
      plan.partitions.all fun pg =>
        if (partitionPaths pf).contains dep.From ∧
           (partitionPaths pg).contains dep.To ∧ pf.id ≠ pg.id then
          pg.id < pf.id
        else true

/-- Reachability along the adjacency structure of a graph (reflexive,
transitive closure of the edge relation). -/
inductive Reaches (g : DependencyGraph) : String → String → Prop
  | refl (v : String) : Reaches g v v
  | step {u v w : String} (huv : (alistGetD g.adjacency u []).contains v)
      (hvw : Reaches g v w) : Reaches g u w

/-- A strongly connected component of the graph, as a set of nodes:
nonempty, mutually reachable, and closed under mutual reachability. -/
def IsSCC (g : DependencyGraph) (s : List String) : Prop :=
  s ≠ [] ∧ (∀ u ∈ s, u ∈ g.nodes) ∧
  (∀ u ∈ s, ∀ v ∈ s, Reaches g u v) ∧
  (∀ u ∈ s, ∀ v ∈ g.nodes, Reaches g u v → Reaches g v u → v ∈ s)

/-- The partitions of a `CreatePlan` result (empty on error). -/
def planPartitions (r : Except String PartitionPlan) : List Partition :=
  match r with
  | Except.ok plan => plan.partitions
  | Except.error _ => []

/-- The plan of a `CreatePlan` result (empty plan on error). -/
def getPlanD (r : Except String PartitionPlan) : PartitionPlan :=
  match r with
  | Except.ok plan => plan
  | Except.error _ => ⟨[], ⟨0, 0, 0, ""⟩⟩

/-! ## Concrete inputs used by counterexamples and witnesses -/

/-- A changed file at the given path. -/
def mkChange (p : String) : FileChange := ⟨p, "MODIFY", "", 1, 0, true, ""⟩

/-- An import dependency edge. -/
def mkDep (f t : String) (line : Nat) : Dependency :=
  ⟨f, t, "import", "STRONG", line, ""⟩

/-- A two-file input whose paths obey the C8 amendment's restrictions. -/
def c8GoodChanges : List FileChange := [mkChange "web/a", mkChange "web/b"]

/-- The oracle that approves every oversized-SCC prompt. -/
def approveAll : List String → Nat → Nat → Bool := fun _ _ _ => true

/-- A configuration with `maxFilesPerPartition = 10`. -/
def cfgTen : Config := ⟨10, 20, "pr-split", "dependency", "main"⟩

/-- A configuration with `maxFilesPerPartition = 1`. -/
def cfgOne : Config := ⟨1, 20, "pr-split", "dependency", "main"⟩

/-- C1 input files: `a` and `b`. -/
def c1Changes : List FileChange := [mkChange "a", mkChange "b"]

/-- C1 input edge: `a → b`. -/
def c1Deps : List Dependency := [mkDep "a" "b" 1]

/-- C2 input files: `a`, `b`, `c`. -/
def c2Changes : List FileChange := [mkChange "a", mkChange "b", mkChange "c"]

/-- C2 input edges: the cycle `a ↔ b` plus `a → c`. -/
def c2Deps : List Dependency := [mkDep "a" "b" 1, mkDep "b" "a" 1, mkDep "a" "c" 2]

/-- C4 input edges: the two-cycle `a ↔ b`. -/
def c4Deps : List Dependency := [mkDep "a" "b" 1, mkDep "b" "a" 1]

/-- C3 input: the path `p` appears twice (both records changed). -/
def c3Changes : List FileChange :=
  [mkChange "x", mkChange "p", mkChange "q", mkChange "p"]

/-- C5 input: three files of three different residual groups. -/
def c5Changes : List FileChange :=
  [mkChange "x.md", mkChange "y.css", mkChange "z.md"]

/-- C6 input: two independent files, both at dependency depth 0. -/
def c6Files : List FileChange := [mkChange "u", mkChange "v"]

/-- C7 input: one changed file with a self-loop edge. -/
def c7Changes : List FileChange := [mkChange "a"]

/-- C7 self-loop: `a → a`. -/
def c7Deps : List Dependency := [mkDep "a" "a" 1]

/-- C8 input: two files sharing the directory `web.app`, whose name
contains a dot. -/
def c8Changes : List FileChange := [mkChange "web.app/x", mkChange "web.app/y"]

/-- C9 registered plugins: the bundled TypeScript analyzer. -/
def c9Plugins : List PluginInfo := [⟨"typescript", [".ts", ".tsx"]⟩]

/-- C9 input: one changed TypeScript file. -/
def c9Changes : List FileChange := [mkChange "a.ts"]

/-- C9 plugin/fallback result: the same `(from, to, type)` edge
reported twice (e.g. the fallback regex scanner finding the same import
on two lines). -/
def c9Results : String → List FileChange → List Dependency :=
  fun _ _ => [mkDep "a.ts" "b.ts" 1, mkDep "a.ts" "b.ts" 2]

/-- C10 input: the path `r` appears twice (both records changed). -/
def c10Changes : List FileChange :=
  [mkChange "w", mkChange "r", mkChange "s", mkChange "r"]

/-- The stack discipline maintained by the Tarjan runner: the stack is
duplicate-free and indexed, emitted components are indexed,
duplicate-free, pairwise disjoint, and disjoint from the stack. A node
is pushed exactly when it receives an index, and indices are never
removed, so no node can ever be pushed or emitted twice. -/
structure TarjanDiscipline (st : TarjanState) : Prop where
  stack_nodup : st.stack.Nodup
  stack_indexed : ∀ x ∈ st.stack, alistHas st.indices x = true
  sccs_indexed : ∀ scc ∈ st.sccs, ∀ x ∈ scc.filePaths,
    alistHas st.indices x = true
  sccs_nodup : ∀ scc ∈ st.sccs, scc.filePaths.Nodup
  sccs_stack_disjoint : ∀ scc ∈ st.sccs, ∀ x ∈ scc.filePaths, x ∉ st.stack
  sccs_pairwise : st.sccs.Pairwise
    (fun s t => ∀ x ∈ s.filePaths, x ∉ t.filePaths)

/-- The index assigned to a node (0 when unindexed). -/
def idxOf (st : TarjanState) (x : String) : Nat := alistGetD st.indices x 0

/-- The lowlink of a node (0 when absent). -/
def lowOf (st : TarjanState) (x : String) : Nat := alistGetD st.lowlinks x 0

/-- The nodes not yet indexed by the Tarjan run. -/
def whites (g : DependencyGraph) (st : TarjanState) : List String :=
  g.nodes.filter (fun x => ¬ alistHas st.indices x)

/-- The running invariant of the embedded Tarjan algorithm. -/
structure TInv (g : DependencyGraph) (st : TarjanState) : Prop where
  stack_nodup : st.stack.Nodup
  stack_indexed : ∀ x ∈ st.stack, alistHas st.indices x = true
  onStack_iff : ∀ x, (alistGetD st.onStack x false = true ↔ x ∈ st.stack)
  idx_lt : ∀ x, alistHas st.indices x = true → idxOf st x < st.index
  low_le : ∀ x ∈ st.stack, lowOf st x ≤ idxOf st x
  stack_sorted : st.stack.Pairwise (fun a b => idxOf st b < idxOf st a)
  stack_reach : st.stack.Pairwise (fun a b => Reaches g b a)
  low_sound : ∀ x ∈ st.stack, ∃ z ∈ st.stack,
    Reaches g x z ∧ idxOf st z = lowOf st x
  sccs_closed : ∀ comp ∈ st.sccs, ∀ x ∈ comp.filePaths,
    alistHas st.indices x = true ∧ x ∉ st.stack ∧
    (∀ y ∈ comp.filePaths, Reaches g x y) ∧
    (∀ y, Reaches g x y → Reaches g y x → y ∈ comp.filePaths)
  black_sccs : ∀ x, alistHas st.indices x = true → x ∉ st.stack →
    ∃ comp ∈ st.sccs, x ∈ comp.filePaths
  sccs_size : ∀ comp ∈ st.sccs, comp.size = comp.filePaths.length

/-- Postcondition of one `strongConnect` call on an unvisited vertex. -/
structure SCPost (g : DependencyGraph) (st st' : TarjanState) (v : String) :
    Prop where
  inv : TInv g st'
  index_mono : st.index ≤ st'.index
  idx_keep : ∀ x k, alistGet st.indices x = some k →
    alistGet st'.indices x = some k
  idx_new : ∀ x, alistHas st.indices x = false →
    alistHas st'.indices x = true → Reaches g v x ∧ st.index ≤ idxOf st' x
  v_idx : alistGet st'.indices v = some st.index
  low_keep : ∀ x, alistHas st.indices x = true → x ≠ v →
    alistGet st'.lowlinks x = alistGet st.lowlinks x
  black_mono : ∀ x, alistHas st.indices x = true → x ∉ st.stack →
    x ∉ st'.stack
  sccs_mono : ∀ comp ∈ st.sccs, comp ∈ st'.sccs
  whites_lt : (whites g st').length < (whites g st).length
  shape : (st'.stack = st.stack ∧ lowOf st' v = idxOf st' v) ∨
    (∃ N, st'.stack = N ++ st.stack ∧ v ∈ N ∧
      (∀ x ∈ N, alistHas st.indices x = false) ∧
      (∀ x ∈ N, ∀ w ∈ alistGetD g.adjacency x [],
        alistHas st'.indices w = true ∧
        (lowOf st' x ≤ idxOf st' w ∨ w ∉ st'.stack)) ∧
      (∀ x ∈ N, lowOf st' v ≤ lowOf st' x) ∧
      (∀ x ∈ N, lowOf st' x < idxOf st' x))

/-- The invariant of the successor loop of one `strongConnect` call:
`st0` is the state at call entry, `stm` the running state. -/
structure LoopInv (g : DependencyGraph) (st0 : TarjanState) (v : String)
    (stm : TarjanState) : Prop where
  inv : TInv g stm
  v_idx : alistGet stm.indices v = some st0.index
  index_ge : st0.index + 1 ≤ stm.index
  shape : ∃ B, stm.stack = B ++ v :: st0.stack ∧
    (∀ x ∈ B, alistHas st0.indices x = false) ∧
    (∀ x ∈ B, ∀ w ∈ alistGetD g.adjacency x [],
      alistHas stm.indices w = true ∧
      (lowOf stm x ≤ idxOf stm w ∨ w ∉ stm.stack)) ∧
    (∀ x ∈ B, lowOf stm v ≤ lowOf stm x) ∧
    (∀ x ∈ B, lowOf stm x < idxOf stm x)
  idx_keep0 : ∀ x k, alistGet st0.indices x = some k →
    alistGet stm.indices x = some k
  idx_new0 : ∀ x, alistHas st0.indices x = false →
    alistHas stm.indices x = true → Reaches g v x ∧ st0.index ≤ idxOf stm x
  low_keep0 : ∀ x, alistHas st0.indices x = true → x ≠ v →
    alistGet stm.lowlinks x = alistGet st0.lowlinks x
  black_mono0 : ∀ x, alistHas st0.indices x = true → x ∉ st0.stack →
    x ∉ stm.stack
  sccs_mono0 : ∀ comp ∈ st0.sccs, comp ∈ stm.sccs
  whites_lt0 : (whites g stm).length < (whites g st0).length
  reach0 : ∀ x ∈ st0.stack, Reaches g x v

/-- Whether a `CreatePlan` result is a success. -/
def isOkB (r : Except String PartitionPlan) : Bool :=
  match r with
  | Except.ok _ => true
  | Except.error _ => false

/-! # Theorems -/

/-! ## Association-list lemmas -/

theorem alistGet_set_eq {β : Type} (m : List (String × β)) (k : String) (v : β) :
    alistGet (alistSet m k v) k = some v := by
  induction m with
  | nil => simp [alistSet, alistGet]
  | cons hd tl ih =>
      obtain ⟨k', v'⟩ := hd
      by_cases h : k' = k <;> simp [alistSet, alistGet, h, ih]

theorem alistGet_set_ne {β : Type} (m : List (String × β)) (k k' : String)
    (v : β) (h : k' ≠ k) : alistGet (alistSet m k v) k' = alistGet m k' := by
  have h' : ¬ k = k' := fun hh => h hh.symm
  induction m with
  | nil => simp [alistSet, alistGet, h']
  | cons hd tl ih =>
      obtain ⟨k₀, v₀⟩ := hd
      by_cases h₀ : k₀ = k
      · subst h₀
        simp [alistSet, alistGet, h']
      · simp [alistSet, alistGet, h₀, ih]

theorem alistGetD_set_eq {β : Type} (m : List (String × β)) (k : String)
    (v d : β) : alistGetD (alistSet m k v) k d = v := by
  simp [alistGetD, alistGet_set_eq]

theorem alistGetD_set_ne {β : Type} (m : List (String × β)) (k k' : String)
    (v : β) (d : β) (h : k' ≠ k) :
    alistGetD (alistSet m k v) k' d = alistGetD m k' d := by
  simp [alistGetD, alistGet_set_ne m k k' v h]

theorem alistHas_set {β : Type} (m : List (String × β)) (k k' : String) (v : β) :
    alistHas (alistSet m k v) k' = (alistHas m k' || k' = k) := by
  by_cases h : k' = k
  · subst h
    simp [alistHas, alistGet_set_eq]
  · simp [alistHas, alistGet_set_ne m k k' v h, h]

theorem alistGet_isSome_iff_mem_keys {β : Type} (m : List (String × β))
    (k : String) : (alistGet m k).isSome ↔ k ∈ m.map (·.1) := by
  induction m with
  | nil => simp [alistGet]
  | cons hd tl ih =>
      obtain ⟨k', v'⟩ := hd
      by_cases h : k' = k
      · subst h
        simp [alistGet]
      · have h' : ¬ k' = k := h
        have h'' : ¬ k = k' := fun hh => h hh.symm
        simp [alistGet, h', h'', ih]

/-- Marking keys `true` never unmarks anything. -/
theorem alistGetD_mark_mono (m : List (String × Bool)) (p q : String)
    (h : alistGetD m p false = true) :
    alistGetD (alistSet m q true) p false = true := by
  by_cases hpq : p = q
  · subst hpq
    simp [alistGetD_set_eq]
  · rw [alistGetD_set_ne m q p true false hpq]
    exact h

/-- What is marked after a bulk mark: the old marks plus the listed
keys. -/
theorem alistGetD_markList (paths : List String) :
    ∀ (m : List (String × Bool)) (p : String),
    alistGetD (paths.foldl (fun m q => alistSet m q true) m) p false = true ↔
      (alistGetD m p false = true ∨ p ∈ paths) := by
  induction paths with
  | nil => simp
  | cons q rest ih =>
      intro m p
      simp only [List.foldl_cons, ih, List.mem_cons]
      by_cases hpq : p = q
      · subst hpq
        simp [alistGetD_set_eq]
      · rw [alistGetD_set_ne m q p true false hpq]
        tauto

/-! ## C9: the driver concatenates without deduplication -/

/-- Occurrence count of edges satisfying `p` in the driver's fold. -/
theorem analyzeDeps_fold_countP
    (results : String → List FileChange → List Dependency)
    (p : Dependency → Bool) :
    ∀ (groups : List (String × List FileChange)) (acc : List Dependency),
    (groups.foldl (fun acc g =>
      if g.2.length = 0 then acc else acc ++ results g.1 g.2) acc).countP p =
    acc.countP p + (groups.map fun g =>
      if g.2.length = 0 then 0 else (results g.1 g.2).countP p).sum := by
  intro groups
  induction groups with
  | nil => simp
  | cons g rest ih =>
      intro acc
      rw [List.foldl_cons, ih]
      by_cases h : g.2.length = 0
      · simp only [List.map_cons, List.sum_cons, if_pos h]
        omega
      · simp only [List.map_cons, List.sum_cons, if_neg h, List.countP_append]
        omega

/-- C9: the analyzer driver performs no deduplication: for every
predicate on edges (in particular, "has a given `(from, to, type)`
key"), the number of matching edges in the aggregated list it hands to
the partition engine is the sum of the matching edges over the
per-group plugin/fallback results. Reporting the same edge twice
therefore leaves it twice in the aggregate; the `(from, to, type)`
deduplication exists only inside the bundled TypeScript plugin. -/
theorem C9_driver_preserves_multiplicity (plugins : List PluginInfo)
    (results : String → List FileChange → List Dependency)
    (changes : List FileChange) (p : Dependency → Bool) :
    (analyzeDependencies plugins results changes).countP p =
      ((groupFilesByPlugin plugins changes).map fun g =>
        if g.2.length = 0 then 0 else (results g.1 g.2).countP p).sum := by
  unfold analyzeDependencies
  rw [analyzeDeps_fold_countP]
  simp

/-! ## C7: graph builder characterization -/

theorem alistSet_mem_keys {β : Type} (m : List (String × β)) (k p : String)
    (v : β) : p ∈ (alistSet m k v).map (·.1) ↔ (p ∈ m.map (·.1) ∨ p = k) := by
  induction m with
  | nil => simp [alistSet]
  | cons hd tl ih =>
      obtain ⟨k₀, v₀⟩ := hd
      by_cases h : k₀ = k
      · subst h
        simp [alistSet]
        tauto
      · simp [alistSet, h, ih]
        tauto

/-- Keys of the node-set fold: the initial keys plus the file paths. -/
theorem nodeSet_mem_keys (files : List FileChange) (p : String) :
    ∀ m0 : List (String × Bool),
    (p ∈ (files.foldl (fun m f => alistSet m f.path true) m0).map (·.1) ↔
      (p ∈ m0.map (·.1) ∨ p ∈ getFilePaths files)) := by
  induction files with
  | nil => simp [getFilePaths]
  | cons f rest ih =>
      intro m0
      simp only [List.foldl_cons, ih, alistSet_mem_keys, getFilePaths,
        List.map_cons, List.mem_cons]
      constructor
      · rintro (⟨h | h⟩ | h) <;> simp [h, getFilePaths]
      · rintro (h | h | h) <;> simp [h, getFilePaths]

/-- Values looked up in the node-set fold. -/
theorem nodeSet_getD (files : List FileChange) (p : String) :
    ∀ m0 : List (String × Bool),
    (alistGetD (files.foldl (fun m f => alistSet m f.path true) m0) p false = true ↔
      (alistGetD m0 p false = true ∨ p ∈ getFilePaths files)) := by
  induction files with
  | nil => simp [getFilePaths]
  | cons f rest ih =>
      intro m0
      simp only [List.foldl_cons, ih, getFilePaths, List.map_cons, List.mem_cons]
      by_cases h : p = f.path
      · subst h
        simp [alistGetD_set_eq]
      · rw [alistGetD_set_ne m0 f.path p true false h]
        simp [getFilePaths, h]

theorem alistGetD_upd_append_contains (m : List (String × List String))
    (k x u v : String) :
    ((alistGetD (alistUpd m k [] (· ++ [x])) u []).contains v = true) ↔
      ((alistGetD m u []).contains v = true ∨ (u = k ∧ v = x)) := by
  by_cases h : u = k
  · subst h
    simp only [alistUpd, alistGetD_set_eq]
    simp only [List.elem_iff, List.mem_append, List.mem_singleton]
    tauto
  · simp only [alistUpd]
    rw [alistGetD_set_ne m k u _ [] h]
    simp [h]

/-- The edge fold of `buildDependencyGraph` does not change the node
list. -/
theorem graphFold_nodes (nodeSet : List (String × Bool))
    (deps : List Dependency) :
    ∀ g : DependencyGraph,
    (deps.foldl (fun g dep =>
      if alistGetD nodeSet dep.From false ∧ alistGetD nodeSet dep.To false then
        { g with
          edges := g.edges ++ [dep]
          adjacency := alistUpd g.adjacency dep.From [] (· ++ [dep.To])
          outDegree := alistUpd g.outDegree dep.From 0 (· + 1)
          inDegree := alistUpd g.inDegree dep.To 0 (· + 1) }
      else g) g).nodes = g.nodes := by
  induction deps with
  | nil => intro g; rfl
  | cons d rest ih =>
      intro g
      simp only [List.foldl_cons]
      by_cases h : alistGetD nodeSet d.From false = true ∧
          alistGetD nodeSet d.To false = true
      · rw [if_pos h, ih]
      · rw [if_neg h, ih]

/-- Adjacency of the edge fold of `buildDependencyGraph`. -/
theorem graphFold_adj (nodeSet : List (String × Bool))
    (deps : List Dependency) (u v : String) :
    ∀ g : DependencyGraph,
    ((alistGetD (deps.foldl (fun g dep =>
      if alistGetD nodeSet dep.From false ∧ alistGetD nodeSet dep.To false then
        { g with
          edges := g.edges ++ [dep]
          adjacency := alistUpd g.adjacency dep.From [] (· ++ [dep.To])
          outDegree := alistUpd g.outDegree dep.From 0 (· + 1)
          inDegree := alistUpd g.inDegree dep.To 0 (· + 1) }
      else g) g).adjacency u []).contains v = true ↔
    ((alistGetD g.adjacency u []).contains v = true ∨
      ∃ d ∈ deps, d.From = u ∧ d.To = v ∧
        alistGetD nodeSet d.From false = true ∧
        alistGetD nodeSet d.To false = true)) := by
  induction deps with
  | nil => simp
  | cons d rest ih =>
      intro g
      by_cases h : alistGetD nodeSet d.From false ∧ alistGetD nodeSet d.To false
      · simp only [List.foldl_cons, if_pos h, ih, alistGetD_upd_append_contains,
          List.mem_cons]
        constructor
        · rintro (⟨hc | ⟨hu, hv⟩⟩ | ⟨dd, hdd, hrest⟩)
          · exact Or.inl hc
          · exact Or.inr ⟨d, Or.inl rfl, hu.symm, hv.symm, h.1, h.2⟩
          · exact Or.inr ⟨dd, Or.inr hdd, hrest⟩
        · rintro (hc | ⟨dd, hdd | hdd, hfrom, hto, hns1, hns2⟩)
          · exact Or.inl (Or.inl hc)
          · subst hdd
            exact Or.inl (Or.inr ⟨hfrom.symm, hto.symm⟩)
          · exact Or.inr ⟨dd, hdd, hfrom, hto, hns1, hns2⟩
      · simp only [List.foldl_cons, if_neg h, ih, List.mem_cons]
        constructor
        · rintro (hc | ⟨dd, hdd, hrest⟩)
          · exact Or.inl hc
          · exact Or.inr ⟨dd, Or.inr hdd, hrest⟩
        · rintro (hc | ⟨dd, hdd | hdd, hfrom, hto, hns1, hns2⟩)
          · exact Or.inl hc
          · subst hdd
            subst hfrom
            subst hto
            exact absurd ⟨hns1, hns2⟩ h
          · exact Or.inr ⟨dd, hdd, hfrom, hto, hns1, hns2⟩

/-- C7: the dependency graph built for a `CreatePlan` call has as node
set exactly the paths of the `isChanged = true` files, and has an
adjacency entry `from → to` if and only if some input dependency has
both endpoints in that node set — edges touching unknown or context
files are dropped, but self-loops are KEPT (the claimed `from ≠ to`
condition does not hold; see the counterexample). -/
theorem C7_graph_nodes_and_adjacency (changes : List FileChange)
    (deps : List Dependency) (u v : String) :
    (u ∈ (buildDependencyGraph (filterChangedFiles changes) deps).nodes ↔
      ∃ f ∈ changes, f.isChanged = true ∧ f.path = u) ∧
    ((alistGetD (buildDependencyGraph (filterChangedFiles changes) deps).adjacency
        u []).contains v = true ↔
      ∃ d ∈ deps, d.From = u ∧ d.To = v ∧
        (∃ f ∈ changes, f.isChanged = true ∧ f.path = u) ∧
        (∃ f ∈ changes, f.isChanged = true ∧ f.path = v)) := by
  have hpaths : ∀ q : String,
      q ∈ getFilePaths (filterChangedFiles changes) ↔
        ∃ f ∈ changes, f.isChanged = true ∧ f.path = q := by
    intro q
    simp only [getFilePaths, filterChangedFiles, List.mem_map, List.mem_filter]
    constructor
    · rintro ⟨f, ⟨hf, hc⟩, hp⟩
      exact ⟨f, hf, by simpa using hc, hp⟩
    · rintro ⟨f, hf, hc, hp⟩
      exact ⟨f, ⟨hf, by simpa using hc⟩, hp⟩
  constructor
  · have h1 : (buildDependencyGraph (filterChangedFiles changes) deps).nodes =
        ((filterChangedFiles changes).foldl
          (fun m f => alistSet m f.path true) []).map (·.1) := by
      simp only [buildDependencyGraph]
      rw [graphFold_nodes]
    rw [h1, nodeSet_mem_keys]
    simp [hpaths]
  · simp only [buildDependencyGraph]
    rw [graphFold_adj]
    constructor
    · rintro (h | ⟨d, hd, hfrom, hto, hns1, hns2⟩)
      · simp [alistGetD, alistGet] at h
      · refine ⟨d, hd, hfrom, hto, ?_, ?_⟩
        · apply (hpaths u).mp
          rcases (nodeSet_getD (filterChangedFiles changes) d.From []).mp hns1
            with h0 | hmem
          · simp [alistGetD, alistGet] at h0
          · exact hfrom ▸ hmem
        · apply (hpaths v).mp
          rcases (nodeSet_getD (filterChangedFiles changes) d.To []).mp hns2
            with h0 | hmem
          · simp [alistGetD, alistGet] at h0
          · exact hto ▸ hmem
    · rintro ⟨d, hd, hfrom, hto, hu, hv⟩
      refine Or.inr ⟨d, hd, hfrom, hto, ?_, ?_⟩
      · exact (nodeSet_getD (filterChangedFiles changes) d.From []).mpr
          (Or.inr (hfrom ▸ (hpaths u).mpr hu))
      · exact (nodeSet_getD (filterChangedFiles changes) d.To []).mpr
          (Or.inr (hto ▸ (hpaths v).mpr hv))

/-! ## C6: the per-depth emission -/

theorem getFileByPath_path (files : List FileChange) (q : String)
    (f : FileChange) (h : getFileByPath files q = some f) : f.path = q := by
  have := List.find?_some h
  simpa using this

theorem getFileByPath_mem (files : List FileChange) (q : String)
    (f : FileChange) (h : getFileByPath files q = some f) : f ∈ files :=
  List.mem_of_find?_eq_some h

/-- Characterization of the collection scan of
`createPartitionForDepth` on a bucket of distinct, unallocated,
resolvable paths: it collects exactly the first
`maxFilesPerPartition − |acc|` paths and marks exactly those. -/
theorem depthScan_spec (allFiles : List FileChange) (cfg : Config) :
    ∀ (dfs : List String) (acc : List FileChange × List (String × Bool)),
    dfs.Nodup →
    (∀ q ∈ dfs, alistGetD acc.2 q false = false) →
    (∀ q ∈ dfs, (getFileByPath allFiles q).isSome) →
    (getFilePaths (dfs.foldl (depthScanStep allFiles cfg) acc).1 =
      getFilePaths acc.1 ++
        dfs.take (cfg.maxFilesPerPartition - acc.1.length)) ∧
    (∀ p, alistGetD (dfs.foldl (depthScanStep allFiles cfg) acc).2 p false = true ↔
      (alistGetD acc.2 p false = true ∨
        p ∈ dfs.take (cfg.maxFilesPerPartition - acc.1.length))) := by
  intro dfs
  induction dfs with
  | nil => simp
  | cons q rest ih =>
      intro acc hnodup hun hres
      have hq : alistGetD acc.2 q false = false := hun q (by simp)
      by_cases hlen : acc.1.length ≥ cfg.maxFilesPerPartition
      · have hb : cfg.maxFilesPerPartition - acc.1.length = 0 := by omega
        have hstep : depthScanStep allFiles cfg acc q = acc := by
          simp [depthScanStep, hq, hlen]
        have ihr := ih acc hnodup.of_cons
          (fun q' hq' => hun q' (by simp [hq'])) (fun q' hq' => hres q' (by simp [hq']))
        rw [List.foldl_cons, hstep]
        refine ⟨?_, ?_⟩
        · rw [ihr.1]
          have hb2 : cfg.maxFilesPerPartition - acc.1.length = 0 := hb
          simp [hb2]
        · intro p
          rw [ihr.2 p]
          simp [hb]
      · obtain ⟨f, hf⟩ := Option.isSome_iff_exists.mp (hres q (by simp))
        have hfp : f.path = q := getFileByPath_path allFiles q f hf
        have hstep : depthScanStep allFiles cfg acc q =
            (acc.1 ++ [f], alistSet acc.2 q true) := by
          simp [depthScanStep, hq, hlen, hf]
        have hun' : ∀ q' ∈ rest, alistGetD (alistSet acc.2 q true) q' false = false := by
          intro q' hq'
          have hne : q' ≠ q := by
            intro he
            subst he
            exact (List.nodup_cons.mp hnodup).1 hq'
          rw [alistGetD_set_ne acc.2 q q' true false hne]
          exact hun q' (by simp [hq'])
        have ihr := ih (acc.1 ++ [f], alistSet acc.2 q true)
          hnodup.of_cons hun' (fun q' hq' => hres q' (by simp [hq']))
        have hbudget : cfg.maxFilesPerPartition - (acc.1 ++ [f]).length =
            cfg.maxFilesPerPartition - acc.1.length - 1 := by
          simp
          omega
        have hbpos : 1 ≤ cfg.maxFilesPerPartition - acc.1.length := by omega
        rw [List.foldl_cons, hstep]
        refine ⟨?_, ?_⟩
        · rw [ihr.1, hbudget]
          have htake : (q :: rest).take (cfg.maxFilesPerPartition - acc.1.length) =
              q :: rest.take (cfg.maxFilesPerPartition - acc.1.length - 1) := by
            obtain ⟨b, hb⟩ : ∃ b, cfg.maxFilesPerPartition - acc.1.length = b + 1 :=
              ⟨cfg.maxFilesPerPartition - acc.1.length - 1, by omega⟩
            rw [hb]
            simp
          rw [htake]
          simp [getFilePaths, hfp]
        · intro p
          rw [ihr.2 p, hbudget]
          have htake : (q :: rest).take (cfg.maxFilesPerPartition - acc.1.length) =
              q :: rest.take (cfg.maxFilesPerPartition - acc.1.length - 1) := by
            obtain ⟨b, hb⟩ : ∃ b, cfg.maxFilesPerPartition - acc.1.length = b + 1 :=
              ⟨cfg.maxFilesPerPartition - acc.1.length - 1, by omega⟩
            rw [hb]
            simp
          rw [htake]
          by_cases hp : p = q
          · subst hp
            simp [alistGetD_set_eq]
          · rw [alistGetD_set_ne acc.2 q p true false hp]
            simp [hp]

/-- C6 (amended): in Phase B, a depth bucket holding more distinct,
unallocated, resolvable files than `maxFilesPerPartition ≥ 1` is
emitted as a SINGLE partition containing exactly the first
`maxFilesPerPartition` files of the bucket; the remaining files of the
bucket are not allocated at that depth level (they fall through to the
residual phase), contrary to the claimed splitting into consecutive
partitions covering the whole bucket. -/
theorem C6_overflowing_bucket_single_partition (depthFiles : List String)
    (allFiles : List FileChange) (allocated : List (String × Bool))
    (existing current : List Partition) (cfg : Config)
    (hnodup : depthFiles.Nodup)
    (hun : ∀ q ∈ depthFiles, alistGetD allocated q false = false)
    (hres : ∀ q ∈ depthFiles, (getFileByPath allFiles q).isSome)
    (hover : cfg.maxFilesPerPartition < depthFiles.length)
    (hpos : 1 ≤ cfg.maxFilesPerPartition) :
    (createPartitionForDepth depthFiles allFiles allocated existing current
        cfg).1.map (fun part => getFilePaths part.files) =
      [depthFiles.take cfg.maxFilesPerPartition] ∧
    (createPartitionForDepth depthFiles allFiles allocated existing current
        cfg).1.map (fun part => part.files.length) =
      [cfg.maxFilesPerPartition] ∧
    ∀ q ∈ depthFiles.drop cfg.maxFilesPerPartition,
      alistGetD (createPartitionForDepth depthFiles allFiles allocated existing
        current cfg).2 q false = false := by
  have hspec := depthScan_spec allFiles cfg depthFiles ([], allocated)
    hnodup hun hres
  have hpaths : getFilePaths (depthFiles.foldl (depthScanStep allFiles cfg)
      ([], allocated)).1 = depthFiles.take cfg.maxFilesPerPartition := by
    rw [hspec.1]
    simp [getFilePaths]
  have hlen : (depthFiles.foldl (depthScanStep allFiles cfg)
      ([], allocated)).1.length = cfg.maxFilesPerPartition := by
    have h1 := congrArg List.length hpaths
    simp only [getFilePaths, List.length_map, List.length_take] at h1
    omega
  have hne : ¬ (depthFiles.foldl (depthScanStep allFiles cfg)
      ([], allocated)).1.length = 0 := by omega
  have hdrop : ∀ q ∈ depthFiles.drop cfg.maxFilesPerPartition,
      alistGetD (depthFiles.foldl (depthScanStep allFiles cfg)
        ([], allocated)).2 q false = false := by
    intro q hq
    by_cases hm : alistGetD (depthFiles.foldl (depthScanStep allFiles cfg)
        ([], allocated)).2 q false = true
    · rcases (hspec.2 q).mp hm with h0 | htake
      · exfalso
        have hq' : q ∈ depthFiles := List.mem_of_mem_drop hq
        have := hun q hq'
        simp only [alistGetD] at h0 this
        rw [this] at h0
        exact Bool.false_ne_true h0
      · exfalso
        have hnd2 : (depthFiles.take cfg.maxFilesPerPartition ++
            depthFiles.drop cfg.maxFilesPerPartition).Nodup := by
          rw [List.take_append_drop]
          exact hnodup
        have hdisj := (List.nodup_append.mp hnd2).2.2
        have htake2 : q ∈ depthFiles.take cfg.maxFilesPerPartition := by
          simpa using htake
        exact hdisj htake2 hq
    · simpa using hm
  unfold createPartitionForDepth
  simp only [if_neg hne]
  refine ⟨?_, ?_, ?_⟩
  · simp [hpaths]
  · simp [hlen]
  · exact hdrop

/-! ## C10: duplicate paths are not an error; full allocation -/

theorem alistGet_mem {β : Type} (m : List (String × β)) (k : String) (v : β)
    (h : alistGet m k = some v) : (k, v) ∈ m := by
  induction m with
  | nil => simp [alistGet] at h
  | cons hd tl ih =>
      obtain ⟨k₀, v₀⟩ := hd
      by_cases h₀ : k₀ = k
      · subst h₀
        simp [alistGet] at h
        simp [h]
      · simp only [alistGet, if_neg h₀] at h
        simp [ih h]

theorem alistGet_upd_append {β : Type} (m : List (String × List β)) (k k' : String)
    (x : β) :
    alistGet (alistUpd m k [] (· ++ [x])) k' =
      if k' = k then some (alistGetD m k [] ++ [x]) else alistGet m k' := by
  by_cases h : k' = k
  · subst h
    simp [alistUpd, alistGet_set_eq]
  · simp [alistUpd, alistGet_set_ne m k k' _ h, h]

/-- Every file lands in its group inside the grouper's fold. -/
theorem groupFiles_covers (files : List FileChange) :
    ∀ (acc : List (String × List FileChange)) (f : FileChange),
    (f ∈ files ∨ ∃ v, alistGet acc (determineGroup f) = some v ∧ f ∈ v) →
    ∃ v, alistGet (files.foldl
      (fun m file => alistUpd m (determineGroup file) [] (· ++ [file])) acc)
      (determineGroup f) = some v ∧ f ∈ v := by
  induction files with
  | nil =>
      intro acc f h
      rcases h with h | h
      · simp at h
      · simpa using h
  | cons f0 rest ih =>
      intro acc f h
      simp only [List.foldl_cons]
      apply ih
      by_cases hf : f = f0
      · subst hf
        right
        rw [alistGet_upd_append]
        simp
      · rcases h with hmem | ⟨v, hv, hfv⟩
        · rcases List.mem_cons.mp hmem with he | hmem'
          · exact absurd he hf
          · exact Or.inl hmem'
        · right
          rw [alistGet_upd_append]
          by_cases hg : determineGroup f = determineGroup f0
          · rw [if_pos hg]
            refine ⟨_, rfl, ?_⟩
            simp only [alistGetD, ← hg, hv, Option.getD_some, List.mem_append,
              List.mem_singleton]
            exact Or.inl hfv
          · rw [if_neg hg]
            exact ⟨v, hv, hfv⟩

/-- `simpleChunks` allocates every file of its input (its fuel is
always ample as passed by `createSimplePartitions`). -/
theorem simpleChunks_covers (maxm1 : Nat) (pref base : String) :
    ∀ (fuel : Nat) (files : List FileChange) (startID num : Nat),
    files.length < fuel →
    ∀ f ∈ files, ∃ part ∈ simpleChunks maxm1 pref base fuel startID num files,
      f ∈ part.files := by
  intro fuel
  induction fuel with
  | zero => intro files _ _ h f hf; omega
  | succ fuel ih =>
      intro files startID num hlen f hf
      cases files with
      | nil => simp at hf
      | cons f0 rest =>
          by_cases htake : f ∈ (f0 :: rest).take (maxm1 + 1)
          · refine ⟨_, List.mem_cons_self _ _, ?_⟩
            show f ∈ (f0 :: rest).take (maxm1 + 1)
            exact htake
          · have hdrop : f ∈ (f0 :: rest).drop (maxm1 + 1) := by
              have hf2 : f ∈ (f0 :: rest).take (maxm1 + 1) ++
                  (f0 :: rest).drop (maxm1 + 1) := by
                rw [List.take_append_drop]
                exact hf
              rcases List.mem_append.mp hf2 with h | h
              · exact absurd h htake
              · exact h
            have hlen2 : ((f0 :: rest).drop (maxm1 + 1)).length < fuel := by
              simp only [List.length_drop, List.length_cons] at hlen ⊢
              omega
            obtain ⟨part, hp, hfp⟩ := ih _ (startID + 1) (num + 1) hlen2 f hdrop
            refine ⟨part, ?_, hfp⟩
            show part ∈ _ :: simpleChunks maxm1 pref base fuel (startID + 1)
              (num + 1) ((f0 :: rest).drop (maxm1 + 1))
            exact List.mem_cons_of_mem _ hp

/-- `createSimplePartitions` allocates every input file when
`maxFilesPerPartition ≥ 1`. -/
theorem createSimplePartitions_covers (files : List FileChange)
    (startID : Nat) (cfg : Config) (base : String)
    (hmax : 1 ≤ cfg.maxFilesPerPartition) :
    ∀ f ∈ files, ∃ part ∈ createSimplePartitions files startID cfg base,
      f ∈ part.files := by
  intro f hf
  obtain ⟨maxm1, hm⟩ : ∃ m, cfg.maxFilesPerPartition = m + 1 :=
    ⟨cfg.maxFilesPerPartition - 1, by omega⟩
  unfold createSimplePartitions
  rw [hm]
  exact simpleChunks_covers maxm1 cfg.branchPref base (files.length + 1)
    files startID 1 (by omega) f hf

/-- Membership in the residual-group fold is monotone. -/
theorem groupsFold_mono (cfg : Config) (existingLen : Nat) (x : Partition) :
    ∀ (groups : List (String × List FileChange)) (acc : List Partition),
    x ∈ acc →
    x ∈ groups.foldl (fun partitions g =>
      partitions ++ createSimplePartitions g.2
        (existingLen + partitions.length) cfg g.1) acc := by
  intro groups
  induction groups with
  | nil => intro acc h; simpa using h
  | cons g rest ih =>
      intro acc h
      simp only [List.foldl_cons]
      exact ih _ (by simp [h])

/-- The residual-group fold allocates every file of every group. -/
theorem groupsFold_covers (cfg : Config) (existingLen : Nat)
    (hmax : 1 ≤ cfg.maxFilesPerPartition) :
    ∀ (groups : List (String × List FileChange)) (acc : List Partition)
      (f : FileChange),
    (∃ g ∈ groups, f ∈ g.2) →
    ∃ part ∈ groups.foldl (fun partitions g =>
      partitions ++ createSimplePartitions g.2
        (existingLen + partitions.length) cfg g.1) acc,
      f ∈ part.files := by
  intro groups
  induction groups with
  | nil =>
      rintro acc f ⟨g, hg, _⟩
      simp at hg
  | cons g0 rest ih =>
      rintro acc f ⟨g, hg, hfg⟩
      rcases List.mem_cons.mp hg with he | hmem
      · subst he
        obtain ⟨part, hp, hfp⟩ := createSimplePartitions_covers g.2
          (existingLen + acc.length) cfg g.1 hmax f hfg
        refine ⟨part, ?_, hfp⟩
        simp only [List.foldl_cons]
        exact groupsFold_mono cfg existingLen part rest _ (by simp [hp])
      · simp only [List.foldl_cons]
        exact ih _ f ⟨g, hmem, hfg⟩

/-- Phase C (`createRemainingFilePartitions` with the canonical group
order) allocates every file it is given. -/
theorem cRFP_covers (files : List FileChange) (existing : List Partition)
    (cfg : Config) (hmax : 1 ≤ cfg.maxFilesPerPartition) :
    ∀ f ∈ files, ∃ part ∈ createRemainingFilePartitionsOrd id files existing cfg,
      f ∈ part.files := by
  intro f hf
  unfold createRemainingFilePartitionsOrd
  set groups := groupFiles files with hgroups
  have hcov : ∃ g ∈ groups, f ∈ g.2 := by
    obtain ⟨v, hv, hfv⟩ := groupFiles_covers files [] f (Or.inl hf)
    exact ⟨(determineGroup f, v), alistGet_mem _ _ _ hv, hfv⟩
  set partitions := groups.foldl (fun partitions g =>
    partitions ++ createSimplePartitions g.2
      (existing.length + partitions.length) cfg g.1) [] with hparts
  by_cases hlen : partitions.length = 0
  · simp only [id_eq, ← hgroups, ← hparts, hlen, if_pos]
    have h0 : partitions = [] := List.length_eq_zero.mp hlen
    obtain ⟨g, hg, hfg⟩ := hcov
    obtain ⟨part, hp, hfp⟩ := groupsFold_covers cfg existing.length hmax
      groups [] f ⟨g, hg, hfg⟩
    rw [← hparts] at hp
    rw [h0] at hp
    simp at hp
  · have h1 := groupsFold_covers cfg existing.length hmax groups [] f hcov
    rw [← hparts] at h1
    simp only [id_eq, ← hgroups, ← hparts, hlen, if_neg hlen]
    exact h1

theorem getFilesByPaths_mem (files : List FileChange) (paths : List String)
    (f : FileChange) : f ∈ getFilesByPaths files paths ↔
      (f ∈ files ∧ f.path ∈ paths) := by
  simp [getFilesByPaths, List.mem_filter, List.elem_iff]

/-- Marks made by the Phase A fold: the initial marks plus every
member path of every circular group. -/
theorem circFold_marks (files : List FileChange) (existing : List Partition)
    (cfg : Config) (sccs : List SCCData) :
    ∀ (acc : List Partition × List (String × Bool)) (p : String),
    (alistGetD (sccs.foldl (circStep files existing cfg) acc).2 p false = true ↔
      (alistGetD acc.2 p false = true ∨ ∃ scc ∈ sccs, p ∈ scc.filePaths)) := by
  induction sccs with
  | nil => simp
  | cons scc rest ih =>
      intro acc p
      simp only [List.foldl_cons]
      rw [ih]
      show (alistGetD (scc.filePaths.foldl (fun m q => alistSet m q true) acc.2)
        p false = true ∨ _) ↔ _
      rw [alistGetD_markList]
      simp only [List.mem_cons]
      constructor
      · rintro ((h | h) | ⟨s, hs, hp⟩)
        · exact Or.inl h
        · exact Or.inr ⟨scc, Or.inl rfl, h⟩
        · exact Or.inr ⟨s, Or.inr hs, hp⟩
      · rintro (h | ⟨s, hs | hs, hp⟩)
        · exact Or.inl (Or.inl h)
        · subst hs
          exact Or.inl (Or.inr hp)
        · exact Or.inr ⟨s, hs, hp⟩

/-- Membership in the Phase A fold's partition list is monotone. -/
theorem circFold_mono (files : List FileChange) (existing : List Partition)
    (cfg : Config) (x : Partition) :
    ∀ (sccs : List SCCData) (acc : List Partition × List (String × Bool)),
    x ∈ acc.1 → x ∈ (sccs.foldl (circStep files existing cfg) acc).1 := by
  intro sccs
  induction sccs with
  | nil => intro acc h; simpa using h
  | cons scc rest ih =>
      intro acc h
      simp only [List.foldl_cons]
      apply ih
      show x ∈ acc.1 ++ [_]
      simp [h]

/-- Every circular group of the input list gets a partition holding
exactly the records whose paths belong to the group. -/
theorem circFold_scc_partition (files : List FileChange)
    (existing : List Partition) (cfg : Config) :
    ∀ (sccs : List SCCData) (acc : List Partition × List (String × Bool)),
    ∀ scc ∈ sccs,
    ∃ part ∈ (sccs.foldl (circStep files existing cfg) acc).1,
      part.files = getFilesByPaths files scc.filePaths := by
  intro sccs
  induction sccs with
  | nil => intro acc scc h; simp at h
  | cons scc0 rest ih =>
      intro acc scc hs
      rcases List.mem_cons.mp hs with he | hmem
      · subst he
        simp only [List.foldl_cons]
        refine ⟨{ id := existing.length + acc.1.length + 1
                  name := generateName (getFilesByPaths files scc.filePaths)
                  description := "Circular dependency group (" ++
                    natStr (getFilesByPaths files scc.filePaths).length ++ " files)"
                  files := getFilesByPaths files scc.filePaths
                  dependencies := calculateDependencies scc.filePaths
                    (existing ++ acc.1)
                  branchName := cfg.branchPref ++ "-" ++
                    natStr (existing.length + acc.1.length + 1) ++ "-" ++
                    generateName (getFilesByPaths files scc.filePaths) },
            circFold_mono files existing cfg _ rest _ ?_, rfl⟩
        exact List.mem_append_right _ (List.mem_singleton.mpr rfl)
      · simp only [List.foldl_cons]
        exact ih _ scc hmem

/-- Marks of the post-Phase-B bulk marking in `createAllPartitions`. -/
theorem markParts_getD (parts : List Partition) :
    ∀ (m : List (String × Bool)) (p : String),
    (alistGetD (parts.foldl (fun m part =>
      part.files.foldl (fun m file => alistSet m file.path true) m) m) p false
        = true ↔
      (alistGetD m p false = true ∨ ∃ part ∈ parts, p ∈ partitionPaths part)) := by
  induction parts with
  | nil => simp
  | cons part rest ih =>
      intro m p
      simp only [List.foldl_cons]
      rw [ih, nodeSet_getD]
      simp only [List.mem_cons, partitionPaths]
      constructor
      · rintro ((h | h) | ⟨q, hq, hp⟩)
        · exact Or.inl h
        · exact Or.inr ⟨part, Or.inl rfl, h⟩
        · exact Or.inr ⟨q, Or.inr hq, hp⟩
      · rintro (h | ⟨q, hq | hq, hp⟩)
        · exact Or.inl (Or.inl h)
        · subst hq
          exact Or.inl (Or.inr hp)
        · exact Or.inr ⟨q, hq, hp⟩

/-- With the approve-everything oracle the oversized-group gate always
succeeds and returns its input. -/
theorem handleOversized_approveAll (sccs : List SCCData) (maxSize : Nat) :
    handleOversizedCircularGroups approveAll sccs maxSize = Except.ok sccs := by
  induction sccs with
  | nil => rfl
  | cons scc rest ih =>
      simp [handleOversizedCircularGroups, approveAll, ih, Except.map]

/-- `createAllPartitions` (canonical order) allocates every input
file: whatever Phases A and B leave unallocated is swept up by the
residual phase. -/
theorem createAllPartitionsOrd_covers (files : List FileChange)
    (g : DependencyGraph) (sccs : List SCCData) (cfg : Config)
    (hmax : 1 ≤ cfg.maxFilesPerPartition) :
    ∀ f ∈ files, ∃ part ∈ createAllPartitionsOrd id files g sccs cfg,
      f.path ∈ partitionPaths part := by
  intro f hf
  simp only [createAllPartitionsOrd]
  set r := createCircularDependencyPartitions sccs files [] cfg [] with hrdef
  by_cases hrem : (getRemainingFiles files r.2).length > 0
  · rw [if_pos hrem]
    set depParts := createDependencyPartitions (getRemainingFiles files r.2) g
      r.1 cfg with hdepdef
    set allocAB := depParts.foldl (fun m part =>
      part.files.foldl (fun m file => alistSet m file.path true) m) r.2
      with haborig
    by_cases hmark : alistGetD allocAB f.path false = true
    · rcases (markParts_getD depParts r.2 f.path).mp hmark with hA | ⟨part, hp, hpp⟩
      · have hA2 := (circFold_marks files [] cfg sccs ([], []) f.path).mp
          (by simpa [createCircularDependencyPartitions, ← hrdef] using hA)
        rcases hA2 with h0 | ⟨scc, hs, hpin⟩
        · simp [alistGetD, alistGet] at h0
        · obtain ⟨part, hp, hpf⟩ := circFold_scc_partition files [] cfg sccs
            ([], []) scc hs
          refine ⟨part, ?_, ?_⟩
          · by_cases hun : (getRemainingFiles files allocAB).length > 0
            · rw [if_pos hun]
              refine List.mem_append_left _ (List.mem_append_left _ ?_)
              simpa [createCircularDependencyPartitions, ← hrdef] using hp
            · rw [if_neg hun]
              refine List.mem_append_left _ ?_
              simpa [createCircularDependencyPartitions, ← hrdef] using hp
          · simp only [partitionPaths, getFilePaths, List.mem_map, hpf]
            exact ⟨f, (getFilesByPaths_mem files scc.filePaths f).mpr
              ⟨hf, hpin⟩, rfl⟩
      · refine ⟨part, ?_, hpp⟩
        by_cases hun : (getRemainingFiles files allocAB).length > 0
        · rw [if_pos hun]
          exact List.mem_append_left _ (List.mem_append_right _ hp)
        · rw [if_neg hun]
          exact List.mem_append_right _ hp
    · have hfun : f ∈ getRemainingFiles files allocAB := by
        simp only [getRemainingFiles, List.mem_filter]
        refine ⟨hf, ?_⟩
        simp [hmark]
      have hun : (getRemainingFiles files allocAB).length > 0 := by
        cases h : getRemainingFiles files allocAB with
        | nil => rw [h] at hfun; simp at hfun
        | cons a l => simp [h]
      rw [if_pos hun]
      obtain ⟨part, hp, hfp⟩ := cRFP_covers (getRemainingFiles files allocAB)
        (r.1 ++ depParts) cfg hmax f hfun
      refine ⟨part, List.mem_append_right _ hp, ?_⟩
      simp only [partitionPaths, getFilePaths, List.mem_map]
      exact ⟨f, hfp, rfl⟩
  · rw [if_neg hrem]
    by_cases hmark : alistGetD r.2 f.path false = true
    · have hA2 := (circFold_marks files [] cfg sccs ([], []) f.path).mp
        (by simpa [createCircularDependencyPartitions, ← hrdef] using hmark)
      rcases hA2 with h0 | ⟨scc, hs, hpin⟩
      · simp [alistGetD, alistGet] at h0
      · obtain ⟨part, hp, hpf⟩ := circFold_scc_partition files [] cfg sccs
          ([], []) scc hs
        refine ⟨part, ?_, ?_⟩
        · by_cases hun : (getRemainingFiles files r.2).length > 0
          · rw [if_pos hun]
            refine List.mem_append_left _ ?_
            simpa [createCircularDependencyPartitions, ← hrdef] using hp
          · rw [if_neg hun]
            simpa [createCircularDependencyPartitions, ← hrdef] using hp
        · simp only [partitionPaths, getFilePaths, List.mem_map, hpf]
          exact ⟨f, (getFilesByPaths_mem files scc.filePaths f).mpr
            ⟨hf, hpin⟩, rfl⟩
    · exfalso
      have hfun : f ∈ getRemainingFiles files r.2 := by
        simp only [getRemainingFiles, List.mem_filter]
        refine ⟨hf, ?_⟩
        simp [hmark]
      rw [List.length_eq_zero.mp (by omega : (getRemainingFiles files r.2).length = 0)]
        at hfun
      simp at hfun

/-! ## Tarjan stack discipline (for C3) -/

theorem popSCC_append (root : String) :
    ∀ stack : List String, (popSCC root stack).1 ++ (popSCC root stack).2 = stack := by
  intro stack
  induction stack with
  | nil => rfl
  | cons w rest ih =>
      by_cases h : w = root
      · simp [popSCC, h]
      · simp only [popSCC, if_neg h]
        show (w :: (popSCC root rest).1) ++ (popSCC root rest).2 = w :: rest
        rw [List.cons_append, ih]

/-- Discipline only reads the stack, index map and components, so
lowlink-only updates preserve it. -/
theorem discipline_lowlinks (st : TarjanState) (X : List (String × Nat))
    (h : TarjanDiscipline st) : TarjanDiscipline { st with lowlinks := X } :=
  ⟨h.stack_nodup, h.stack_indexed, h.sccs_indexed, h.sccs_nodup,
    h.sccs_stack_disjoint, h.sccs_pairwise⟩

/-- `strongConnect` preserves the stack discipline when invoked on an
unindexed node, and never forgets an index. -/
theorem strongConnect_discipline (g : DependencyGraph) :
    ∀ (fuel : Nat) (st : TarjanState) (v : String),
    TarjanDiscipline st → alistHas st.indices v = false →
    TarjanDiscipline (strongConnect g fuel st v) ∧
    (∀ x, alistHas st.indices x = true →
      alistHas (strongConnect g fuel st v).indices x = true) := by
  intro fuel
  induction fuel with
  | zero =>
      intro st v hd _
      exact ⟨hd, fun x hx => hx⟩
  | succ fuel ih =>
      intro st v hd hv
      show TarjanDiscipline (strongConnect g (fuel + 1) st v) ∧ _
      rw [strongConnect]
      set st1 : TarjanState := { st with
        indices := alistSet st.indices v st.index,
        lowlinks := alistSet st.lowlinks v st.index,
        index := st.index + 1,
        stack := v :: st.stack,
        onStack := alistSet st.onStack v true } with hst1
      have hd1 : TarjanDiscipline st1 := by
        refine ⟨?_, ?_, ?_, ?_, ?_, ?_⟩
        · refine List.nodup_cons.mpr ⟨?_, hd.stack_nodup⟩
          intro hmem
          rw [hd.stack_indexed v hmem] at hv
          simp at hv
        · intro x hx
          show alistHas (alistSet st.indices v st.index) x = true
          rw [alistHas_set]
          rcases List.mem_cons.mp hx with he | hmem
          · simp [he]
          · simp [hd.stack_indexed x hmem]
        · intro scc hscc x hx
          show alistHas (alistSet st.indices v st.index) x = true
          rw [alistHas_set]
          simp [hd.sccs_indexed scc hscc x hx]
        · exact hd.sccs_nodup
        · intro scc hscc x hx
          show x ∉ v :: st.stack
          intro hmem
          rcases List.mem_cons.mp hmem with he | hmem'
          · subst he
            rw [hd.sccs_indexed scc hscc x hx] at hv
            simp at hv
          · exact hd.sccs_stack_disjoint scc hscc x hx hmem'
        · exact hd.sccs_pairwise
      have hmono1 : ∀ x, alistHas st.indices x = true →
          alistHas st1.indices x = true := by
        intro x hx
        show alistHas (alistSet st.indices v st.index) x = true
        rw [alistHas_set]
        simp [hx]
      have hfold : ∀ (l : List String) (st' : TarjanState),
          TarjanDiscipline st' →
          TarjanDiscipline (l.foldl (fun st w =>
            if ¬ alistHas st.indices w then
              let st := strongConnect g fuel st w
              let low := min (alistGetD st.lowlinks v 0) (alistGetD st.lowlinks w 0)
              { st with lowlinks := alistSet st.lowlinks v low }
            else if alistGetD st.onStack w false then
              let low := min (alistGetD st.lowlinks v 0) (alistGetD st.indices w 0)
              { st with lowlinks := alistSet st.lowlinks v low }
            else st) st') ∧
          (∀ x, alistHas st'.indices x = true →
            alistHas ((l.foldl (fun st w =>
            if ¬ alistHas st.indices w then
              let st := strongConnect g fuel st w
              let low := min (alistGetD st.lowlinks v 0) (alistGetD st.lowlinks w 0)
              { st with lowlinks := alistSet st.lowlinks v low }
            else if alistGetD st.onStack w false then
              let low := min (alistGetD st.lowlinks v 0) (alistGetD st.indices w 0)
              { st with lowlinks := alistSet st.lowlinks v low }
            else st) st')).indices x = true) := by
        intro l
        induction l with
        | nil => intro st' hd' ; exact ⟨hd', fun x hx => hx⟩
        | cons w l' ihl =>
            intro st' hd'
            simp only [List.foldl_cons]
            by_cases hw : alistHas st'.indices w = false
            · rw [if_pos (by simp [hw])]
              obtain ⟨hd2, hm2⟩ := ih st' w hd' hw
              have hd3 : TarjanDiscipline { strongConnect g fuel st' w with
                  lowlinks := alistSet (strongConnect g fuel st' w).lowlinks v
                    (min (alistGetD (strongConnect g fuel st' w).lowlinks v 0)
                      (alistGetD (strongConnect g fuel st' w).lowlinks w 0)) } :=
                discipline_lowlinks _ _ hd2
              obtain ⟨hd4, hm4⟩ := ihl _ hd3
              refine ⟨hd4, fun x hx => ?_⟩
              exact hm4 x (hm2 x hx)
            · rw [if_neg (by simp at hw; simp [hw])]
              by_cases hos : alistGetD st'.onStack w false = true
              · rw [if_pos hos]
                have hd3 : TarjanDiscipline { st' with
                    lowlinks := alistSet st'.lowlinks v
                      (min (alistGetD st'.lowlinks v 0)
                        (alistGetD st'.indices w 0)) } :=
                  discipline_lowlinks _ _ hd'
                obtain ⟨hd4, hm4⟩ := ihl _ hd3
                exact ⟨hd4, fun x hx => hm4 x hx⟩
              · rw [if_neg hos]
                exact ihl _ hd'

      obtain ⟨hd3, hm3⟩ := hfold (alistGetD g.adjacency v []) st1 hd1
      set st3 := (alistGetD g.adjacency v []).foldl _ st1 with hst3
      by_cases hroot : alistGetD st3.lowlinks v 0 = alistGetD st3.indices v 0
      · rw [if_pos hroot]
        set p := popSCC v st3.stack with hp
        have happ : p.1 ++ p.2 = st3.stack := popSCC_append v st3.stack
        have hnd := hd3.stack_nodup
        rw [← happ] at hnd
        have hnodup1 : p.1.Nodup := (List.nodup_append.mp hnd).1
        have hnodup2 : p.2.Nodup := (List.nodup_append.mp hnd).2.1
        have hdisj12 : ∀ x ∈ p.1, x ∉ p.2 := (List.nodup_append.mp hnd).2.2
        have hsub1 : ∀ x ∈ p.1, x ∈ st3.stack := by
          intro x hx
          rw [← happ]
          exact List.mem_append_left _ hx
        have hsub2 : ∀ x ∈ p.2, x ∈ st3.stack := by
          intro x hx
          rw [← happ]
          exact List.mem_append_right _ hx
        have hd5 : TarjanDiscipline { st3 with
            stack := p.2,
            onStack := p.1.foldl (fun m w => alistSet m w false) st3.onStack } := by
          refine ⟨hnodup2, ?_, hd3.sccs_indexed, hd3.sccs_nodup, ?_, hd3.sccs_pairwise⟩
          · intro x hx
            exact hd3.stack_indexed x (hsub2 x hx)
          · intro scc hscc x hx hmem
            exact hd3.sccs_stack_disjoint scc hscc x hx (hsub2 x hmem)
        by_cases hlen : p.1.length > 0
        · rw [if_pos hlen]
          refine ⟨⟨hd5.stack_nodup, hd5.stack_indexed, ?_, ?_, ?_, ?_⟩,
            fun x hx => hm3 x (hmono1 x hx)⟩
          · intro scc hscc x hx
            rcases List.mem_append.mp hscc with hold | hnew
            · exact hd5.sccs_indexed scc hold x hx
            · rw [List.mem_singleton.mp hnew] at hx
              exact hd3.stack_indexed x (hsub1 x hx)
          · intro scc hscc
            rcases List.mem_append.mp hscc with hold | hnew
            · exact hd5.sccs_nodup scc hold
            · rw [List.mem_singleton.mp hnew]
              exact hnodup1
          · intro scc hscc x hx hmem
            rcases List.mem_append.mp hscc with hold | hnew
            · exact hd5.sccs_stack_disjoint scc hold x hx hmem
            · rw [List.mem_singleton.mp hnew] at hx
              exact hdisj12 x hx hmem
          · rw [List.pairwise_append]
            refine ⟨hd3.sccs_pairwise, by simp, ?_⟩
            intro s hs t ht x hx
            rw [List.mem_singleton.mp ht]
            intro hmem
            exact hd3.sccs_stack_disjoint s hs x hx (hsub1 x hmem)
        · rw [if_neg hlen]
          exact ⟨hd5, fun x hx => hm3 x (hmono1 x hx)⟩
      · rw [if_neg hroot]
        exact ⟨hd3, fun x hx => hm3 x (hmono1 x hx)⟩

/-- The components returned by `FindSCCs` are pairwise disjoint and
duplicate-free. -/
theorem findSCCs_discipline (g : DependencyGraph) :
    (findSCCs g).Pairwise (fun s t => ∀ x ∈ s.filePaths, x ∉ t.filePaths) ∧
    ∀ scc ∈ findSCCs g, scc.filePaths.Nodup := by
  have hrun : ∀ (nodes : List String) (st : TarjanState), TarjanDiscipline st →
      TarjanDiscipline (nodes.foldl (fun st node =>
        if ¬ alistHas st.indices node then
          strongConnect g (g.nodes.length + 1) st node
        else st) st) := by
    intro nodes
    induction nodes with
    | nil => intro st hd; exact hd
    | cons node rest ihn =>
        intro st hd
        simp only [List.foldl_cons]
        by_cases hn : alistHas st.indices node = false
        · rw [if_pos (by simp [hn])]
          exact ihn _ (strongConnect_discipline g _ st node hd hn).1
        · rw [if_neg (by simp at hn; simp [hn])]
          exact ihn _ hd
  have hd0 : TarjanDiscipline ⟨0, [], [], [], [], []⟩ := by
    refine ⟨List.nodup_nil, ?_, ?_, ?_, ?_, ?_⟩ <;> simp [List.Pairwise.nil]
  have := hrun g.nodes ⟨0, [], [], [], [], []⟩ hd0
  exact ⟨this.sccs_pairwise, this.sccs_nodup⟩

/-! ## The circular-group pipeline preserves disjointness (for C3) -/

/-- Disjointness of component members is a symmetric relation. -/
theorem sccDisj_symm :
    Symmetric (fun s t : SCCData => ∀ x ∈ s.filePaths, x ∉ t.filePaths) := by
  intro s t h x hx hxs
  exact h x hxs hx

theorem insertBySizeDesc_perm (s : SCCData) (l : List SCCData) :
    (insertBySizeDesc s l).Perm (s :: l) := by
  induction l with
  | nil => rfl
  | cons t rest ih =>
      by_cases h : t.size < s.size
      · simp [insertBySizeDesc, h]
      · simp only [insertBySizeDesc, if_neg h]
        exact (ih.cons t).trans (List.Perm.swap s t rest)

theorem sortBySizeDesc_perm (l : List SCCData) : (sortBySizeDesc l).Perm l := by
  induction l with
  | nil => rfl
  | cons x rest ih =>
      show (insertBySizeDesc x (sortBySizeDesc rest)).Perm (x :: rest)
      exact (insertBySizeDesc_perm x (sortBySizeDesc rest)).trans (ih.cons x)

/-- The circular groups handed to Phase A are pairwise disjoint. -/
theorem findCircular_pairwise (g : DependencyGraph) :
    (findCircularDependencies g).Pairwise
      (fun s t => ∀ x ∈ s.filePaths, x ∉ t.filePaths) := by
  have h := (findSCCs_discipline g).1
  have hfilter := h.filter (fun scc => scc.size > 1)
  exact ((sortBySizeDesc_perm _).pairwise_iff
    (fun {a b} h => sccDisj_symm h)).mpr hfilter

/-- A successful oversized-group gate returns its input unchanged. -/
theorem handleOversized_ok_eq (ap : List String → Nat → Nat → Bool) :
    ∀ (sccs : List SCCData) (maxSize : Nat) (l : List SCCData),
    handleOversizedCircularGroups ap sccs maxSize = Except.ok l → l = sccs := by
  intro sccs
  induction sccs with
  | nil =>
      intro maxSize l h
      simp only [handleOversizedCircularGroups] at h
      cases h
      rfl
  | cons scc rest ih =>
      intro maxSize l h
      simp only [handleOversizedCircularGroups] at h
      by_cases hc : scc.size > maxSize ∧ ¬ ap scc.filePaths scc.size maxSize = true
      · rw [if_pos hc] at h
        cases h
      · rw [if_neg hc] at h
        cases hrest : handleOversizedCircularGroups ap rest maxSize with
        | error e => rw [hrest] at h; cases h
        | ok l' =>
            rw [hrest] at h
            simp only [Except.map] at h
            cases h
            rw [ih maxSize l' hrest]

/-- The file lists of the Phase A partitions. -/
theorem circFold_files_map (files : List FileChange)
    (existing : List Partition) (cfg : Config) :
    ∀ (sccs : List SCCData) (acc : List Partition × List (String × Bool)),
    ((sccs.foldl (circStep files existing cfg) acc).1).map (·.files) =
      acc.1.map (·.files) ++
        sccs.map (fun scc => getFilesByPaths files scc.filePaths) := by
  intro sccs
  induction sccs with
  | nil => simp
  | cons scc rest ih =>
      intro acc
      simp only [List.foldl_cons, List.map_cons]
      rw [ih]
      simp [circStep]

theorem getFilesByPaths_paths_sub (files : List FileChange)
    (paths : List String) :
    ∀ p ∈ getFilePaths (getFilesByPaths files paths), p ∈ paths := by
  intro p hp
  simp only [getFilePaths, List.mem_map] at hp
  obtain ⟨f, hf, hfp⟩ := hp
  exact hfp ▸ ((getFilesByPaths_mem files paths f).mp hf).2

/-! ## Phase B keeps partitions disjoint (for C3) -/

/-- The collection scan never unmarks an allocation. -/
theorem depthScan_mono (allFiles : List FileChange) (cfg : Config) :
    ∀ (dfs : List String) (acc : List FileChange × List (String × Bool))
      (p : String),
    alistGetD acc.2 p false = true →
    alistGetD (dfs.foldl (depthScanStep allFiles cfg) acc).2 p false = true := by
  intro dfs
  induction dfs with
  | nil => intro acc p hp; exact hp
  | cons q rest ih =>
      intro acc p hp
      simp only [List.foldl_cons]
      apply ih
      unfold depthScanStep
      split
      · exact hp
      · split
        · exact hp
        · split
          · exact alistGetD_mark_mono acc.2 p q hp
          · exact hp

/-- Unmarked keys stay unmarked under a single mark of another key. -/
theorem alistGetD_set_false_inv (m : List (String × Bool)) (p q : String)
    (h : alistGetD (alistSet m q true) p false = false) :
    alistGetD m p false = false := by
  by_cases hm : alistGetD m p false = true
  · rw [alistGetD_mark_mono m p q hm] at h
    cases h
  · simpa using hm

/-- Where the files collected by the scan come from: either they were
already collected, or they are records of `allFiles` whose path was
unallocated on entry and is allocated on exit. -/
theorem depthScan_new_files (allFiles : List FileChange) (cfg : Config) :
    ∀ (dfs : List String) (acc : List FileChange × List (String × Bool)),
    ∀ f ∈ (dfs.foldl (depthScanStep allFiles cfg) acc).1,
    f ∈ acc.1 ∨ (f ∈ allFiles ∧ alistGetD acc.2 f.path false = false ∧
      alistGetD (dfs.foldl (depthScanStep allFiles cfg) acc).2 f.path false
        = true) := by
  intro dfs
  induction dfs with
  | nil => intro acc f hf; exact Or.inl hf
  | cons q rest ih =>
      intro acc f hf
      simp only [List.foldl_cons] at hf ⊢
      by_cases h1 : alistGetD acc.2 q false = true
      · have hstep : depthScanStep allFiles cfg acc q = acc := by
          unfold depthScanStep
          rw [if_pos h1]
        rw [hstep] at hf ⊢
        exact ih acc f hf
      · by_cases h2 : acc.1.length ≥ cfg.maxFilesPerPartition
        · have hstep : depthScanStep allFiles cfg acc q = acc := by
            unfold depthScanStep
            rw [if_neg h1, if_pos h2]
          rw [hstep] at hf ⊢
          exact ih acc f hf
        · cases heq : getFileByPath allFiles q with
          | none =>
              have hstep : depthScanStep allFiles cfg acc q = acc := by
                unfold depthScanStep
                rw [if_neg h1, if_neg h2, heq]
              rw [hstep] at hf ⊢
              exact ih acc f hf
          | some file =>
              have hstep : depthScanStep allFiles cfg acc q =
                  (acc.1 ++ [file], alistSet acc.2 q true) := by
                unfold depthScanStep
                rw [if_neg h1, if_neg h2, heq]
              rw [hstep] at hf ⊢
              rcases ih _ f hf with hacc | ⟨hmem, hun, hmark⟩
              · rcases List.mem_append.mp hacc with hL | hR
                · exact Or.inl hL
                · have hfe : f = file := List.mem_singleton.mp hR
                  subst hfe
                  have hfp : f.path = q := getFileByPath_path allFiles q f heq
                  refine Or.inr ⟨getFileByPath_mem allFiles q f heq,
                    by rw [hfp]; simpa using h1, ?_⟩
                  apply depthScan_mono
                  show alistGetD (alistSet acc.2 q true) f.path false = true
                  rw [hfp]
                  exact alistGetD_set_eq acc.2 q true false
              · refine Or.inr ⟨hmem, ?_, hmark⟩
                exact alistGetD_set_false_inv acc.2 f.path q hun

/-- `createPartitionForDepth` returns the scan's allocation map and at
most one partition, whose files are exactly the scanned files. -/
theorem cPFD_cases (dfs : List String) (allFiles : List FileChange)
    (alloc : List (String × Bool)) (e c : List Partition) (cfg : Config) :
    (createPartitionForDepth dfs allFiles alloc e c cfg).2 =
      (dfs.foldl (depthScanStep allFiles cfg) ([], alloc)).2 ∧
    ((createPartitionForDepth dfs allFiles alloc e c cfg).1 = [] ∨
      ∃ part, (createPartitionForDepth dfs allFiles alloc e c cfg).1 = [part] ∧
        part.files = (dfs.foldl (depthScanStep allFiles cfg) ([], alloc)).1) := by
  unfold createPartitionForDepth
  by_cases h : (dfs.foldl (depthScanStep allFiles cfg) ([], alloc)).1.length = 0
  · rw [if_pos h]
    exact ⟨rfl, Or.inl rfl⟩
  · rw [if_neg h]
    exact ⟨rfl, Or.inr ⟨_, rfl, rfl⟩⟩

/-- The Phase B loop keeps its emitted partitions pairwise disjoint
and sourced from `allFiles`. -/
theorem phaseBLoop_pairwise (depthGroups : List (Nat × List String))
    (allFiles : List FileChange) (existing : List Partition) (cfg : Config) :
    ∀ (fuel depth : Nat) (wn : List String) (alloc : List (String × Bool))
      (parts : List Partition),
    (∀ part ∈ parts, ∀ p ∈ partitionPaths part,
      alistGetD alloc p false = true) →
    parts.Pairwise (fun P Q => ∀ p ∈ partitionPaths P, p ∉ partitionPaths Q) →
    (∀ part ∈ parts, ∀ f ∈ part.files, f ∈ allFiles) →
    (phaseBLoop depthGroups allFiles existing cfg fuel depth wn alloc
      parts).Pairwise
      (fun P Q => ∀ p ∈ partitionPaths P, p ∉ partitionPaths Q) ∧
    (∀ part ∈ phaseBLoop depthGroups allFiles existing cfg fuel depth wn alloc
      parts, ∀ f ∈ part.files, f ∈ allFiles) := by
  intro fuel
  induction fuel with
  | zero => intro depth wn alloc parts _ hpw hsub; exact ⟨hpw, hsub⟩
  | succ fuel ih =>
      intro depth wn alloc parts hmarked hpw hsub
      rw [phaseBLoop]
      by_cases hexit : wn.length = 0 ∨ wn.length < depth
      · rw [if_pos hexit]
        exact ⟨hpw, hsub⟩
      · rw [if_neg hexit]
        by_cases hbucket : (nlistGetD depthGroups depth []).length = 0
        · rw [if_pos hbucket]
          exact ih (depth + 1) wn alloc parts hmarked hpw hsub
        · rw [if_neg hbucket]
          obtain ⟨halloc2, hcases⟩ := cPFD_cases (nlistGetD depthGroups depth [])
            allFiles alloc existing parts cfg
          set r := createPartitionForDepth (nlistGetD depthGroups depth [])
            allFiles alloc existing parts cfg with hrdef
          have hmarked' : ∀ part ∈ parts ++ r.1, ∀ p ∈ partitionPaths part,
              alistGetD r.2 p false = true := by
            intro part hpart p hp
            rcases List.mem_append.mp hpart with hold | hnew
            · rw [halloc2]
              exact depthScan_mono allFiles cfg _ ([], alloc) p
                (hmarked part hold p hp)
            · rcases hcases with hempty | ⟨part1, hone, hfiles⟩
              · rw [hempty] at hnew
                simp at hnew
              · rw [hone, List.mem_singleton] at hnew
                subst hnew
                simp only [partitionPaths, getFilePaths, List.mem_map] at hp
                obtain ⟨f, hf, hfp⟩ := hp
                rw [hfiles] at hf
                rcases depthScan_new_files allFiles cfg _ ([], alloc) f hf with
                  h0 | ⟨_, _, hm⟩
                · simp at h0
                · rw [halloc2, ← hfp]
                  exact hm
          have hunmarked_new : ∀ part ∈ r.1, ∀ p ∈ partitionPaths part,
              alistGetD alloc p false = false := by
            intro part hpart p hp
            rcases hcases with hempty | ⟨part1, hone, hfiles⟩
            · rw [hempty] at hpart
              simp at hpart
            · rw [hone, List.mem_singleton] at hpart
              subst hpart
              simp only [partitionPaths, getFilePaths, List.mem_map] at hp
              obtain ⟨f, hf, hfp⟩ := hp
              rw [hfiles] at hf
              rcases depthScan_new_files allFiles cfg _ ([], alloc) f hf with
                h0 | ⟨_, hun, _⟩
              · simp at h0
              · rw [← hfp]
                exact hun
          have hpw' : (parts ++ r.1).Pairwise
              (fun P Q => ∀ p ∈ partitionPaths P, p ∉ partitionPaths Q) := by
            rw [List.pairwise_append]
            refine ⟨hpw, ?_, ?_⟩
            · rcases hcases with hempty | ⟨part1, hone, _⟩
              · rw [hempty]
                exact List.Pairwise.nil
              · rw [hone]
                simp
            · intro P hP Q hQ p hp hq
              have hm := hmarked P hP p hp
              have hu := hunmarked_new Q hQ p hq
              rw [hm] at hu
              cases hu
          have hsub' : ∀ part ∈ parts ++ r.1, ∀ f ∈ part.files, f ∈ allFiles := by
            intro part hpart f hf
            rcases List.mem_append.mp hpart with hold | hnew
            · exact hsub part hold f hf
            · rcases hcases with hempty | ⟨part1, hone, hfiles⟩
              · rw [hempty] at hnew
                simp at hnew
              · rw [hone, List.mem_singleton] at hnew
                subst hnew
                rw [hfiles] at hf
                rcases depthScan_new_files allFiles cfg _ ([], alloc) f hf with
                  h0 | ⟨hmem, _, _⟩
                · simp at h0
                · exact hmem
          exact ih (depth + 1) (removeAllocatedNodes wn r.2) r.2 (parts ++ r.1)
            hmarked' hpw' hsub'

/-! ## Phase C keeps partitions disjoint (for C3) -/

theorem alistSet_keys_nodup {β : Type} (m : List (String × β)) (k : String)
    (v : β) (h : (m.map (·.1)).Nodup) : ((alistSet m k v).map (·.1)).Nodup := by
  induction m with
  | nil => simp [alistSet]
  | cons hd tl ih =>
      obtain ⟨k₀, v₀⟩ := hd
      by_cases h₀ : k₀ = k
      · subst h₀
        simpa [alistSet] using h
      · simp only [alistSet, if_neg h₀, List.map_cons, List.nodup_cons] at h ⊢
        refine ⟨?_, ih h.2⟩
        intro hmem
        rw [alistSet_mem_keys] at hmem
        rcases hmem with hmem | he
        · exact h.1 hmem
        · exact h₀ he

/-- The group map has duplicate-free keys. -/
theorem groupFiles_keys_nodup (files : List FileChange) :
    ∀ acc : List (String × List FileChange), (acc.map (·.1)).Nodup →
    (((files.foldl (fun m file =>
      alistUpd m (determineGroup file) [] (· ++ [file])) acc)).map (·.1)).Nodup := by
  induction files with
  | nil => intro acc h; simpa using h
  | cons f rest ih =>
      intro acc h
      simp only [List.foldl_cons]
      exact ih _ (alistSet_keys_nodup _ _ _ h)

/-- The value stored under each group tag is the filter of the input
by that tag. -/
theorem groupFiles_getD (files : List FileChange) (k : String) :
    ∀ acc : List (String × List FileChange),
    alistGetD (files.foldl (fun m file =>
      alistUpd m (determineGroup file) [] (· ++ [file])) acc) k [] =
    alistGetD acc k [] ++ files.filter (fun f => determineGroup f = k) := by
  induction files with
  | nil => intro acc; simp
  | cons f rest ih =>
      intro acc
      simp only [List.foldl_cons]
      rw [ih]
      by_cases hk : determineGroup f = k
      · have : alistGetD (alistUpd acc (determineGroup f) [] (· ++ [f])) k [] =
            alistGetD acc k [] ++ [f] := by
          rw [← hk]
          simp [alistGetD, alistUpd, alistGet_set_eq]
        rw [this, List.filter_cons_of_pos (by simp [hk])]
        simp
      · have : alistGetD (alistUpd acc (determineGroup f) [] (· ++ [f])) k [] =
            alistGetD acc k [] := by
          simp only [alistGetD, alistUpd]
          rw [alistGet_set_ne _ _ k _ (fun he => hk he.symm)]
        rw [this, List.filter_cons_of_neg (by simp [hk])]

/-- With duplicate-free keys, every stored pair is what lookup finds. -/
theorem alistGet_of_mem_nodup {β : Type} (m : List (String × β))
    (hkeys : (m.map (·.1)).Nodup) (k : String) (v : β)
    (h : (k, v) ∈ m) : alistGet m k = some v := by
  induction m with
  | nil => simp at h
  | cons hd tl ih =>
      obtain ⟨k₀, v₀⟩ := hd
      simp only [List.map_cons, List.nodup_cons] at hkeys
      rcases List.mem_cons.mp h with he | hmem
      · cases he
        simp [alistGet]
      · have hne : ¬ k₀ = k := by
          intro he
          subst he
          exact hkeys.1 (by simpa using List.mem_map_of_mem (·.1) hmem)
        simp only [alistGet, if_neg hne]
        exact ih hkeys.2 hmem

theorem simpleChunks_files_sub (maxm1 : Nat) (pref base : String) :
    ∀ (fuel startID num : Nat) (files : List FileChange),
    ∀ part ∈ simpleChunks maxm1 pref base fuel startID num files,
    ∀ f ∈ part.files, f ∈ files := by
  intro fuel
  induction fuel with
  | zero =>
      intro startID num files part hp
      cases files <;> simp [simpleChunks] at hp
  | succ fuel ih =>
      intro startID num files part hp f hf
      cases files with
      | nil => simp [simpleChunks] at hp
      | cons f0 rest =>
          rcases List.mem_cons.mp hp with he | hmem
          · subst he
            exact List.take_subset _ _ hf
          · exact List.drop_subset _ _ (ih _ _ _ part hmem f hf)

theorem simpleChunks_pairwise (maxm1 : Nat) (pref base : String) :
    ∀ (fuel : Nat) (files : List FileChange) (startID num : Nat),
    (getFilePaths files).Nodup →
    (simpleChunks maxm1 pref base fuel startID num files).Pairwise
      (fun P Q => ∀ p ∈ partitionPaths P, p ∉ partitionPaths Q) := by
  intro fuel
  induction fuel with
  | zero =>
      intro files startID num _
      cases files <;> simp [simpleChunks]
  | succ fuel ih =>
      intro files startID num hnodup
      cases files with
      | nil => simp [simpleChunks]
      | cons f0 rest =>
          rw [show simpleChunks maxm1 pref base (fuel + 1) startID num (f0 :: rest)
            = _ :: simpleChunks maxm1 pref base fuel (startID + 1) (num + 1)
              ((f0 :: rest).drop (maxm1 + 1)) from rfl]
          rw [List.pairwise_cons]
          have hsplit : getFilePaths ((f0 :: rest).take (maxm1 + 1)) ++
              getFilePaths ((f0 :: rest).drop (maxm1 + 1)) =
              getFilePaths (f0 :: rest) := by
            simp only [getFilePaths]
            rw [← List.map_append, List.take_append_drop]
          have hnd2 : (getFilePaths ((f0 :: rest).take (maxm1 + 1)) ++
              getFilePaths ((f0 :: rest).drop (maxm1 + 1))).Nodup := by
            rw [hsplit]
            exact hnodup
          constructor
          · intro part' hpart' p hp hq
            have hpq : p ∈ getFilePaths ((f0 :: rest).take (maxm1 + 1)) := hp
            have hq2 : p ∈ getFilePaths ((f0 :: rest).drop (maxm1 + 1)) := by
              simp only [partitionPaths, getFilePaths, List.mem_map] at hq
              obtain ⟨f, hf, hfp⟩ := hq
              have := simpleChunks_files_sub maxm1 pref base fuel (startID + 1)
                (num + 1) _ part' hpart' f hf
              simp only [getFilePaths, List.mem_map]
              exact ⟨f, this, hfp⟩
            exact (List.nodup_append.mp hnd2).2.2 hpq hq2
          · apply ih
            have : getFilePaths ((f0 :: rest).drop (maxm1 + 1)) =
                (getFilePaths (f0 :: rest)).drop (maxm1 + 1) := by
              simp [getFilePaths, List.map_drop]
            rw [this]
            exact hnodup.sublist (List.drop_sublist _ _)

theorem createSimplePartitions_pairwise (files : List FileChange)
    (startID : Nat) (cfg : Config) (base : String)
    (hnodup : (getFilePaths files).Nodup) :
    (createSimplePartitions files startID cfg base).Pairwise
      (fun P Q => ∀ p ∈ partitionPaths P, p ∉ partitionPaths Q) := by
  unfold createSimplePartitions
  cases cfg.maxFilesPerPartition with
  | zero => simp
  | succ maxm1 =>
      exact simpleChunks_pairwise maxm1 cfg.branchPref base (files.length + 1) files startID 1 hnodup

theorem createSimplePartitions_files_sub (files : List FileChange)
    (startID : Nat) (cfg : Config) (base : String) :
    ∀ part ∈ createSimplePartitions files startID cfg base,
    ∀ f ∈ part.files, f ∈ files := by
  unfold createSimplePartitions
  cases cfg.maxFilesPerPartition with
  | zero => simp
  | succ maxm1 => exact simpleChunks_files_sub maxm1 cfg.branchPref base _ startID 1 files

/-- Each stored group value is exactly the filter of the input by the
group tag. -/
theorem groupFiles_val (files : List FileChange)
    (hkeys : ((groupFiles files).map (·.1)).Nodup) :
    ∀ g ∈ groupFiles files,
    g.2 = files.filter (fun f => determineGroup f = g.1) := by
  intro g hg
  have h1 : alistGet (groupFiles files) g.1 = some g.2 :=
    alistGet_of_mem_nodup _ hkeys g.1 g.2 hg
  have h2 := groupFiles_getD files g.1 []
  simp only [alistGetD] at h2
  rw [show (files.foldl (fun m file =>
    alistUpd m (determineGroup file) [] (· ++ [file])) []) = groupFiles files
    from rfl, h1] at h2
  simpa [alistGet] using h2

/-- Distinct residual groups hold path-disjoint file lists, and each
group's paths are duplicate-free (given duplicate-free input paths). -/
theorem groupFiles_pairwise (files : List FileChange)
    (hnodup : (getFilePaths files).Nodup) :
    (∀ g ∈ groupFiles files, (getFilePaths g.2).Nodup) ∧
    (groupFiles files).Pairwise
      (fun a b => ∀ p ∈ getFilePaths a.2, p ∉ getFilePaths b.2) := by
  have hkeys : ((groupFiles files).map (·.1)).Nodup := by
    have := groupFiles_keys_nodup files [] (by simp)
    simpa [groupFiles] using this
  have hval := groupFiles_val files hkeys
  have hinj : ∀ x ∈ files, ∀ y ∈ files, x.path = y.path → x = y := by
    intro x hx y hy he
    exact List.inj_on_of_nodup_map hnodup hx hy he
  constructor
  · intro g hg
    rw [hval g hg]
    simp only [getFilePaths] at hnodup ⊢
    exact hnodup.sublist (List.Sublist.map _ (List.filter_sublist files))
  · have hk : (groupFiles files).Pairwise (fun a b => a.1 ≠ b.1) :=
      List.pairwise_map.mp hkeys
    refine List.Pairwise.imp_of_mem ?_ hk
    intro a b ha hb hne p hpa hpb
    rw [hval a ha] at hpa
    rw [hval b hb] at hpb
    simp only [getFilePaths, List.mem_map, List.mem_filter,
      decide_eq_true_eq] at hpa hpb
    obtain ⟨f, ⟨hf, hdf⟩, hfp⟩ := hpa
    obtain ⟨f', ⟨hf', hdf'⟩, hfp'⟩ := hpb
    have he : f' = f := hinj f' hf' f hf (by rw [hfp', hfp])
    subst he
    exact hne (by rw [← hdf, ← hdf'])

/-- The residual-group fold keeps its output pairwise path-disjoint,
and every emitted file comes from some group. -/
theorem groupsFold_pairwise (cfg : Config) (existingLen : Nat)
    (hmax : 1 ≤ cfg.maxFilesPerPartition) :
    ∀ (groups : List (String × List FileChange)) (acc : List Partition),
    (∀ g ∈ groups, (getFilePaths g.2).Nodup) →
    groups.Pairwise (fun a b => ∀ p ∈ getFilePaths a.2, p ∉ getFilePaths b.2) →
    (∀ part ∈ acc, ∀ g ∈ groups, ∀ p ∈ partitionPaths part,
      p ∉ getFilePaths g.2) →
    acc.Pairwise (fun P Q => ∀ p ∈ partitionPaths P, p ∉ partitionPaths Q) →
    (groups.foldl (fun partitions g => partitions ++ createSimplePartitions g.2
      (existingLen + partitions.length) cfg g.1) acc).Pairwise
      (fun P Q => ∀ p ∈ partitionPaths P, p ∉ partitionPaths Q) ∧
    (∀ part ∈ groups.foldl (fun partitions g =>
        partitions ++ createSimplePartitions g.2
          (existingLen + partitions.length) cfg g.1) acc,
      part ∈ acc ∨ ∃ g ∈ groups, ∀ f ∈ part.files, f ∈ g.2) := by
  intro groups
  induction groups with
  | nil =>
      intro acc _ _ _ hpw
      exact ⟨by simpa using hpw, fun part hp => Or.inl (by simpa using hp)⟩
  | cons g0 rest ih =>
      intro acc hnd hgpw hcross hpw
      simp only [List.foldl_cons]
      have hnewsub : ∀ part ∈ createSimplePartitions g0.2
          (existingLen + acc.length) cfg g0.1, ∀ f ∈ part.files, f ∈ g0.2 :=
        createSimplePartitions_files_sub g0.2 _ cfg g0.1
      have hnewpw := createSimplePartitions_pairwise g0.2
        (existingLen + acc.length) cfg g0.1 (hnd g0 (by simp))
      have hnewpaths : ∀ part ∈ createSimplePartitions g0.2
          (existingLen + acc.length) cfg g0.1,
          ∀ p ∈ partitionPaths part, p ∈ getFilePaths g0.2 := by
        intro part hp p hpp
        simp only [partitionPaths, getFilePaths, List.mem_map] at hpp
        obtain ⟨f, hf, hfp⟩ := hpp
        simp only [getFilePaths, List.mem_map]
        exact ⟨f, hnewsub part hp f hf, hfp⟩
      have hacc' : (acc ++ createSimplePartitions g0.2
          (existingLen + acc.length) cfg g0.1).Pairwise
          (fun P Q => ∀ p ∈ partitionPaths P, p ∉ partitionPaths Q) := by
        rw [List.pairwise_append]
        refine ⟨hpw, hnewpw, ?_⟩
        intro P hP Q hQ p hpP hpQ
        exact hcross P hP g0 (by simp) p hpP (hnewpaths Q hQ p hpQ)
      have hcross' : ∀ part ∈ acc ++ createSimplePartitions g0.2
          (existingLen + acc.length) cfg g0.1, ∀ g ∈ rest,
          ∀ p ∈ partitionPaths part, p ∉ getFilePaths g.2 := by
        intro part hp g hg p hpp hpg
        rcases List.mem_append.mp hp with h1 | h2
        · exact hcross part h1 g (by simp [hg]) p hpp hpg
        · exact (List.pairwise_cons.mp hgpw).1 g hg p
            (hnewpaths part h2 p hpp) hpg
      have hrec := ih (acc ++ createSimplePartitions g0.2
          (existingLen + acc.length) cfg g0.1)
        (fun g hg => hnd g (by simp [hg])) (List.pairwise_cons.mp hgpw).2
        hcross' hacc'
      refine ⟨hrec.1, ?_⟩
      intro part hp
      rcases hrec.2 part hp with h1 | ⟨g, hg, hsub⟩
      · rcases List.mem_append.mp h1 with ha | hn
        · exact Or.inl ha
        · exact Or.inr ⟨g0, by simp, hnewsub part hn⟩
      · exact Or.inr ⟨g, by simp [hg], hsub⟩

/-- Phase C: the residual partitions are pairwise path-disjoint and
draw their files from the residual input (given duplicate-free
paths). -/
theorem cRFP_pairwise (files : List FileChange) (existing : List Partition)
    (cfg : Config) (hmax : 1 ≤ cfg.maxFilesPerPartition)
    (hnodup : (getFilePaths files).Nodup) :
    (createRemainingFilePartitionsOrd id files existing cfg).Pairwise
      (fun P Q => ∀ p ∈ partitionPaths P, p ∉ partitionPaths Q) ∧
    (∀ part ∈ createRemainingFilePartitionsOrd id files existing cfg,
      ∀ f ∈ part.files, f ∈ files) := by
  have hgrp := groupFiles_pairwise files hnodup
  have hkeys : ((groupFiles files).map (·.1)).Nodup := by
    have := groupFiles_keys_nodup files [] (by simp)
    simpa [groupFiles] using this
  have hval := groupFiles_val files hkeys
  simp only [createRemainingFilePartitionsOrd, id_eq]
  set partitions := (groupFiles files).foldl (fun partitions g =>
    partitions ++ createSimplePartitions g.2
      (existing.length + partitions.length) cfg g.1) [] with hparts
  by_cases hlen : partitions.length = 0
  · rw [if_pos hlen]
    refine ⟨createSimplePartitions_pairwise files existing.length cfg
      "remaining" hnodup, ?_⟩
    exact createSimplePartitions_files_sub files existing.length cfg "remaining"
  · rw [if_neg hlen]
    have hrec := groupsFold_pairwise cfg existing.length hmax
      (groupFiles files) [] hgrp.1 hgrp.2 (by simp) List.Pairwise.nil
    refine ⟨hrec.1, ?_⟩
    intro part hp f hf
    rcases hrec.2 part hp with h1 | ⟨g, hg, hsub⟩
    · simp at h1
    · have := hsub f hf
      rw [hval g hg] at this
      exact List.mem_of_mem_filter this

/-! ## Phase A partitions: marks and pairwise disjointness (for C3) -/

/-- Every file list of a Phase A partition is the file set of one of
the circular groups. -/
theorem circParts_files (files : List FileChange) (cfg : Config)
    (sccs : List SCCData) :
    ∀ part ∈ (createCircularDependencyPartitions sccs files [] cfg []).1,
    ∃ scc ∈ sccs, part.files = getFilesByPaths files scc.filePaths := by
  intro part hpart
  have hmap := circFold_files_map files [] cfg sccs ([], [])
  have hfmem : part.files ∈
      ((sccs.foldl (circStep files [] cfg) ([], [])).1).map (·.files) :=
    List.mem_map_of_mem _ hpart
  rw [hmap] at hfmem
  simp only [List.map_nil, List.nil_append, List.mem_map] at hfmem
  obtain ⟨scc, hscc, hfe⟩ := hfmem
  exact ⟨scc, hscc, hfe.symm⟩

/-- The Phase A allocation map marks every path of every Phase A
partition. -/
theorem circParts_paths_marked (files : List FileChange) (cfg : Config)
    (sccs : List SCCData) :
    ∀ part ∈ (createCircularDependencyPartitions sccs files [] cfg []).1,
    ∀ p ∈ partitionPaths part,
    alistGetD (createCircularDependencyPartitions sccs files [] cfg []).2
      p false = true := by
  intro part hpart p hp
  obtain ⟨scc, hscc, hfe⟩ := circParts_files files cfg sccs part hpart
  have hps : p ∈ scc.filePaths := by
    apply getFilesByPaths_paths_sub files scc.filePaths p
    rw [← hfe]
    exact hp
  exact (circFold_marks files [] cfg sccs ([], []) p).mpr
    (Or.inr ⟨scc, hscc, hps⟩)

/-- Phase A partitions are pairwise path-disjoint when the circular
groups are. -/
theorem circParts_pairwise (files : List FileChange) (cfg : Config)
    (sccs : List SCCData)
    (hpw : sccs.Pairwise (fun s t => ∀ x ∈ s.filePaths, x ∉ t.filePaths)) :
    ((createCircularDependencyPartitions sccs files [] cfg []).1).Pairwise
      (fun P Q => ∀ p ∈ partitionPaths P, p ∉ partitionPaths Q) := by
  have hg : sccs.Pairwise (fun s t =>
      ∀ p ∈ getFilePaths (getFilesByPaths files s.filePaths),
        p ∉ getFilePaths (getFilesByPaths files t.filePaths)) := by
    refine hpw.imp ?_
    intro s t hst p hp hq
    exact hst p (getFilesByPaths_paths_sub _ _ p hp)
      (getFilesByPaths_paths_sub _ _ p hq)
  have hmapPW : (sccs.map
      (fun scc => getFilesByPaths files scc.filePaths)).Pairwise
      (fun A B => ∀ p ∈ getFilePaths A, p ∉ getFilePaths B) :=
    List.pairwise_map.mpr hg
  have heq : (((createCircularDependencyPartitions sccs files [] cfg
      []).1).map (·.files)) =
      sccs.map (fun scc => getFilesByPaths files scc.filePaths) := by
    have := circFold_files_map files [] cfg sccs ([], [])
    simpa using this
  have hpm : ((((createCircularDependencyPartitions sccs files [] cfg
      []).1).map (·.files))).Pairwise
      (fun A B => ∀ p ∈ getFilePaths A, p ∉ getFilePaths B) :=
    heq ▸ hmapPW
  have := List.pairwise_map.mp hpm
  exact this.imp (fun h => h)

/-- Phase B as a whole: partitions pairwise path-disjoint, files drawn
from its input. -/
theorem cDP_pairwise (files : List FileChange) (g : DependencyGraph)
    (existing : List Partition) (cfg : Config) :
    (createDependencyPartitions files g existing cfg).Pairwise
      (fun P Q => ∀ p ∈ partitionPaths P, p ∉ partitionPaths Q) ∧
    (∀ part ∈ createDependencyPartitions files g existing cfg,
      ∀ f ∈ part.files, f ∈ files) := by
  unfold createDependencyPartitions
  exact phaseBLoop_pairwise _ files existing cfg _ 0 _ [] []
    (by intro part hp; simp at hp) List.Pairwise.nil
    (by intro part hp; simp at hp)

/-- The full partition pipeline emits pairwise path-disjoint
partitions, provided the changed paths are duplicate-free and the
circular groups are pairwise disjoint. -/
theorem createAllPartitionsOrd_pairwise (files : List FileChange)
    (g : DependencyGraph) (sccs : List SCCData) (cfg : Config)
    (hmax : 1 ≤ cfg.maxFilesPerPartition)
    (hnodup : (getFilePaths files).Nodup)
    (hpw : sccs.Pairwise (fun s t => ∀ x ∈ s.filePaths, x ∉ t.filePaths)) :
    (createAllPartitionsOrd id files g sccs cfg).Pairwise
      (fun P Q => ∀ p ∈ partitionPaths P, p ∉ partitionPaths Q) := by
  simp only [createAllPartitionsOrd]
  set r := createCircularDependencyPartitions sccs files [] cfg [] with hrdef
  have hA_pw := circParts_pairwise files cfg sccs hpw
  rw [← hrdef] at hA_pw
  have hA_marked := circParts_paths_marked files cfg sccs
  rw [← hrdef] at hA_marked
  by_cases hrem : (getRemainingFiles files r.2).length > 0
  · rw [if_pos hrem]
    set depParts := createDependencyPartitions (getRemainingFiles files r.2) g
      r.1 cfg with hdepdef
    set allocAB := depParts.foldl (fun m part =>
      part.files.foldl (fun m file => alistSet m file.path true) m) r.2
      with haborig
    have hB := cDP_pairwise (getRemainingFiles files r.2) g r.1 cfg
    rw [← hdepdef] at hB
    have hB_unmarked : ∀ part ∈ depParts, ∀ p ∈ partitionPaths part,
        ¬ alistGetD r.2 p false = true := by
      intro part hp p hpp
      simp only [partitionPaths, getFilePaths, List.mem_map] at hpp
      obtain ⟨f, hf, hfp⟩ := hpp
      have hfr : f ∈ getRemainingFiles files r.2 := hB.2 part hp f hf
      simp only [getRemainingFiles, List.mem_filter, decide_eq_true_eq] at hfr
      rw [← hfp]
      exact hfr.2
    have hAB_pw : (r.1 ++ depParts).Pairwise
        (fun P Q => ∀ p ∈ partitionPaths P, p ∉ partitionPaths Q) := by
      rw [List.pairwise_append]
      refine ⟨hA_pw, hB.1, ?_⟩
      intro P hP Q hQ p hpP hpQ
      exact hB_unmarked Q hQ p hpQ (hA_marked P hP p hpP)
    have hAB_marked : ∀ part ∈ r.1 ++ depParts, ∀ p ∈ partitionPaths part,
        alistGetD allocAB p false = true := by
      intro part hp p hpp
      have hm := markParts_getD depParts r.2 p
      rw [← haborig] at hm
      rcases List.mem_append.mp hp with h1 | h2
      · exact hm.mpr (Or.inl (hA_marked part h1 p hpp))
      · exact hm.mpr (Or.inr ⟨part, h2, hpp⟩)
    by_cases hun : (getRemainingFiles files allocAB).length > 0
    · rw [if_pos hun]
      have hnd_un : (getFilePaths (getRemainingFiles files allocAB)).Nodup := by
        simp only [getFilePaths, getRemainingFiles] at hnodup ⊢
        exact hnodup.sublist (List.Sublist.map _ (List.filter_sublist files))
      have hC := cRFP_pairwise (getRemainingFiles files allocAB)
        (r.1 ++ depParts) cfg hmax hnd_un
      have hC_unmarked : ∀ part ∈ createRemainingFilePartitionsOrd id
          (getRemainingFiles files allocAB) (r.1 ++ depParts) cfg,
          ∀ p ∈ partitionPaths part, ¬ alistGetD allocAB p false = true := by
        intro part hp p hpp
        simp only [partitionPaths, getFilePaths, List.mem_map] at hpp
        obtain ⟨f, hf, hfp⟩ := hpp
        have hfr := hC.2 part hp f hf
        simp only [getRemainingFiles, List.mem_filter,
          decide_eq_true_eq] at hfr
        rw [← hfp]
        exact hfr.2
      rw [List.pairwise_append]
      refine ⟨hAB_pw, hC.1, ?_⟩
      intro P hP Q hQ p hpP hpQ
      exact hC_unmarked Q hQ p hpQ (hAB_marked P hP p hpP)
    · rw [if_neg hun]
      exact hAB_pw
  · rw [if_neg hrem]
    rw [if_neg hrem]
    exact hA_pw

/-- Inversion: the partitions of any plan returned by `CreatePlan` are
the output of the partition pipeline on the changed files. -/
theorem createPlan_ok_partitions (approve : List String → Nat → Nat → Bool)
    (changes : List FileChange) (dependencies : List Dependency)
    (cfg : Config) (plan : PartitionPlan)
    (hok : createPlan approve changes dependencies cfg = Except.ok plan) :
    plan.partitions = createAllPartitionsOrd id (filterChangedFiles changes)
      (buildDependencyGraph (filterChangedFiles changes) dependencies)
      (findCircularDependencies
        (buildDependencyGraph (filterChangedFiles changes) dependencies))
      cfg := by
  simp only [createPlan, createPlanOrd] at hok
  split at hok
  · cases hok
  · split at hok
    · cases hok
    · rename_i l heq
      have hl := handleOversized_ok_eq approve _ _ _ heq
      subst hl
      split at hok
      · cases hok
      · rw [← Except.ok.inj hok]

/-- C10 (amended): if the input change list contains two `FileChange`
records with the same path, both changed (in fact, any changed record
with that path suffices), and `maxFilesPerPartition ≥ 1`, then — with
oversized-SCC prompts approved — `CreatePlan` succeeds, and AT LEAST
one partition of the returned plan contains that path. Exactly one is
not guaranteed (see the counterexample). -/
theorem C10_duplicates_succeed_at_least_once (changes : List FileChange)
    (deps : List Dependency) (cfg : Config) (path : String)
    (hmax : 1 ≤ cfg.maxFilesPerPartition)
    (hdup : 2 ≤ changes.countP fun f => f.isChanged ∧ f.path = path) :
    ∃ plan, createPlan approveAll changes deps cfg = Except.ok plan ∧
      ∃ part ∈ plan.partitions, path ∈ partitionPaths part := by
  obtain ⟨f, hfmem, hfp⟩ := List.countP_pos.mp
    (by omega : 0 < changes.countP fun f => f.isChanged ∧ f.path = path)
  simp only [decide_eq_true_eq] at hfp
  have hfc : f ∈ filterChangedFiles changes := by
    simp [filterChangedFiles, List.mem_filter, hfmem, hfp.1]
  have hnempty : ¬ (filterChangedFiles changes).length = 0 := by
    intro h0
    rw [List.length_eq_zero.mp h0] at hfc
    simp at hfc
  have hcov := createAllPartitionsOrd_covers (filterChangedFiles changes)
    (buildDependencyGraph (filterChangedFiles changes) deps)
    (findCircularDependencies
      (buildDependencyGraph (filterChangedFiles changes) deps)) cfg hmax
  have hval : validateExhaustiveness (filterChangedFiles changes)
      (createAllPartitionsOrd id (filterChangedFiles changes)
        (buildDependencyGraph (filterChangedFiles changes) deps)
        (findCircularDependencies
          (buildDependencyGraph (filterChangedFiles changes) deps)) cfg)
        = true := by
    rw [validateExhaustiveness, List.all_eq_true]
    intro file hfile
    rw [List.any_eq_true]
    obtain ⟨part, hp, hpp⟩ := hcov file hfile
    refine ⟨part, hp, ?_⟩
    rw [List.any_eq_true]
    simp only [partitionPaths, getFilePaths, List.mem_map] at hpp
    obtain ⟨f2, hf2, hf2p⟩ := hpp
    exact ⟨f2, hf2, by simp [hf2p]⟩
  refine ⟨⟨createAllPartitionsOrd id (filterChangedFiles changes)
      (buildDependencyGraph (filterChangedFiles changes) deps)
      (findCircularDependencies
        (buildDependencyGraph (filterChangedFiles changes) deps)) cfg,
    ⟨(filterChangedFiles changes).length,
      (createAllPartitionsOrd id (filterChangedFiles changes)
        (buildDependencyGraph (filterChangedFiles changes) deps)
        (findCircularDependencies
          (buildDependencyGraph (filterChangedFiles changes) deps)) cfg).length,
      cfg.maxFilesPerPartition, cfg.strategy⟩⟩, ?_, ?_⟩
  · simp only [createPlan, createPlanOrd]
    rw [if_neg hnempty, handleOversized_approveAll]
    simp only [hval, not_true, if_neg, if_false]
  · obtain ⟨part, hp, hpp⟩ := hcov f hfc
    exact ⟨part, hp, hfp.2 ▸ hpp⟩

/-- Witness for `C10_duplicates_succeed_at_least_once` at the
duplicated-path input of the C10 counterexample. -/
theorem C10_duplicates_witness :
    1 ≤ cfgOne.maxFilesPerPartition ∧
    2 ≤ c10Changes.countP (fun f => f.isChanged ∧ f.path = "r") ∧
    ∃ plan, createPlan approveAll c10Changes [] cfgOne = Except.ok plan ∧
      ∃ part ∈ plan.partitions, "r" ∈ partitionPaths part :=
  ⟨by decide, by decide,
    C10_duplicates_succeed_at_least_once c10Changes [] cfgOne "r"
      (by decide) (by decide)⟩

/-- C3 (amended): provided the changed files' paths are pairwise
distinct (and `maxFilesPerPartition ≥ 1`), every plan `CreatePlan`
returns is an exhaustive, duplicate-free allocation: every input file
with `isChanged = true` appears in at least one partition's file list,
and no path appears in the file lists of two distinct partitions. -/
theorem C3_cover_and_no_duplication
    (approve : List String → Nat → Nat → Bool)
    (changes : List FileChange) (dependencies : List Dependency)
    (cfg : Config) (plan : PartitionPlan)
    (hmax : 1 ≤ cfg.maxFilesPerPartition)
    (hnodup : (getFilePaths (filterChangedFiles changes)).Nodup)
    (hok : createPlan approve changes dependencies cfg = Except.ok plan) :
    (∀ f ∈ filterChangedFiles changes,
      ∃ part ∈ plan.partitions, f.path ∈ partitionPaths part) ∧
    plan.partitions.Pairwise
      (fun P Q => ∀ p ∈ partitionPaths P, p ∉ partitionPaths Q) := by
  rw [createPlan_ok_partitions approve changes dependencies cfg plan hok]
  exact ⟨createAllPartitionsOrd_covers _ _ _ _ hmax,
    createAllPartitionsOrd_pairwise _ _ _ _ hmax hnodup
      (findCircular_pairwise _)⟩

/-- Witness for `C3_cover_and_no_duplication` at the two-file input of
the C1 scenario. -/
theorem C3_cover_witness :
    1 ≤ cfgTen.maxFilesPerPartition ∧
    (getFilePaths (filterChangedFiles c1Changes)).Nodup ∧
    ((∀ f ∈ filterChangedFiles c1Changes,
      ∃ part ∈ (getPlanD (createPlan approveAll c1Changes c1Deps
        cfgTen)).partitions, f.path ∈ partitionPaths part) ∧
    (getPlanD (createPlan approveAll c1Changes c1Deps
      cfgTen)).partitions.Pairwise
      (fun P Q => ∀ p ∈ partitionPaths P, p ∉ partitionPaths Q)) :=
  ⟨by decide, by decide,
    C3_cover_and_no_duplication approveAll c1Changes c1Deps cfgTen _
      (by decide) (by decide) rfl⟩

/-- Witness for `C6_overflowing_bucket_single_partition`: the depth-0
bucket `["u", "v"]` with `maxFilesPerPartition = 1` yields a single
partition holding exactly `u`. -/
theorem C6_overflowing_bucket_witness :
    (["u", "v"] : List String).Nodup ∧
    1 ≤ cfgOne.maxFilesPerPartition ∧
    (createPartitionForDepth ["u", "v"] c6Files [] [] [] cfgOne).1.map
        (fun part => getFilePaths part.files) =
      [(["u", "v"] : List String).take cfgOne.maxFilesPerPartition] :=
  ⟨by decide, by decide,
    (C6_overflowing_bucket_single_partition ["u", "v"] c6Files [] [] [] cfgOne
      (by decide) (by decide) (by decide) (by decide) (by decide)).1⟩

/-- C1: at the input `{a, b}` with the single live edge `a → b` and
`maxFilesPerPartition = 10`, `CreatePlan` places `b` in partition 1 and
`a` in partition 2, yet partition 2's prerequisites (`Dependencies`)
list is empty instead of `[1]`: `calculateDependencies` in the source
returns `[]` unconditionally, so prerequisites are never recorded. -/
theorem C1_prerequisites_stubbed :
    (planPartitions (createPlan approveAll c1Changes c1Deps cfgTen)).map
        (fun p => (p.id, partitionPaths p, p.dependencies)) =
      [(1, ["b"], []), (2, ["a"], [])] ∧
    (c1Deps.map fun d => (d.From, d.To)) = [("a", "b")] := by
  constructor <;> rfl

/-- C2: at the input `{a, b, c}` with edges `a → b`, `b → a`, `a → c`,
the circular group `{a, b}` becomes partition 1 and `c` partition 2;
the live edge `a → c` then crosses from partition 1 to partition 2, so
the id of the partition holding `c` is larger than the id of the
partition holding `a`, violating the claimed topological order. -/
theorem C2_topological_order_violated :
    (planPartitions (createPlan approveAll c2Changes c2Deps cfgTen)).map
        (fun p => (p.id, partitionPaths p)) = [(1, ["a", "b"]), (2, ["c"])] ∧
    topoOrderHolds (getPlanD (createPlan approveAll c2Changes c2Deps cfgTen))
      c2Deps = false := by
  constructor <;> rfl

/-- C3 counterexample: with the duplicated changed path `p` and
`maxFilesPerPartition = 1`, the depth-0 bucket overflows, both records
of `p` fall through to the residual phase, and `p` ends up in two
distinct partitions (ids 2 and 4) — the no-duplication conjunct of the
claim fails on this input. -/
theorem C3_duplicate_path_in_two_partitions :
    ¬ (∀ P ∈ planPartitions (createPlan approveAll c3Changes [] cfgOne),
       ∀ Q ∈ planPartitions (createPlan approveAll c3Changes [] cfgOne),
       P.id ≠ Q.id → ∀ p ∈ partitionPaths P, p ∉ partitionPaths Q) := by
  decide

/-- C5: the residual phase emits one partition per group of Go's
`range` over the group map, whose order is unspecified; iterating the
two residual groups of this input in the two possible orders yields
different plans (partition 2 is `styles-1` in one run and
`documentation-1` in the other), so two runs with identical inputs
need not produce identical partition lists. -/
theorem C5_plan_depends_on_map_order :
    planPartitions (createPlanOrd id approveAll c5Changes [] cfgOne) ≠
      planPartitions (createPlanOrd List.reverse approveAll c5Changes [] cfgOne) := by
  decide

/-- C6: with two depth-0 files and `maxFilesPerPartition = 1`, the
depth-0 bucket holds two files but Phase B
(`createDependencyPartitions`) emits only a single partition containing
the first file; the second file of the bucket is never allocated within
Phase B, contradicting the claimed consecutive splitting of overflowing
buckets. -/
theorem C6_bucket_not_fully_emitted_in_phase_b :
    groupByDependencyDepth (buildDependencyGraph c6Files [])
        (getFilePaths c6Files) = [(0, ["u", "v"])] ∧
    (createDependencyPartitions c6Files (buildDependencyGraph c6Files [])
        [] cfgOne).map partitionPaths = [["u"]] ∧
    ¬ (∀ p ∈ ["u", "v"], ∃ part ∈ createDependencyPartitions c6Files
        (buildDependencyGraph c6Files []) [] cfgOne,
        p ∈ partitionPaths part) := by
  refine ⟨by rfl, by rfl, ?_⟩
  decide

/-- C7 counterexample: the graph builder keeps self-loops — for the
changed file `a` and the input dependency `a → a`, the adjacency list
of `a` contains `a` itself, contradicting the claimed `from ≠ to`
condition. -/
theorem C7_self_loop_kept :
    (buildDependencyGraph (filterChangedFiles c7Changes) c7Deps).adjacency =
      [("a", ["a"])] ∧
    ¬ ((alistGetD (buildDependencyGraph (filterChangedFiles c7Changes)
        c7Deps).adjacency "a" []).contains "a" = true → "a" ≠ "a") := by
  refine ⟨by rfl, ?_⟩
  decide

/-- C8 counterexample: for two changed files under the directory
`web.app`, the partition name is the unsanitised-dot string `web.app`,
which does not match `[a-z0-9][a-z0-9-]*`. -/
theorem C8_dot_in_name :
    (planPartitions (createPlan approveAll c8Changes [] cfgTen)).map (·.name) =
      ["web.app"] ∧
    legalName "web.app" = false := by
  constructor <;> rfl

/-- C9 counterexample: when the per-group analysis reports the same
`(from, to, type)` edge twice (here, the same import found on lines 1
and 2), the driver's aggregate contains the key twice — it performs no
deduplication. -/
theorem C9_driver_keeps_duplicates :
    (analyzeDependencies c9Plugins c9Results c9Changes).countP
        (fun d => d.From = "a.ts" ∧ d.To = "b.ts" ∧ d.dtype = "import") = 2 ∧
    ¬ ((analyzeDependencies c9Plugins c9Results c9Changes).countP
        (fun d => d.From = "a.ts" ∧ d.To = "b.ts" ∧ d.dtype = "import") ≤ 1) := by
  constructor
  · rfl
  · decide

/-- C10 counterexample: with the duplicated changed path `r` and
`maxFilesPerPartition = 1`, `CreatePlan` succeeds but the path `r`
is contained in two partitions, not exactly one. -/
theorem C10_not_exactly_one_partition :
    isOkB (createPlan approveAll c10Changes [] cfgOne) = true ∧
    ¬ ((planPartitions (createPlan approveAll c10Changes [] cfgOne)).countP
        (fun part => (partitionPaths part).contains "r") = 1) := by
  refine ⟨by rfl, ?_⟩
  decide

/-! ## Name sanitisation produces legal names (for C8) -/

theorem digitChar_ok (d : Nat) (hd : d < 10) :
    '0' ≤ Char.ofNat (48 + d) ∧ Char.ofNat (48 + d) ≤ '9' := by
  interval_cases d <;> exact ⟨by decide, by decide⟩

theorem natCharsF_digits : ∀ (fuel n : Nat), ∀ c ∈ natCharsF fuel n,
    '0' ≤ c ∧ c ≤ '9' := by
  intro fuel
  induction fuel with
  | zero => intro n c hc; simp [natCharsF] at hc
  | succ fuel ih =>
      intro n c hc
      unfold natCharsF at hc
      by_cases h : n < 10
      · rw [if_pos h] at hc
        simp only [List.mem_singleton] at hc
        subst hc
        exact digitChar_ok n h
      · rw [if_neg h] at hc
        rcases List.mem_append.mp hc with h1 | h2
        · exact ih _ c h1
        · simp only [List.mem_singleton] at h2
          subst h2
          exact digitChar_ok _ (Nat.mod_lt _ (by omega))

theorem natCharsF_length : ∀ (fuel n k : Nat), 1 ≤ k → n < 10 ^ k →
    (natCharsF fuel n).length ≤ k := by
  intro fuel
  induction fuel with
  | zero => intro n k hk _; simp [natCharsF]
  | succ fuel ih =>
      intro n k hk hn
      unfold natCharsF
      by_cases h : n < 10
      · rw [if_pos h]; simpa using hk
      · rw [if_neg h]
        rw [List.length_append, List.length_singleton]
        have hk2 : 2 ≤ k := by
          by_contra hlt
          have hke : k = 1 := by omega
          subst hke
          simp [pow_one] at hn
          omega
        have hpow : 10 ^ (k - 1) * 10 = 10 ^ k := by
          rw [← pow_succ]
          congr 1
          omega
        have hdiv : n / 10 < 10 ^ (k - 1) := by
          rw [Nat.div_lt_iff_lt_mul (by omega)]
          omega
        have := ih (n / 10) (k - 1) (by omega) hdiv
        omega

theorem lowerChar_fix (c : Char) (h : nameCharOK c = true) : lowerChar c = c := by
  unfold lowerChar
  rw [if_neg]
  rintro ⟨h1, h2⟩
  simp only [nameCharOK, Bool.or_eq_true, decide_eq_true_eq] at h
  rcases h with ⟨ha, _⟩ | ⟨_, h9⟩ | hd
  · exact absurd (Char.le_trans ha h2) (by decide)
  · exact absurd (Char.le_trans h1 h9) (by decide)
  · subst hd; exact absurd h1 (by decide)

theorem replaceDashPairs_chars : ∀ (l : List Char), ∀ c ∈ replaceDashPairs l, c ∈ l := by
  intro l
  induction l using replaceDashPairs.induct with
  | case1 rest ih =>
      intro c hc
      rw [show replaceDashPairs ('-' :: '-' :: rest) =
        '-' :: replaceDashPairs rest from rfl] at hc
      rcases List.mem_cons.mp hc with he | hm
      · simp [he]
      · simp [ih c hm]
  | case2 c0 rest h ih =>
      intro c hc
      rw [replaceDashPairs.eq_2 c0 rest h] at hc
      rcases List.mem_cons.mp hc with he | hm
      · simp [he]
      · simp [ih c hm]
  | case3 =>
      intro c hc
      simp [replaceDashPairs] at hc

theorem replaceChar_chars (s : String) (o n : Char) :
    ∀ c ∈ (replaceChar s o n).data, c = n ∨ (c ∈ s.data ∧ ¬ c = o) := by
  intro c hc
  simp only [replaceChar, List.mem_map] at hc
  obtain ⟨a, ha, hae⟩ := hc
  by_cases h : a = o
  · rw [if_pos h] at hae
    exact Or.inl hae.symm
  · rw [if_neg h] at hae
    subst hae
    exact Or.inr ⟨ha, h⟩

theorem collapseDashesF_chars : ∀ (fuel : Nat) (l : List Char),
    ∀ c ∈ collapseDashesF fuel l, c ∈ l := by
  intro fuel
  induction fuel with
  | zero => intro l c hc; exact hc
  | succ fuel ih =>
      intro l c hc
      unfold collapseDashesF at hc
      by_cases h : listHasSub ['-', '-'] l = true
      · rw [if_pos h] at hc
        exact replaceDashPairs_chars l c (ih _ c hc)
      · rwa [if_neg h] at hc

theorem prefix_head_eq {r l : List Char} (h : r <+: l) (hne : r ≠ []) :
    r.head? = l.head? := by
  obtain ⟨t, ht⟩ := h
  cases r with
  | nil => exact absurd rfl hne
  | cons a rest => rw [← ht]; rfl

theorem trim_rev_pref (d1 : List Char) :
    (d1.reverse.dropWhile (· = '-')).reverse <+: d1 := by
  have h := (List.dropWhile_suffix (l := d1.reverse) (· = '-')).reverse
  rwa [List.reverse_reverse] at h

theorem trimDashes_chars (s : String) :
    ∀ c ∈ (trimDashes s).data, c ∈ s.data := by
  intro c hc
  simp only [trimDashes, List.mem_reverse] at hc
  have h1 := List.dropWhile_subset (l := (s.data.dropWhile (· = '-')).reverse)
    (· = '-') hc
  rw [List.mem_reverse] at h1
  exact List.dropWhile_subset _ h1

theorem trimDashes_length (s : String) :
    (trimDashes s).data.length ≤ s.data.length := by
  simp only [trimDashes, List.length_reverse]
  calc ((s.data.dropWhile (· = '-')).reverse.dropWhile (· = '-')).length
      ≤ (s.data.dropWhile (· = '-')).reverse.length :=
        (List.dropWhile_sublist _).length_le
    _ = (s.data.dropWhile (· = '-')).length := List.length_reverse _
    _ ≤ s.data.length := (List.dropWhile_sublist _).length_le

theorem trimDashes_shape (s : String) :
    (trimDashes s).data = [] ∨
    ∃ c rest, (trimDashes s).data = c :: rest ∧ ¬ c = '-' := by
  cases hx : (trimDashes s).data with
  | nil => exact Or.inl rfl
  | cons a b =>
      right
      refine ⟨a, b, rfl, ?_⟩
      have hdata : (trimDashes s).data =
          ((s.data.dropWhile (· = '-')).reverse.dropWhile (· = '-')).reverse := rfl
      have hpref := trim_rev_pref (s.data.dropWhile (· = '-'))
      have hh : (s.data.dropWhile (· = '-')).head? = some a := by
        rw [← prefix_head_eq hpref (by rw [← hdata, hx]; simp)]
        rw [← hdata, hx]
        rfl
      cases hd1 : s.data.dropWhile (· = '-') with
      | nil => rw [hd1] at hh; cases hh
      | cons a2 b2 =>
          rw [hd1] at hh
          have ha2 : a2 = a := by
            simpa using hh
          subst ha2
          have h2 := List.head?_dropWhile_not (fun c => decide (c = '-')) s.data
          rw [hd1] at h2
          simpa using h2

theorem legalName_of_shape (s : String)
    (hchars : ∀ c ∈ s.data, nameCharOK c = true)
    (hshape : ∃ c rest, s.data = c :: rest ∧ ¬ c = '-')
    (hlen : s.data.length ≤ 30) :
    legalName s = true := by
  obtain ⟨c, rest, hdata, hc⟩ := hshape
  unfold legalName
  rw [hdata]
  simp only [decide_eq_true_eq]
  refine ⟨?_, ?_, by simpa [hdata] using hlen⟩
  · have := hchars c (by rw [hdata]; simp)
    simp only [nameCharOK, Bool.or_eq_true, decide_eq_true_eq] at this
    rcases this with h | h | h
    · exact Or.inl h
    · exact Or.inr h
    · exact absurd h hc
  · rw [List.all_eq_true]
    intro x hx
    have := hchars x (by rw [hdata]; exact List.mem_cons_of_mem _ hx)
    simp only [nameCharOK, Bool.or_eq_true, decide_eq_true_eq] at this
    simp only [Bool.or_eq_true, decide_eq_true_eq]
    tauto

theorem goToLower_fix (s : String)
    (h : ∀ c ∈ s.data, nameCharOK c = true) : goToLower s = s := by
  have hmap : s.data.map lowerChar = s.data := by
    rw [List.map_congr_left fun c hc => lowerChar_fix c (h c hc)]
    exact List.map_id _
  exact congrArg String.mk hmap

theorem sanitizeName_legal (s : String)
    (hchars : ∀ c ∈ s.data, pathCharOK c = true) :
    legalName (sanitizeName s) = true := by
  simp only [sanitizeName]
  set s4 := replaceChar (replaceChar (replaceChar (replaceChar s '/' '-') '\\' '-') '_' '-') ' ' '-' with hs4
  have h4 : ∀ c ∈ s4.data, nameCharOK c = true := by
    intro c hc
    rcases replaceChar_chars _ _ _ c hc with he | ⟨hc, _⟩
    · subst he; decide
    rcases replaceChar_chars _ _ _ c hc with he | ⟨hc, _⟩
    · subst he; decide
    rcases replaceChar_chars _ _ _ c hc with he | ⟨hc, _⟩
    · subst he; decide
    rcases replaceChar_chars _ _ _ c hc with he | ⟨hc, hslash⟩
    · subst he; decide
    · have := hchars c hc
      simp only [pathCharOK, nameCharOK, Bool.or_eq_true, decide_eq_true_eq] at this ⊢
      tauto
  set s5 : String := ⟨collapseDashes s4.data⟩ with hs5
  have h5 : ∀ c ∈ s5.data, nameCharOK c = true := by
    intro c hc
    exact h4 c (collapseDashesF_chars _ _ c hc)
  set s6 := trimDashes s5 with hs6
  have h6 : ∀ c ∈ s6.data, nameCharOK c = true :=
    fun c hc => h5 c (trimDashes_chars s5 c hc)
  by_cases hemp : s6 = ""
  · rw [if_pos hemp]
    rw [if_neg (by decide)]
    decide
  · rw [if_neg hemp]
    obtain ⟨c, rest, hcr, hcd⟩ : ∃ c rest, s6.data = c :: rest ∧ ¬ c = '-' := by
      rcases trimDashes_shape s5 with h | h
      · exact absurd (congrArg String.mk h) (by rw [← hs6] at *; exact hemp)
      · exact h
    by_cases hlong : 30 < s6.data.length
    · rw [if_pos hlong]
      set s7 := trimDashes ⟨s6.data.take 30⟩ with hs7
      have h7chars : ∀ x ∈ s7.data, nameCharOK x = true := by
        intro x hx
        have := trimDashes_chars _ x hx
        simp only at this
        exact h6 x (List.mem_of_mem_take this)
      have htake : s6.data.take 30 = c :: rest.take 29 := by
        rw [hcr]
        rfl
      have h7shape : ∃ x rest2, s7.data = x :: rest2 ∧ ¬ x = '-' := by
        rcases trimDashes_shape ⟨s6.data.take 30⟩ with h | h
        · exfalso
          rw [show (trimDashes ⟨s6.data.take 30⟩).data =
              (((s6.data.take 30).dropWhile (· = '-')).reverse.dropWhile
                (· = '-')).reverse from rfl,
            List.reverse_eq_nil_iff, List.dropWhile_eq_nil_iff] at h
          have hx : (s6.data.take 30).dropWhile (· = '-') = s6.data.take 30 := by
            rw [htake]
            exact List.dropWhile_cons_of_neg (by simpa using hcd)
          rw [hx] at h
          have hcmem : c ∈ s6.data.take 30 := by
            rw [htake]
            simp
          have := h c (by rwa [List.mem_reverse])
          simp at this
          exact hcd this
        · exact h
      have h7len : s7.data.length ≤ 30 := by
        have h1 := trimDashes_length ⟨s6.data.take 30⟩
        have h2 : (s6.data.take 30).length ≤ 30 := by
          simp [List.length_take]
        exact le_trans h1 h2
      rw [goToLower_fix s7 h7chars]
      exact legalName_of_shape s7 h7chars h7shape h7len
    · rw [if_neg hlong]
      rw [goToLower_fix s6 h6]
      exact legalName_of_shape s6 h6 ⟨c, rest, hcr, hcd⟩ (by omega)


/-! ## Path-derived strings keep the path alphabet (for C8) -/

theorem splitChar_chars (sep : Char) :
    ∀ (l : List Char), ∀ part ∈ splitChar sep l, ∀ c ∈ part,
    c ∈ l ∧ ¬ c = sep := by
  intro l
  induction l with
  | nil =>
      intro part hp c hc
      simp only [splitChar, List.mem_singleton] at hp
      subst hp
      simp at hc
  | cons a rest ih =>
      intro part hp c hc
      unfold splitChar at hp
      cases heq : splitChar sep rest with
      | nil =>
          simp only [heq, List.mem_singleton] at hp
          subst hp
          simp at hc
      | cons g gs =>
          simp only [heq] at hp
          by_cases hs : a = sep
          · rw [if_pos hs] at hp
            rcases List.mem_cons.mp hp with he | hm
            · subst he; simp at hc
            · have := ih part (by rw [heq]; exact hm) c hc
              exact ⟨List.mem_cons_of_mem _ this.1, this.2⟩
          · rw [if_neg hs] at hp
            rcases List.mem_cons.mp hp with he | hm
            · subst he
              rcases List.mem_cons.mp hc with he2 | hm2
              · subst he2; exact ⟨List.mem_cons_self _ _, hs⟩
              · have := ih g (by rw [heq]; exact List.mem_cons_self g gs) c hm2
                exact ⟨List.mem_cons_of_mem _ this.1, this.2⟩
            · have := ih part (by rw [heq]; exact List.mem_cons_of_mem _ hm) c hc
              exact ⟨List.mem_cons_of_mem _ this.1, this.2⟩

theorem splitSlash_chars (s : String) :
    ∀ seg ∈ splitSlash s, ∀ c ∈ seg.data, c ∈ s.data ∧ ¬ c = '/' := by
  intro seg hseg c hc
  simp only [splitSlash, List.mem_map] at hseg
  obtain ⟨part, hp, he⟩ := hseg
  subst he
  exact splitChar_chars '/' s.data part hp c hc

theorem intercalate_go_chars (sep : String) :
    ∀ (as : List String) (acc : String),
    ∀ c ∈ (String.intercalate.go acc sep as).data,
    c ∈ acc.data ∨ c ∈ sep.data ∨ ∃ b ∈ as, c ∈ b.data := by
  intro as
  induction as with
  | nil => intro acc c hc; exact Or.inl hc
  | cons b bs ih =>
      intro acc c hc
      have hrec := ih (acc ++ sep ++ b) c hc
      rcases hrec with h | h | ⟨b2, hb2, hc2⟩
      · rw [String.data_append, String.data_append] at h
        rcases List.mem_append.mp h with h1 | h2
        · rcases List.mem_append.mp h1 with ha | hs
          · exact Or.inl ha
          · exact Or.inr (Or.inl hs)
        · exact Or.inr (Or.inr ⟨b, by simp, h2⟩)
      · exact Or.inr (Or.inl h)
      · exact Or.inr (Or.inr ⟨b2, by simp [hb2], hc2⟩)

theorem goDir_chars (p : String) (h : ¬ (splitSlash p).length ≤ 1) :
    ∀ c ∈ (goDir p).data, c ∈ p.data ∨ c = '/' := by
  intro c hc
  unfold goDir at hc
  rw [if_neg h] at hc
  cases hdl : (splitSlash p).dropLast with
  | nil =>
      rw [hdl] at hc
      simp [String.intercalate] at hc
  | cons a as =>
      rw [hdl] at hc
      have hrec := intercalate_go_chars "/" as a c hc
      rcases hrec with h1 | h1 | ⟨b, hb, hcb⟩
      · have ha : a ∈ splitSlash p := by
          have : a ∈ (splitSlash p).dropLast := by rw [hdl]; simp
          exact (List.dropLast_sublist _).subset this
        exact Or.inl (splitSlash_chars p a ha c h1).1
      · simp only [show ("/" : String).data = ['/'] from rfl,
          List.mem_singleton] at h1
        exact Or.inr h1
      · have hbm : b ∈ splitSlash p := by
          have : b ∈ (splitSlash p).dropLast := by rw [hdl]; simp [hb]
          exact (List.dropLast_sublist _).subset this
        exact Or.inl (splitSlash_chars p b hbm c hcb).1

theorem alistSet_mem_pairs {β : Type} (m : List (String × β)) (k : String)
    (v : β) : ∀ kv ∈ alistSet m k v, kv ∈ m ∨ kv.1 = k := by
  induction m with
  | nil =>
      intro kv h
      simp only [alistSet, List.mem_singleton] at h
      subst h
      exact Or.inr rfl
  | cons hd tl ih =>
      intro kv h
      obtain ⟨k0, v0⟩ := hd
      by_cases he : k0 = k
      · subst he
        simp only [alistSet, if_pos rfl] at h
        rcases List.mem_cons.mp h with h1 | h2
        · subst h1; exact Or.inr rfl
        · exact Or.inl (List.mem_cons_of_mem _ h2)
      · simp only [alistSet, if_neg he] at h
        rcases List.mem_cons.mp h with h1 | h2
        · subst h1; exact Or.inl (List.mem_cons_self _ _)
        · rcases ih kv h2 with h3 | h3
          · exact Or.inl (List.mem_cons_of_mem _ h3)
          · exact Or.inr h3

theorem findCommonDirectory_chars (files : List FileChange)
    (h : ∀ f ∈ files, ∀ c ∈ f.path.data, pathCharOK c = true) :
    ∀ c ∈ (findCommonDirectory files).data, pathCharOK c = true := by
  unfold findCommonDirectory
  by_cases hemp : files = []
  · rw [if_pos hemp]
    intro c hc
    simp at hc
  rw [if_neg hemp]
  have hstep : ∀ (fs : List FileChange)
      (acc : List (String × Nat)),
      (∀ f ∈ fs, ∀ c ∈ f.path.data, pathCharOK c = true) →
      (∀ kv ∈ acc, ∀ c ∈ kv.1.data, pathCharOK c = true) →
      ∀ kv ∈ fs.foldl (fun m file =>
        let dir := goDir file.path
        if dir = "." then m else
        let m := alistUpd m dir 0 (· + 1)
        let parts := splitSlash dir
        if parts.length > 0 then alistUpd m (parts.headD "") 0 (· + 1) else m)
        acc,
      ∀ c ∈ kv.1.data, pathCharOK c = true := by
    intro fs
    induction fs with
    | nil => intro acc _ hacc kv hkv; exact hacc kv hkv
    | cons f rest ih =>
        intro acc hfs hacc kv hkv
        simp only [List.foldl_cons] at hkv
        refine ih _ (fun f2 hf2 => hfs f2 (List.mem_cons_of_mem _ hf2)) ?_ kv hkv
        intro kv2 hkv2 c hc
        by_cases hdot : goDir f.path = "."
        · rw [if_pos hdot] at hkv2
          exact hacc kv2 hkv2 c hc
        · rw [if_neg hdot] at hkv2
          have hdirchars : ∀ x ∈ (goDir f.path).data, pathCharOK x = true := by
            intro x hx
            have hlen : ¬ (splitSlash f.path).length ≤ 1 := by
              intro hl
              exact hdot (by unfold goDir; rw [if_pos hl])
            rcases goDir_chars f.path hlen x hx with h1 | h1
            · exact hfs f (List.mem_cons_self _ _) x h1
            · subst h1; decide
          by_cases hparts : (splitSlash (goDir f.path)).length > 0
          · rw [if_pos hparts] at hkv2
            rcases alistSet_mem_pairs _ _ _ kv2 hkv2 with h2 | h2
            · rcases alistSet_mem_pairs _ _ _ kv2 h2 with h3 | h3
              · exact hacc kv2 h3 c hc
              · rw [h3] at hc
                exact hdirchars c hc
            · rw [h2] at hc
              cases hsp : splitSlash (goDir f.path) with
              | nil => rw [hsp] at hc; simp at hc
              | cons s0 ss =>
                  rw [hsp] at hc
                  simp only [List.headD_cons] at hc
                  have hs0 : s0 ∈ splitSlash (goDir f.path) := by
                    rw [hsp]; exact List.mem_cons_self _ _
                  exact hdirchars c (splitSlash_chars _ s0 hs0 c hc).1
          · rw [if_neg hparts] at hkv2
            rcases alistSet_mem_pairs _ _ _ kv2 hkv2 with h2 | h2
            · exact hacc kv2 h2 c hc
            · rw [h2] at hc
              exact hdirchars c hc
  have hpick : ∀ (l : List (String × Nat)) (th : Nat) (acc : String × Nat),
      (∀ kv ∈ l, ∀ c ∈ kv.1.data, pathCharOK c = true) →
      (∀ c ∈ acc.1.data, pathCharOK c = true) →
      ∀ c ∈ (l.foldl (fun (acc : String × Nat) (p : String × Nat) =>
        if p.2 > acc.2 ∧ p.2 > th then (p.1, p.2) else acc) acc).1.data,
      pathCharOK c = true := by
    intro l th
    induction l with
    | nil => intro acc _ hacc c hc; exact hacc c hc
    | cons p rest ih =>
        intro acc hl hacc c hc
        simp only [List.foldl_cons] at hc
        refine ih _ (fun kv hkv => hl kv (List.mem_cons_of_mem _ hkv)) ?_ c hc
        by_cases hcond : p.2 > acc.2 ∧ p.2 > th
        · rw [if_pos hcond]
          exact hl p (List.mem_cons_self _ _)
        · rw [if_neg hcond]
          exact hacc
  intro c hc
  refine hpick _ _ ("", 0) (hstep files [] h (by simp)) (by simp) c hc

theorem alistGetD_or {β : Type} (m : List (String × β)) (k : String) (d : β) :
    alistGetD m k d = d ∨ (k, alistGetD m k d) ∈ m := by
  unfold alistGetD
  cases hg : alistGet m k with
  | none => exact Or.inl rfl
  | some v =>
      right
      simpa using alistGet_mem m k v hg

theorem generateByFileType_cases (files : List FileChange) :
    generateByFileType files = "" ∨
    generateByFileType files ∈ typeNames.map (·.2) := by
  simp only [generateByFileType]
  split
  · rename_i p heq
    rcases alistGetD_or typeNames p.1 "" with h | h
    · exact Or.inl h
    · exact Or.inr (List.mem_map_of_mem (·.2) h)
  · exact Or.inl rfl

theorem generateByFunctionality_cases (files : List FileChange) :
    generateByFunctionality files = "" ∨
    generateByFunctionality files ∈ functionalityPatterns.map (·.2) := by
  simp only [generateByFunctionality]
  split
  · rename_i pat heq
    exact Or.inr (List.mem_map_of_mem (·.2) (List.mem_of_find?_eq_some heq))
  · exact Or.inl rfl

theorem generateName_legal (fl : List FileChange)
    (hchars : ∀ f ∈ fl, ∀ c ∈ f.path.data, pathCharOK c = true)
    (hlen : fl.length ≤ 9999) :
    legalName (generateName fl) = true := by
  unfold generateName
  by_cases hemp : fl = []
  · rw [if_pos hemp]
    decide
  rw [if_neg hemp]
  by_cases hcd : findCommonDirectory fl ≠ ""
  · rw [if_pos hcd]
    exact sanitizeName_legal _ (findCommonDirectory_chars fl hchars)
  rw [if_neg hcd]
  by_cases hbt : generateByFileType fl ≠ ""
  · rw [if_pos hbt]
    rcases generateByFileType_cases fl with h | h
    · exact absurd h hbt
    · exact (by decide : ∀ v ∈ typeNames.map (·.2), legalName v = true) _ h
  rw [if_neg hbt]
  by_cases hbf : generateByFunctionality fl ≠ ""
  · rw [if_pos hbf]
    rcases generateByFunctionality_cases fl with h | h
    · exact absurd h hbf
    · exact (by decide :
        ∀ v ∈ functionalityPatterns.map (·.2), legalName v = true) _ h
  rw [if_neg hbf]
  apply legalName_of_shape
  · intro c hc
    rw [String.data_append, String.data_append] at hc
    rcases List.mem_append.mp hc with h1 | h2
    · rcases List.mem_append.mp h1 with ha | hb
      · exact (by decide : ∀ x ∈ "partition-".data, nameCharOK x = true) c ha
      · have := natCharsF_digits _ _ c hb
        simp only [nameCharOK, Bool.or_eq_true, decide_eq_true_eq]
        exact Or.inr (Or.inl this)
    · exact (by decide : ∀ x ∈ "-files".data, nameCharOK x = true) c h2
  · refine ⟨'p', ("artition-".data ++ natChars fl.length) ++ "-files".data,
      ?_, by decide⟩
    rw [String.data_append, String.data_append]
    rw [show ("partition-" : String).data = 'p' :: ("artition-" : String).data
      from rfl]
    simp [natStr]
  · rw [String.data_append, String.data_append, List.length_append,
      List.length_append]
    have hd4 := natCharsF_length (fl.length + 1) fl.length 4 (by omega)
      (by omega)
    have h1 : (("partition-" : String).data).length = 10 := by decide
    have h2 : (("-files" : String).data).length = 6 := by decide
    have h3 : (natStr fl.length).data.length = (natCharsF (fl.length + 1)
      fl.length).length := rfl
    omega

/-! ## Residual chunk names are legal (for C8) -/

theorem baseOK_of_shape (s : String) (c : Char) (rest : List Char)
    (hdata : s.data = c :: rest)
    (hc : ('a' ≤ c ∧ c ≤ 'z') ∨ ('0' ≤ c ∧ c ≤ '9'))
    (hrest : ∀ x ∈ rest, nameCharOK x = true)
    (hlen : s.data.length ≤ 25) :
    baseOK s = true := by
  unfold baseOK
  rw [hdata] at hlen ⊢
  simp only [Bool.and_eq_true, decide_eq_true_eq, List.all_eq_true]
  exact ⟨hc, fun x hx => hrest x hx, by simpa using hlen⟩

theorem chunkName_legal (base : String) (k : Nat) (hk : k ≤ 9999)
    (hbase : baseOK base = true) :
    legalName (base ++ "-" ++ natStr k) = true := by
  unfold baseOK at hbase
  split at hbase
  · cases hbase
  · rename_i c rest hdata
    simp only [Bool.and_eq_true, decide_eq_true_eq, List.all_eq_true] at hbase
    obtain ⟨hhead, hrest, hblen⟩ := hbase
    apply legalName_of_shape
    · intro x hx
      rw [String.data_append, String.data_append] at hx
      rcases List.mem_append.mp hx with h1 | h2
      · rcases List.mem_append.mp h1 with ha | hb
        · rw [hdata] at ha
          rcases List.mem_cons.mp ha with he | hm
          · subst he
            simp only [nameCharOK, Bool.or_eq_true, decide_eq_true_eq]
            tauto
          · exact hrest x hm
        · simp only [show ("-" : String).data = ['-'] from rfl,
            List.mem_singleton] at hb
          subst hb
          decide
      · have := natCharsF_digits _ _ x h2
        simp only [nameCharOK, Bool.or_eq_true, decide_eq_true_eq]
        exact Or.inr (Or.inl this)
    · refine ⟨c, (rest ++ ['-']) ++ (natStr k).data, ?_, ?_⟩
      · rw [String.data_append, String.data_append, hdata,
          show ("-" : String).data = ['-'] from rfl]
        simp
      · rintro rfl
        rcases hhead with ⟨hx, _⟩ | ⟨hx, _⟩
        · exact absurd hx (by decide)
        · exact absurd hx (by decide)
    · rw [String.data_append, String.data_append, List.length_append,
        List.length_append]
      have hd4 := natCharsF_length (k + 1) k 4 (by omega) (by omega)
      have h3 : (natStr k).data.length = (natCharsF (k + 1) k).length := rfl
      have h1 : (("-" : String).data).length = 1 := by decide
      have h5 : base.data.length = rest.length + 1 := by rw [hdata]; rfl
      omega

theorem grouperByDirectory_cases (p : String) :
    grouperByDirectory p = "" ∨
    grouperByDirectory p ∈ directoryGroups.map (·.2) ∨
    grouperByDirectory p = "tests" ∨
    grouperByDirectory p = "dir-" ++ goToLower ((splitSlash p).headD "") := by
  simp only [grouperByDirectory]
  split
  · exact Or.inl rfl
  · split
    · rename_i g hg
      exact Or.inr (Or.inl (List.mem_map_of_mem (·.2) (alistGet_mem _ _ _ hg)))
    · split
      · exact Or.inr (Or.inr (Or.inl rfl))
      · exact Or.inr (Or.inr (Or.inr rfl))

theorem determineGroup_base (f : FileChange) (hp : c8PathOK f.path = true) :
    baseOK (determineGroup f) = true := by
  have hp' := hp
  simp only [c8PathOK, Bool.and_eq_true, decide_eq_true_eq,
    List.all_eq_true] at hp'
  obtain ⟨hchars, hseg⟩ := hp'
  unfold determineGroup
  by_cases h1 : grouperByFileType f.path ≠ ""
  · rw [if_pos h1]
    unfold grouperByFileType at h1 ⊢
    rcases alistGetD_or typeGroups (goToLower (goExt f.path)) "" with h | h
    · exact absurd h h1
    · exact (by decide : ∀ v ∈ typeGroups.map (·.2), baseOK v = true) _
        (List.mem_map_of_mem (·.2) h)
  rw [if_neg h1]
  by_cases h2 : grouperByDirectory f.path ≠ ""
  · rw [if_pos h2]
    rcases grouperByDirectory_cases f.path with h | h | h | h
    · exact absurd h h2
    · exact (by decide : ∀ v ∈ directoryGroups.map (·.2), baseOK v = true) _ h
    · rw [h]; decide
    · rw [h]
      have hsegchars : ∀ c ∈ (goToLower ((splitSlash f.path).headD "")).data,
          nameCharOK c = true := by
        intro c hc
        simp only [goToLower, List.mem_map] at hc
        obtain ⟨a, ha, hae⟩ := hc
        have hanc : nameCharOK a = true := by
          cases hsp : splitSlash f.path with
          | nil => rw [hsp] at ha; simp at ha
          | cons s0 ss =>
              rw [hsp] at ha
              simp only [List.headD_cons] at ha
              have hsc := splitSlash_chars f.path s0
                (by rw [hsp]; exact List.mem_cons_self _ _) a ha
              have hpc := hchars a hsc.1
              simp only [pathCharOK, nameCharOK, Bool.or_eq_true,
                decide_eq_true_eq] at hpc ⊢
              rcases hpc with hx | hx | hx
              · tauto
              · tauto
              · rcases hx with hx | hx
                · tauto
                · exact absurd hx hsc.2
        rw [← hae, lowerChar_fix a hanc]
        exact hanc
      have hdd : ("dir-" ++ goToLower ((splitSlash f.path).headD "")).data
          = 'd' :: (("ir-" : String).data ++
            (goToLower ((splitSlash f.path).headD "")).data) := by
        rw [String.data_append]
        rw [show ("dir-" : String).data = 'd' :: ("ir-" : String).data
          from rfl]
        simp
      apply baseOK_of_shape _ _ _ hdd
      · exact Or.inl ⟨by decide, by decide⟩
      · intro x hx
        rcases List.mem_append.mp hx with ha | hb
        · exact (by decide : ∀ v ∈ ("ir-" : String).data,
            nameCharOK v = true) x ha
        · exact hsegchars x hb
      · rw [hdd]
        simp only [List.length_cons, List.length_append, List.length_nil]
        have hlow : (goToLower ((splitSlash f.path).headD "")).data.length
            = ((splitSlash f.path).headD "").data.length := by
          simp [goToLower]
        omega
  rw [if_neg h2]
  decide

theorem simpleChunks_names (maxm1 : Nat) (pref base : String) :
    ∀ (fuel startID num : Nat) (files : List FileChange),
    ∀ part ∈ simpleChunks maxm1 pref base fuel startID num files,
    ∃ j, num ≤ j ∧ j < num + files.length ∧
      part.name = base ++ "-" ++ natStr j := by
  intro fuel
  induction fuel with
  | zero =>
      intro startID num files part hp
      cases files <;> simp [simpleChunks] at hp
  | succ fuel ih =>
      intro startID num files part hp
      cases files with
      | nil => simp [simpleChunks] at hp
      | cons f0 rest =>
          rw [show simpleChunks maxm1 pref base (fuel + 1) startID num
            (f0 :: rest) = _ :: simpleChunks maxm1 pref base fuel (startID + 1)
              (num + 1) ((f0 :: rest).drop (maxm1 + 1)) from rfl] at hp
          rcases List.mem_cons.mp hp with he | hm
          · subst he
            exact ⟨num, le_refl _, by simp, rfl⟩
          · obtain ⟨j, hj1, hj2, hj3⟩ := ih _ _ _ part hm
            refine ⟨j, by omega, ?_, hj3⟩
            have hdl : ((f0 :: rest).drop (maxm1 + 1)).length
                = (f0 :: rest).length - (maxm1 + 1) := List.length_drop _ _
            simp only [List.length_cons] at hdl ⊢
            omega

theorem createSimplePartitions_names (files : List FileChange)
    (startID : Nat) (cfg : Config) (base : String) :
    ∀ part ∈ createSimplePartitions files startID cfg base,
    ∃ j, 1 ≤ j ∧ j ≤ files.length ∧ part.name = base ++ "-" ++ natStr j := by
  unfold createSimplePartitions
  cases cfg.maxFilesPerPartition with
  | zero => simp
  | succ maxm1 =>
      intro part hp
      obtain ⟨j, hj1, hj2, hj3⟩ := simpleChunks_names maxm1 cfg.branchPref base
        (files.length + 1) startID 1 files part hp
      exact ⟨j, hj1, by omega, hj3⟩

theorem groupsFold_names (cfg : Config) (existingLen : Nat) :
    ∀ (groups : List (String × List FileChange)) (acc : List Partition),
    ∀ part ∈ groups.foldl (fun partitions g =>
      partitions ++ createSimplePartitions g.2
        (existingLen + partitions.length) cfg g.1) acc,
    part ∈ acc ∨ ∃ g ∈ groups, ∃ j, 1 ≤ j ∧ j ≤ g.2.length ∧
      part.name = g.1 ++ "-" ++ natStr j := by
  intro groups
  induction groups with
  | nil => intro acc part hp; exact Or.inl (by simpa using hp)
  | cons g0 rest ih =>
      intro acc part hp
      simp only [List.foldl_cons] at hp
      rcases ih _ part hp with h1 | ⟨g, hg, hj⟩
      · rcases List.mem_append.mp h1 with ha | hn
        · exact Or.inl ha
        · obtain ⟨j, hj1, hj2, hj3⟩ := createSimplePartitions_names g0.2 _
            cfg g0.1 part hn
          exact Or.inr ⟨g0, by simp, j, hj1, hj2, hj3⟩
      · exact Or.inr ⟨g, by simp [hg], hj⟩

theorem cRFP_names (files : List FileChange) (existing : List Partition)
    (cfg : Config) :
    ∀ part ∈ createRemainingFilePartitionsOrd id files existing cfg,
    ∃ j, 1 ≤ j ∧ j ≤ files.length ∧
      ((part.name = "remaining" ++ "-" ++ natStr j) ∨
       (∃ f ∈ files, part.name = determineGroup f ++ "-" ++ natStr j)) := by
  simp only [createRemainingFilePartitionsOrd, id_eq]
  set partitions := (groupFiles files).foldl (fun partitions g =>
    partitions ++ createSimplePartitions g.2
      (existing.length + partitions.length) cfg g.1) [] with hparts
  intro part hp
  by_cases hlen : partitions.length = 0
  · rw [if_pos hlen] at hp
    obtain ⟨j, hj1, hj2, hj3⟩ := createSimplePartitions_names files
      existing.length cfg "remaining" part hp
    exact ⟨j, hj1, hj2, Or.inl hj3⟩
  · rw [if_neg hlen] at hp
    rcases groupsFold_names cfg existing.length (groupFiles files) [] part hp
      with h | ⟨g, hg, j, hj1, hj2, hj3⟩
    · simp at h
    · have hkeys : ((groupFiles files).map (·.1)).Nodup := by
        have := groupFiles_keys_nodup files [] (by simp)
        simpa [groupFiles] using this
      have hval := groupFiles_val files hkeys g hg
      have hg2len : g.2.length ≤ files.length := by
        rw [hval]
        exact List.length_filter_le _ _
      have hg2ne : g.2 ≠ [] := by
        intro he
        rw [he] at hj2
        simp at hj2
        omega
      obtain ⟨f, hf⟩ := List.exists_mem_of_ne_nil g.2 hg2ne
      have hfm : f ∈ files ∧ determineGroup f = g.1 := by
        rw [hval] at hf
        have hfc := List.mem_filter.mp hf
        exact ⟨hfc.1, by simpa using hfc.2⟩
      refine ⟨j, hj1, by omega, Or.inr ⟨f, hfm.1, ?_⟩⟩
      rw [hfm.2]
      exact hj3

/-! ## Partition names across the pipeline (for C8) -/

theorem circFold_name_files (files : List FileChange)
    (existing : List Partition) (cfg : Config) :
    ∀ (sccs : List SCCData) (acc : List Partition × List (String × Bool)),
    ((sccs.foldl (circStep files existing cfg) acc).1).map
      (fun part => (part.name, part.files)) =
      acc.1.map (fun part => (part.name, part.files)) ++
        sccs.map (fun scc =>
          (generateName (getFilesByPaths files scc.filePaths),
           getFilesByPaths files scc.filePaths)) := by
  intro sccs
  induction sccs with
  | nil => simp
  | cons scc rest ih =>
      intro acc
      simp only [List.foldl_cons, List.map_cons]
      rw [ih]
      simp [circStep]

theorem circParts_name (files : List FileChange) (cfg : Config)
    (sccs : List SCCData) :
    ∀ part ∈ (createCircularDependencyPartitions sccs files [] cfg []).1,
    part.name = generateName part.files := by
  intro part hpart
  have hmap := circFold_name_files files [] cfg sccs ([], [])
  have hmem : (part.name, part.files) ∈
      ((sccs.foldl (circStep files [] cfg) ([], [])).1).map
        (fun part => (part.name, part.files)) :=
    List.mem_map_of_mem _ hpart
  rw [hmap] at hmem
  simp only [List.map_nil, List.nil_append, List.mem_map] at hmem
  obtain ⟨scc, hscc, heq⟩ := hmem
  have h1 : generateName (getFilesByPaths files scc.filePaths) = part.name :=
    congrArg Prod.fst heq
  have h2 : getFilesByPaths files scc.filePaths = part.files :=
    congrArg Prod.snd heq
  rw [← h1, ← h2]

/-- The collection scan gathers files with duplicate-free paths, each
marked in its final allocation map. -/
theorem depthScan_nodup (allFiles : List FileChange) (cfg : Config) :
    ∀ (dfs : List String) (acc : List FileChange × List (String × Bool)),
    (getFilePaths acc.1).Nodup →
    (∀ f ∈ acc.1, alistGetD acc.2 f.path false = true) →
    (getFilePaths (dfs.foldl (depthScanStep allFiles cfg) acc).1).Nodup ∧
    (∀ f ∈ (dfs.foldl (depthScanStep allFiles cfg) acc).1,
      alistGetD (dfs.foldl (depthScanStep allFiles cfg) acc).2 f.path false
        = true) := by
  intro dfs
  induction dfs with
  | nil => intro acc h1 h2; exact ⟨h1, h2⟩
  | cons q rest ih =>
      intro acc h1 h2
      simp only [List.foldl_cons]
      have hstep : (getFilePaths (depthScanStep allFiles cfg acc q).1).Nodup ∧
          (∀ f ∈ (depthScanStep allFiles cfg acc q).1,
            alistGetD (depthScanStep allFiles cfg acc q).2 f.path false
              = true) := by
        by_cases hq1 : alistGetD acc.2 q false = true
        · have he : depthScanStep allFiles cfg acc q = acc := by
            unfold depthScanStep
            rw [if_pos hq1]
          rw [he]
          exact ⟨h1, h2⟩
        · by_cases hq2 : acc.1.length ≥ cfg.maxFilesPerPartition
          · have he : depthScanStep allFiles cfg acc q = acc := by
              unfold depthScanStep
              rw [if_neg hq1, if_pos hq2]
            rw [he]
            exact ⟨h1, h2⟩
          · cases hgf : getFileByPath allFiles q with
            | none =>
                have he : depthScanStep allFiles cfg acc q = acc := by
                  unfold depthScanStep
                  rw [if_neg hq1, if_neg hq2, hgf]
                rw [he]
                exact ⟨h1, h2⟩
            | some file =>
                have he : depthScanStep allFiles cfg acc q =
                    (acc.1 ++ [file], alistSet acc.2 q true) := by
                  unfold depthScanStep
                  rw [if_neg hq1, if_neg hq2, hgf]
                rw [he]
                have hfp : file.path = q := getFileByPath_path allFiles q
                  file hgf
                constructor
                · simp only [getFilePaths, List.map_append, List.map_cons,
                    List.map_nil]
                  rw [List.nodup_append]
                  refine ⟨h1, by simp, ?_⟩
                  intro p hp1 hp2
                  simp only [List.mem_singleton] at hp2
                  simp only [List.mem_map] at hp1
                  obtain ⟨f2, hf2, hf2p⟩ := hp1
                  have hmk := h2 f2 hf2
                  rw [hf2p, hp2, hfp] at hmk
                  exact hq1 hmk
                · intro f hf
                  rcases List.mem_append.mp hf with hfa | hfe
                  · by_cases hep : f.path = q
                    · rw [hep, alistGetD_set_eq]
                    · rw [alistGetD_set_ne acc.2 q f.path true false hep]
                      exact h2 f hfa
                  · simp only [List.mem_singleton] at hfe
                    subst hfe
                    rw [hfp, alistGetD_set_eq]
      exact ih _ hstep.1 hstep.2

theorem cPFD_name (dfs : List String) (allFiles : List FileChange)
    (alloc : List (String × Bool)) (e c : List Partition) (cfg : Config) :
    ∀ part ∈ (createPartitionForDepth dfs allFiles alloc e c cfg).1,
    part.name = generateName part.files ∧
      part.files = (dfs.foldl (depthScanStep allFiles cfg) ([], alloc)).1 := by
  intro part hp
  unfold createPartitionForDepth at hp
  by_cases h : (dfs.foldl (depthScanStep allFiles cfg) ([], alloc)).1.length
    = 0
  · rw [if_pos h] at hp
    simp at hp
  · rw [if_neg h] at hp
    simp only [List.mem_singleton] at hp
    subst hp
    exact ⟨rfl, rfl⟩

/-- Every Phase B partition is named by `generateName` over its file
list, whose size is bounded by the phase input. -/
theorem phaseBLoop_names (depthGroups : List (Nat × List String))
    (allFiles : List FileChange) (existing : List Partition) (cfg : Config) :
    ∀ (fuel depth : Nat) (wn : List String) (alloc : List (String × Bool))
      (parts : List Partition),
    (∀ part ∈ parts, part.name = generateName part.files ∧
      part.files.length ≤ allFiles.length) →
    ∀ part ∈ phaseBLoop depthGroups allFiles existing cfg fuel depth wn alloc
      parts,
    part.name = generateName part.files ∧
      part.files.length ≤ allFiles.length := by
  intro fuel
  induction fuel with
  | zero => intro depth wn alloc parts hinv part hp; exact hinv part hp
  | succ fuel ih =>
      intro depth wn alloc parts hinv part hp
      rw [phaseBLoop] at hp
      by_cases h1 : wn.length = 0 ∨ wn.length < depth
      · rw [if_pos h1] at hp
        exact hinv part hp
      · rw [if_neg h1] at hp
        by_cases h2 : (nlistGetD depthGroups depth []).length = 0
        · rw [if_pos h2] at hp
          exact ih _ _ _ _ hinv part hp
        · rw [if_neg h2] at hp
          refine ih _ _ _ _ ?_ part hp
          intro part2 hp2
          rcases List.mem_append.mp hp2 with ha | hb
          · exact hinv part2 ha
          · obtain ⟨hname, hfiles⟩ := cPFD_name _ _ _ _ _ _ part2 hb
            refine ⟨hname, ?_⟩
            rw [hfiles]
            have hscan := depthScan_nodup allFiles cfg
              (nlistGetD depthGroups depth []) ([], alloc)
              (by simp [getFilePaths]) (by simp)
            have hsub : ∀ f ∈ ((nlistGetD depthGroups depth []).foldl
                (depthScanStep allFiles cfg) ([], alloc)).1, f ∈ allFiles := by
              intro f hf
              rcases depthScan_new_files allFiles cfg _ ([], alloc) f hf with
                h0 | h0
              · simp at h0
              · exact h0.1
            have hsp : List.Subperm (getFilePaths
                (((nlistGetD depthGroups depth []).foldl
                  (depthScanStep allFiles cfg) ([], alloc)).1))
                (getFilePaths allFiles) := by
              refine (hscan.1).subperm ?_
              intro p hp3
              simp only [getFilePaths, List.mem_map] at hp3 ⊢
              obtain ⟨f, hf, hfp⟩ := hp3
              exact ⟨f, hsub f hf, hfp⟩
            have hle := hsp.length_le
            simpa [getFilePaths] using hle

theorem cDP_names (files2 : List FileChange) (g : DependencyGraph)
    (existing : List Partition) (cfg : Config) :
    ∀ part ∈ createDependencyPartitions files2 g existing cfg,
    part.name = generateName part.files ∧
      part.files.length ≤ files2.length := by
  unfold createDependencyPartitions
  exact phaseBLoop_names _ files2 existing cfg _ 0 _ [] [] (by simp)

/-- Every partition the pipeline emits carries a legal name, under the
C8 amendment's path restrictions and file-count bound. -/
theorem createAllPartitionsOrd_legal (files : List FileChange)
    (g : DependencyGraph) (sccs : List SCCData) (cfg : Config)
    (hpaths : ∀ f ∈ files, c8PathOK f.path = true)
    (hcount : files.length ≤ 9999) :
    ∀ part ∈ createAllPartitionsOrd id files g sccs cfg,
    legalName part.name = true := by
  have hfilechars : ∀ f ∈ files, ∀ c ∈ f.path.data, pathCharOK c = true := by
    intro f hf c hc
    have hx := hpaths f hf
    simp only [c8PathOK, Bool.and_eq_true, decide_eq_true_eq,
      List.all_eq_true] at hx
    exact hx.1 c hc
  have hgen : ∀ (fl : List FileChange), (∀ f2 ∈ fl, f2 ∈ files) →
      fl.length ≤ 9999 → legalName (generateName fl) = true := by
    intro fl hsub hlen
    exact generateName_legal fl (fun f2 hf2 => hfilechars f2 (hsub f2 hf2))
      hlen
  intro part hp
  simp only [createAllPartitionsOrd] at hp
  set r := createCircularDependencyPartitions sccs files [] cfg [] with hrdef
  have hAname := circParts_name files cfg sccs
  rw [← hrdef] at hAname
  have hAfiles := circParts_files files cfg sccs
  rw [← hrdef] at hAfiles
  have hAlegal : ∀ part2 ∈ r.1, legalName part2.name = true := by
    intro part2 hp2
    rw [hAname part2 hp2]
    obtain ⟨scc, hscc, hfe⟩ := hAfiles part2 hp2
    apply hgen
    · intro f2 hf2
      rw [hfe] at hf2
      exact ((getFilesByPaths_mem files scc.filePaths f2).mp hf2).1
    · rw [hfe]
      have hfl : (getFilesByPaths files scc.filePaths).length ≤ files.length :=
        List.length_filter_le _ _
      omega
  by_cases hrem : (getRemainingFiles files r.2).length > 0
  · rw [if_pos hrem] at hp
    set depParts := createDependencyPartitions (getRemainingFiles files r.2) g
      r.1 cfg with hdepdef
    set allocAB := depParts.foldl (fun m part =>
      part.files.foldl (fun m file => alistSet m file.path true) m) r.2
      with haborig
    have hBlegal : ∀ part2 ∈ depParts, legalName part2.name = true := by
      intro part2 hp2
      obtain ⟨hname, hlen2⟩ := cDP_names (getRemainingFiles files r.2) g r.1
        cfg part2 hp2
      rw [hname]
      apply hgen
      · intro f2 hf2
        have hsub := (cDP_pairwise (getRemainingFiles files r.2) g r.1
          cfg).2 part2 hp2 f2 hf2
        exact List.mem_of_mem_filter hsub
      · have hrr : (getRemainingFiles files r.2).length ≤ files.length :=
          List.length_filter_le _ _
        omega
    have hClegal : ∀ part2 ∈ createRemainingFilePartitionsOrd id
        (getRemainingFiles files allocAB) (r.1 ++ depParts) cfg,
        legalName part2.name = true := by
      intro part2 hp2
      obtain ⟨j, hj1, hj2, hcase⟩ := cRFP_names
        (getRemainingFiles files allocAB) (r.1 ++ depParts) cfg part2 hp2
      have hjb : j ≤ 9999 := by
        have hx : (getRemainingFiles files allocAB).length ≤ files.length :=
          List.length_filter_le _ _
        omega
      rcases hcase with hn | ⟨f2, hf2, hn⟩
      · rw [hn]
        exact chunkName_legal "remaining" j hjb (by decide)
      · rw [hn]
        exact chunkName_legal _ j hjb (determineGroup_base f2
          (hpaths f2 (List.mem_of_mem_filter hf2)))
    by_cases hun : (getRemainingFiles files allocAB).length > 0
    · rw [if_pos hun] at hp
      rcases List.mem_append.mp hp with h1 | h2
      · rcases List.mem_append.mp h1 with ha | hb
        · exact hAlegal part ha
        · exact hBlegal part hb
      · exact hClegal part h2
    · rw [if_neg hun] at hp
      rcases List.mem_append.mp hp with ha | hb
      · exact hAlegal part ha
      · exact hBlegal part hb
  · rw [if_neg hrem] at hp
    rw [if_neg hrem] at hp
    exact hAlegal part hp

/-- C8 (amended): every partition name in a returned plan matches
`[a-z0-9][a-z0-9-]*` and has length at most 30, provided every changed
file's path consists of characters `a-z0-9`, dash or slash with a first
segment of at most 20 characters, and there are at most 9999 changed
files. (Unrestricted paths leak `.` and other characters into names;
see the counterexample.) -/
theorem C8_names_legal (approve : List String → Nat → Nat → Bool)
    (changes : List FileChange) (dependencies : List Dependency)
    (cfg : Config) (plan : PartitionPlan)
    (hok : createPlan approve changes dependencies cfg = Except.ok plan)
    (hpaths : ∀ f ∈ filterChangedFiles changes, c8PathOK f.path = true)
    (hcount : (filterChangedFiles changes).length ≤ 9999) :
    ∀ part ∈ plan.partitions, legalName part.name = true := by
  rw [createPlan_ok_partitions approve changes dependencies cfg plan hok]
  exact createAllPartitionsOrd_legal (filterChangedFiles changes) _ _ cfg
    hpaths hcount

/-- Witness for `C8_names_legal` at a two-file input with restricted
paths. -/
theorem C8_names_witness :
    (∀ f ∈ filterChangedFiles c8GoodChanges, c8PathOK f.path = true) ∧
    (filterChangedFiles c8GoodChanges).length ≤ 9999 ∧
    ∀ part ∈ (getPlanD (createPlan approveAll c8GoodChanges []
      cfgTen)).partitions, legalName part.name = true :=
  ⟨by decide, by decide,
    C8_names_legal approveAll c8GoodChanges [] cfgTen _ rfl (by decide)
      (by decide)⟩

/-! ## Tarjan SCC correctness (for C4) -/

theorem reaches_trans {g : DependencyGraph} {a b c : String}
    (hab : Reaches g a b) (hbc : Reaches g b c) : Reaches g a c := by
  induction hab with
  | refl v => exact hbc
  | step huv _ ih => exact Reaches.step huv (ih hbc)

theorem reaches_edge {g : DependencyGraph} {u w : String}
    (h : w ∈ alistGetD g.adjacency u []) : Reaches g u w :=
  Reaches.step (List.elem_iff.mpr h) (Reaches.refl w)

theorem alistGetD_setFold (P : List String) (b : Bool) :
    ∀ (m : List (String × Bool)) (x : String),
    alistGetD (P.foldl (fun m w => alistSet m w b) m) x false =
      if x ∈ P then b else alistGetD m x false := by
  induction P with
  | nil => intro m x; simp
  | cons p rest ih =>
      intro m x
      simp only [List.foldl_cons]
      rw [ih]
      by_cases hx : x ∈ rest
      · simp [hx]
      · by_cases hxp : x = p
        · subst hxp
          simp [hx, alistGetD_set_eq]
        · have hmem : ¬ x ∈ p :: rest := by simp [hx, hxp]
          rw [if_neg hx, if_neg hmem, alistGetD_set_ne m p x b false hxp]

theorem popSCC_eq (root : String) :
    ∀ (A B : List String), root ∉ A →
    popSCC root (A ++ root :: B) = (A ++ [root], B) := by
  intro A
  induction A with
  | nil => intro B _; simp [popSCC]
  | cons a rest ih =>
      intro B hroot
      simp only [List.cons_append, popSCC]
      rw [if_neg (by intro h; exact hroot (by simp [h]))]
      simp only [List.append_eq]
      rw [ih B (by intro h; exact hroot (by simp [h]))]

theorem pairwise_lt_inj {l : List String} {f : String → Nat}
    (h : l.Pairwise (fun a b => f b < f a)) :
    ∀ x ∈ l, ∀ y ∈ l, f x = f y → x = y := by
  induction l with
  | nil => simp
  | cons c rest ih =>
      intro x hx y hy hf
      rcases List.mem_cons.mp hx with rfl | hx'
      · rcases List.mem_cons.mp hy with rfl | hy'
        · rfl
        · have := (List.pairwise_cons.mp h).1 y hy'
          omega
      · rcases List.mem_cons.mp hy with rfl | hy'
        · have := (List.pairwise_cons.mp h).1 x hx'
          omega
        · exact ih (List.pairwise_cons.mp h).2 x hx' y hy' hf

theorem pairwise_of_idx_lt {α : Type} {l : List α} {f : α → Nat}
    {R : α → α → Prop}
    (hs : l.Pairwise (fun a b => f b < f a)) (hr : l.Pairwise R) :
    ∀ a ∈ l, ∀ b ∈ l, f b < f a → R a b := by
  induction l with
  | nil => simp
  | cons c rest ih =>
      intro a ha b hb hfb
      rcases List.mem_cons.mp ha with rfl | ha'
      · rcases List.mem_cons.mp hb with rfl | hb'
        · omega
        · exact (List.pairwise_cons.mp hr).1 b hb'
      · rcases List.mem_cons.mp hb with rfl | hb'
        · have := (List.pairwise_cons.mp hs).1 a ha'
          omega
        · exact ih (List.pairwise_cons.mp hs).2 (List.pairwise_cons.mp hr).2
            a ha' b hb' hfb

theorem stack_reach_of_idx_lt {g : DependencyGraph} {st : TarjanState}
    (hInv : TInv g st) :
    ∀ v ∈ st.stack, ∀ z ∈ st.stack, idxOf st z < idxOf st v →
    Reaches g z v :=
  fun v hv z hz h =>
    pairwise_of_idx_lt hInv.stack_sorted hInv.stack_reach v hv z hz h

/-- Descending-lowlink chase: every stacked vertex of index at least
`idxOf v` reaches `v`, provided every strictly higher-indexed stacked
vertex has a strictly smaller lowlink. -/
theorem reach_down (g : DependencyGraph) (st : TarjanState)
    (hInv : TInv g st) (v : String) (hv : v ∈ st.stack)
    (habove : ∀ x ∈ st.stack, idxOf st v < idxOf st x →
      lowOf st x < idxOf st x) :
    ∀ x ∈ st.stack, idxOf st v ≤ idxOf st x → Reaches g x v := by
  have main : ∀ n, ∀ x ∈ st.stack, idxOf st x = n → idxOf st v ≤ n →
      Reaches g x v := by
    intro n
    induction n using Nat.strong_induction_on with
    | _ n ih =>
        intro x hx hxn hvn
        by_cases hxv : idxOf st x = idxOf st v
        · have hxe : x = v := pairwise_lt_inj hInv.stack_sorted x hx v hv hxv
          subst hxe
          exact Reaches.refl _
        · have hlt : idxOf st v < idxOf st x := by omega
          have hlow := habove x hx hlt
          obtain ⟨z, hz, hxz, hzidx⟩ := hInv.low_sound x hx
          by_cases hzv : idxOf st v ≤ idxOf st z
          · have hzr := ih (idxOf st z) (by omega) z hz rfl hzv
            exact reaches_trans hxz hzr
          · have hzreach : Reaches g z v := stack_reach_of_idx_lt hInv v hv
              z hz (by omega)
            exact reaches_trans hxz hzreach
  intro x hx h
  exact main (idxOf st x) x hx rfl h

/-- A walk leaving a set `P` crosses a first exit edge. -/
theorem reaches_exit (g : DependencyGraph) (P : List String) :
    ∀ (a b : String), Reaches g a b → a ∈ P →
    b ∈ P ∨ ∃ p ∈ P, ∃ q, q ∈ alistGetD g.adjacency p [] ∧ q ∉ P ∧
      Reaches g q b := by
  intro a b hab
  induction hab with
  | refl x => intro h; exact Or.inl h
  | step huv hvw ih =>
      rename_i u v₀ w
      intro ha
      by_cases hv : v₀ ∈ P
      · exact ih hv
      · exact Or.inr ⟨u, ha, v₀, List.elem_iff.mp huv, hv, hvw⟩

theorem alistHas_set_ne {β : Type} (m : List (String × β)) (k k' : String)
    (v : β) (h : k' ≠ k) : alistHas (alistSet m k v) k' = alistHas m k' := by
  simp [alistHas, alistGet_set_ne m k k' v h]

/-- Pushing an unvisited vertex reachable from the whole stack
preserves the invariant. -/
theorem TInv_push (g : DependencyGraph) (st : TarjanState) (v : String)
    (hInv : TInv g st) (hwhite : alistHas st.indices v = false)
    (hreach : ∀ x ∈ st.stack, Reaches g x v) :
    TInv g { st with
      indices := alistSet st.indices v st.index,
      lowlinks := alistSet st.lowlinks v st.index,
      index := st.index + 1,
      stack := v :: st.stack,
      onStack := alistSet st.onStack v true } := by
  have hvnot : v ∉ st.stack := by
    intro hmem
    rw [hInv.stack_indexed v hmem] at hwhite
    cases hwhite
  have hidxne : ∀ x, x ≠ v → alistGetD (alistSet st.indices v st.index) x 0 =
      alistGetD st.indices x 0 := by
    intro x hx
    simp [alistGetD, alistGet_set_ne st.indices v x st.index hx]
  have hlowne : ∀ x, x ≠ v → alistGetD (alistSet st.lowlinks v st.index) x 0 =
      alistGetD st.lowlinks x 0 := by
    intro x hx
    simp [alistGetD, alistGet_set_ne st.lowlinks v x st.index hx]
  have hidxv : alistGetD (alistSet st.indices v st.index) v 0 = st.index := by
    simp [alistGetD, alistGet_set_eq]
  have hlowv : alistGetD (alistSet st.lowlinks v st.index) v 0 = st.index := by
    simp [alistGetD, alistGet_set_eq]
  have hhasne : ∀ x, x ≠ v → alistHas (alistSet st.indices v st.index) x =
      alistHas st.indices x :=
    fun x hx => alistHas_set_ne st.indices v x st.index hx
  refine ⟨?_, ?_, ?_, ?_, ?_, ?_, ?_, ?_, ?_, ?_, hInv.sccs_size⟩
  · exact List.nodup_cons.mpr ⟨hvnot, hInv.stack_nodup⟩
  · intro x hx
    rcases List.mem_cons.mp hx with rfl | hx'
    · simp [alistHas, alistGet_set_eq]
    · have hxv : x ≠ v := fun he => hvnot (he ▸ hx')
      show alistHas (alistSet st.indices v st.index) x = true
      rw [hhasne x hxv]
      exact hInv.stack_indexed x hx'
  · intro x
    by_cases hxv : x = v
    · subst hxv
      show alistGetD (alistSet st.onStack x true) x false = true ↔
        x ∈ x :: st.stack
      simp [alistGetD, alistGet_set_eq]
    · show alistGetD (alistSet st.onStack v true) x false = true ↔
        x ∈ v :: st.stack
      rw [show alistGetD (alistSet st.onStack v true) x false =
        alistGetD st.onStack x false by
          simp [alistGetD, alistGet_set_ne st.onStack v x true hxv]]
      rw [hInv.onStack_iff x]
      simp [hxv]
  · intro x hx
    show idxOf _ x < st.index + 1
    by_cases hxv : x = v
    · subst hxv
      simp only [idxOf]
      rw [hidxv]
      omega
    · simp only [idxOf]
      rw [hidxne x hxv]
      rw [show alistHas (alistSet st.indices v st.index) x =
        alistHas st.indices x from hhasne x hxv] at hx
      have := hInv.idx_lt x hx
      simp only [idxOf] at this
      omega
  · intro x hx
    rcases List.mem_cons.mp hx with rfl | hx'
    · show lowOf _ x ≤ idxOf _ x
      simp only [lowOf, idxOf]
      rw [hidxv, hlowv]
    · have hxv : x ≠ v := fun he => hvnot (he ▸ hx')
      show lowOf _ x ≤ idxOf _ x
      simp only [lowOf, idxOf]
      rw [hidxne x hxv, hlowne x hxv]
      exact hInv.low_le x hx'
  · rw [List.pairwise_cons]
    constructor
    · intro b hb
      have hbv : b ≠ v := fun he => hvnot (he ▸ hb)
      show idxOf _ b < idxOf _ v
      simp only [idxOf]
      rw [hidxv, hidxne b hbv]
      exact hInv.idx_lt b (hInv.stack_indexed b hb)
    · refine List.Pairwise.imp_of_mem ?_ hInv.stack_sorted
      intro a b ha hb hrel
      have hav : a ≠ v := fun he => hvnot (he ▸ ha)
      have hbv : b ≠ v := fun he => hvnot (he ▸ hb)
      show idxOf _ b < idxOf _ a
      simp only [idxOf]
      rw [hidxne a hav, hidxne b hbv]
      exact hrel
  · rw [List.pairwise_cons]
    exact ⟨fun b hb => hreach b hb, hInv.stack_reach⟩
  · intro x hx
    rcases List.mem_cons.mp hx with rfl | hx'
    · refine ⟨x, List.mem_cons_self _ _, Reaches.refl x, ?_⟩
      show idxOf _ x = lowOf _ x
      simp only [idxOf, lowOf]
      rw [hidxv, hlowv]
    · have hxv : x ≠ v := fun he => hvnot (he ▸ hx')
      obtain ⟨z, hz, hxz, hzidx⟩ := hInv.low_sound x hx'
      have hzv : z ≠ v := fun he => hvnot (he ▸ hz)
      refine ⟨z, List.mem_cons_of_mem _ hz, hxz, ?_⟩
      show idxOf _ z = lowOf _ x
      simp only [idxOf, lowOf]
      rw [hidxne z hzv, hlowne x hxv]
      exact hzidx
  · intro comp hcomp x hxc
    obtain ⟨hhas, hnst, hmut, hclosed⟩ := hInv.sccs_closed comp hcomp x hxc
    have hxv : x ≠ v := by
      intro he
      rw [he, hwhite] at hhas
      cases hhas
    refine ⟨?_, ?_, hmut, hclosed⟩
    · show alistHas (alistSet st.indices v st.index) x = true
      rw [hhasne x hxv]
      exact hhas
    · intro hmem
      rcases List.mem_cons.mp hmem with he | hmem'
      · exact hxv he
      · exact hnst hmem'
  · intro x hhas hnst
    have hxv : x ≠ v := by
      intro he
      exact hnst (he ▸ List.mem_cons_self v st.stack)
    rw [show alistHas (alistSet st.indices v st.index) x =
      alistHas st.indices x from hhasne x hxv] at hhas
    exact hInv.black_sccs x hhas
      (fun hmem => hnst (List.mem_cons_of_mem _ hmem))

/-- Decreasing one stacked vertex's lowlink to a sound value preserves
the invariant. -/
theorem TInv_setLow (g : DependencyGraph) (st : TarjanState) (v : String)
    (newlow : Nat) (hInv : TInv g st) (hv : v ∈ st.stack)
    (hle : newlow ≤ lowOf st v)
    (hsound : ∃ z ∈ st.stack, Reaches g v z ∧ idxOf st z = newlow) :
    TInv g { st with lowlinks := alistSet st.lowlinks v newlow } := by
  have hlowv : alistGetD (alistSet st.lowlinks v newlow) v 0 = newlow := by
    simp [alistGetD, alistGet_set_eq]
  have hlowne : ∀ x, x ≠ v → alistGetD (alistSet st.lowlinks v newlow) x 0 =
      alistGetD st.lowlinks x 0 := by
    intro x hx
    simp [alistGetD, alistGet_set_ne st.lowlinks v x newlow hx]
  refine ⟨hInv.stack_nodup, hInv.stack_indexed, hInv.onStack_iff,
    hInv.idx_lt, ?_, hInv.stack_sorted, hInv.stack_reach, ?_,
    hInv.sccs_closed, hInv.black_sccs, hInv.sccs_size⟩
  · intro x hx
    show lowOf _ x ≤ idxOf _ x
    by_cases hxv : x = v
    · subst hxv
      simp only [lowOf, idxOf]
      rw [hlowv]
      have h1 := hInv.low_le x hx
      have h2 := hle
      simp only [lowOf, idxOf] at h1 h2
      omega
    · simp only [lowOf, idxOf]
      rw [hlowne x hxv]
      exact hInv.low_le x hx
  · intro x hx
    by_cases hxv : x = v
    · subst hxv
      obtain ⟨z, hz, hxz, hzidx⟩ := hsound
      refine ⟨z, hz, hxz, ?_⟩
      show idxOf _ z = lowOf _ x
      simp only [idxOf, lowOf]
      rw [hlowv]
      exact hzidx
    · obtain ⟨z, hz, hxz, hzidx⟩ := hInv.low_sound x hx
      refine ⟨z, hz, hxz, ?_⟩
      show idxOf _ z = lowOf _ x
      simp only [idxOf, lowOf]
      rw [hlowne x hxv]
      exact hzidx

/-- Closing a root pops exactly one strongly connected component of
the graph. -/
theorem TInv_pop (g : DependencyGraph) (st : TarjanState) (v : String)
    (B old : List String) (hInv : TInv g st)
    (hstack : st.stack = B ++ v :: old)
    (hBwlow : ∀ x ∈ B, lowOf st x < idxOf st x)
    (hedge : ∀ x ∈ B ++ [v], ∀ w ∈ alistGetD g.adjacency x [],
      alistHas st.indices w = true ∧ (lowOf st x ≤ idxOf st w ∨ w ∉ st.stack))
    (hBmin : ∀ x ∈ B, lowOf st v ≤ lowOf st x)
    (hroot : lowOf st v = idxOf st v) :
    TInv g { st with
      stack := old,
      onStack := (B ++ [v]).foldl (fun m w => alistSet m w false) st.onStack,
      sccs := st.sccs ++ [⟨B ++ [v], (B ++ [v]).length⟩] } ∧
    (∀ x ∈ B ++ [v], Reaches g v x ∧ Reaches g x v) := by
  have hv_mem : v ∈ st.stack := by
    rw [hstack]
    exact List.mem_append_right _ (List.mem_cons_self _ _)
  have hPsub : ∀ x ∈ B ++ [v], x ∈ st.stack := by
    intro x hx
    rw [hstack]
    rcases List.mem_append.mp hx with h | h
    · exact List.mem_append_left _ h
    · simp only [List.mem_singleton] at h
      subst h
      exact List.mem_append_right _ (List.mem_cons_self _ _)
  have hsplit := List.pairwise_append.mp (hstack ▸ hInv.stack_sorted)
  have hvo : ∀ o ∈ old, idxOf st o < idxOf st v :=
    fun o ho => (List.pairwise_cons.mp hsplit.2.1).1 o ho
  have hBv : ∀ b ∈ B, idxOf st v < idxOf st b :=
    fun b hb => hsplit.2.2 b hb v (List.mem_cons_self _ _)
  have hnd := hstack ▸ hInv.stack_nodup
  have hndsplit := List.nodup_append.mp hnd
  have hBold : ∀ x ∈ B, x ∉ v :: old := fun x hx => hndsplit.2.2 hx
  have hvold : v ∉ old := (List.nodup_cons.mp hndsplit.2.1).1
  have habove : ∀ x ∈ st.stack, idxOf st v < idxOf st x →
      lowOf st x < idxOf st x := by
    intro x hx hlt
    rw [hstack] at hx
    rcases List.mem_append.mp hx with h | h
    · exact hBwlow x h
    · rcases List.mem_cons.mp h with rfl | h'
      · omega
      · have := hvo x h'
        omega
  have hxv_reach : ∀ x ∈ B ++ [v], Reaches g x v := by
    intro x hx
    refine reach_down g st hInv v hv_mem habove x (hPsub x hx) ?_
    rcases List.mem_append.mp hx with h | h
    · exact le_of_lt (hBv x h)
    · simp only [List.mem_singleton] at h
      subst h
      exact le_refl _
  have hreachsplit := List.pairwise_append.mp (hstack ▸ hInv.stack_reach)
  have hvx_reach : ∀ x ∈ B ++ [v], Reaches g v x := by
    intro x hx
    rcases List.mem_append.mp hx with h | h
    · exact hreachsplit.2.2 x h v (List.mem_cons_self _ _)
    · simp only [List.mem_singleton] at h
      subst h
      exact Reaches.refl _
  have hclosed_new : ∀ x ∈ B ++ [v], ∀ y, Reaches g x y → Reaches g y x →
      y ∈ B ++ [v] := by
    intro x hx y hxy hyx
    by_contra hyP
    have hvy : Reaches g v y := reaches_trans (hvx_reach x hx) hxy
    have hyv : Reaches g y v := reaches_trans hyx (hxv_reach x hx)
    rcases reaches_exit g (B ++ [v]) v y hvy
        (List.mem_append_right _ (List.mem_singleton.mpr rfl)) with
      h | ⟨p, hp, q, hqadj, hqP, hqy⟩
    · exact hyP h
    obtain ⟨hqidx, hqbound⟩ := hedge p hp q hqadj
    have hqv : Reaches g q v := reaches_trans hqy hyv
    have hvq : Reaches g v q :=
      reaches_trans (hvx_reach p hp) (reaches_edge hqadj)
    by_cases hqstack : q ∈ st.stack
    · have hqold : q ∈ old := by
        rw [hstack] at hqstack
        rcases List.mem_append.mp hqstack with h | h
        · exact absurd (List.mem_append_left _ h) hqP
        · rcases List.mem_cons.mp h with rfl | h'
          · exact absurd
              (List.mem_append_right _ (List.mem_singleton.mpr rfl)) hqP
          · exact h'
      have hqidxlt := hvo q hqold
      rcases hqbound with hb | hb
      · have hpv : lowOf st v ≤ lowOf st p := by
          rcases List.mem_append.mp hp with h | h
          · exact hBmin p h
          · simp only [List.mem_singleton] at h
            subst h
            exact le_refl _
        omega
      · exact hb hqstack
    · obtain ⟨comp, hcomp, hqc⟩ := hInv.black_sccs q hqidx hqstack
      have hcl := (hInv.sccs_closed comp hcomp q hqc).2.2.2
      have hvc : v ∈ comp.filePaths := hcl v hqv hvq
      exact (hInv.sccs_closed comp hcomp v hvc).2.1 hv_mem
  have holdsub : ∀ x ∈ old, x ∈ st.stack := by
    intro x hx
    rw [hstack]
    exact List.mem_append_right _ (List.mem_cons_of_mem _ hx)
  have hPnotold : ∀ x ∈ B ++ [v], x ∉ old := by
    intro x hx
    rcases List.mem_append.mp hx with h | h
    · intro ho
      exact hBold x h (List.mem_cons_of_mem _ ho)
    · simp only [List.mem_singleton] at h
      subst h
      exact hvold
  refine ⟨⟨?_, ?_, ?_, ?_, ?_, ?_, ?_, ?_, ?_, ?_, ?_⟩, fun x hx =>
    ⟨hvx_reach x hx, hxv_reach x hx⟩⟩
  · exact (List.nodup_cons.mp hndsplit.2.1).2
  · intro x hx
    exact hInv.stack_indexed x (holdsub x hx)
  · intro x
    show alistGetD ((B ++ [v]).foldl (fun m w => alistSet m w false)
      st.onStack) x false = true ↔ x ∈ old
    rw [alistGetD_setFold]
    by_cases hxP : x ∈ B ++ [v]
    · rw [if_pos hxP]
      exact iff_of_false (by simp) (hPnotold x hxP)
    · rw [if_neg hxP]
      rw [hInv.onStack_iff x]
      constructor
      · intro hmem
        rw [hstack] at hmem
        rcases List.mem_append.mp hmem with h | h
        · exact absurd (List.mem_append_left _ h) hxP
        · rcases List.mem_cons.mp h with rfl | h'
          · exact absurd
              (List.mem_append_right _ (List.mem_singleton.mpr rfl)) hxP
          · exact h'
      · exact holdsub x
  · exact hInv.idx_lt
  · intro x hx
    exact hInv.low_le x (holdsub x hx)
  · exact (List.pairwise_cons.mp hsplit.2.1).2
  · exact (List.pairwise_cons.mp hreachsplit.2.1).2
  · intro x hx
    obtain ⟨z, hz, hxz, hzidx⟩ := hInv.low_sound x (holdsub x hx)
    have hxlt := hvo x hx
    have hxle := hInv.low_le x (holdsub x hx)
    have hzold : z ∈ old := by
      rw [hstack] at hz
      rcases List.mem_append.mp hz with h | h
      · have := hBv z h
        omega
      · rcases List.mem_cons.mp h with rfl | h'
        · omega
        · exact h'
    exact ⟨z, hzold, hxz, hzidx⟩
  · intro comp hcomp
    rcases List.mem_append.mp hcomp with h | h
    · intro x hxc
      obtain ⟨hhas, hnst, hmut, hcl⟩ := hInv.sccs_closed comp h x hxc
      exact ⟨hhas, fun hmem => hnst (holdsub x hmem), hmut, hcl⟩
    · simp only [List.mem_singleton] at h
      subst h
      intro x hxc
      refine ⟨hInv.stack_indexed x (hPsub x hxc), hPnotold x hxc, ?_, ?_⟩
      · intro y hy
        exact reaches_trans (hxv_reach x hxc) (hvx_reach y hy)
      · exact hclosed_new x hxc
  · intro x hhas hnst
    by_cases hxs : x ∈ st.stack
    · have hxP : x ∈ B ++ [v] := by
        rw [hstack] at hxs
        rcases List.mem_append.mp hxs with h | h
        · exact List.mem_append_left _ h
        · rcases List.mem_cons.mp h with rfl | h'
          · exact List.mem_append_right _ (List.mem_singleton.mpr rfl)
          · exact absurd h' hnst
      exact ⟨⟨B ++ [v], (B ++ [v]).length⟩,
        List.mem_append_right _ (List.mem_singleton.mpr rfl), hxP⟩
    · obtain ⟨comp, hcomp, hxc⟩ := hInv.black_sccs x hhas hxs
      exact ⟨comp, List.mem_append_left _ hcomp, hxc⟩
  · intro comp hcomp
    rcases List.mem_append.mp hcomp with h | h
    · exact hInv.sccs_size comp h
    · rw [List.mem_singleton.mp h]

theorem whites_mono (g : DependencyGraph) (st st' : TarjanState)
    (h : ∀ x, alistHas st.indices x = true → alistHas st'.indices x = true) :
    (whites g st').length ≤ (whites g st).length := by
  apply List.Sublist.length_le
  apply List.monotone_filter_right
  intro a ha
  simp only [decide_eq_true_eq] at ha ⊢
  intro hc
  exact ha (h a hc)

theorem whites_dec (g : DependencyGraph) (st : TarjanState) (v : String)
    (hv : v ∈ g.nodes) (hwhite : alistHas st.indices v = false)
    (st' : TarjanState)
    (h : ∀ x, alistHas st.indices x = true → alistHas st'.indices x = true)
    (hv' : alistHas st'.indices v = true) :
    (whites g st').length < (whites g st).length := by
  have hsub : List.Sublist (whites g st') (whites g st) := by
    apply List.monotone_filter_right
    intro a ha
    simp only [decide_eq_true_eq] at ha ⊢
    intro hc
    exact ha (h a hc)
  rcases Nat.lt_or_ge (whites g st').length (whites g st).length with h1 | h1
  · exact h1
  · exfalso
    have heq : whites g st' = whites g st :=
      hsub.eq_of_length (le_antisymm hsub.length_le h1)
    have hv1 : v ∈ whites g st := by
      simp [whites, List.mem_filter, hv, hwhite]
    rw [← heq] at hv1
    simp [whites, List.mem_filter, hv'] at hv1

theorem hasOf_get {β : Type} (m : List (String × β)) (x : String) (k : β)
    (h : alistGet m x = some k) : alistHas m x = true := by
  simp [alistHas, h]

theorem get_of_has {β : Type} (m : List (String × β)) (x : String)
    (h : alistHas m x = true) : ∃ k, alistGet m x = some k := by
  simp only [alistHas, Option.isSome_iff_exists] at h
  exact h

/-- Every vertex on the running stack reaches the current call's
vertex. -/
theorem loopInv_reach (g : DependencyGraph) (st0 : TarjanState) (v : String)
    (stm : TarjanState) (L : LoopInv g st0 v stm) :
    ∀ x ∈ stm.stack, Reaches g x v := by
  obtain ⟨B, hBstack, hBwhite, hBedge, hBmin, hBlt⟩ := L.shape
  have hvmem : v ∈ stm.stack := by
    rw [hBstack]
    exact List.mem_append_right _ (List.mem_cons_self _ _)
  have hsorted := hBstack ▸ L.inv.stack_sorted
  have hsplit := List.pairwise_append.mp hsorted
  have habove : ∀ x ∈ stm.stack, idxOf stm v < idxOf stm x →
      lowOf stm x < idxOf stm x := by
    intro x hx hlt
    rw [hBstack] at hx
    rcases List.mem_append.mp hx with h | h
    · exact hBlt x h
    · rcases List.mem_cons.mp h with rfl | h'
      · omega
      · have := (List.pairwise_cons.mp hsplit.2.1).1 x h'
        omega
  intro x hx
  rw [hBstack] at hx
  rcases List.mem_append.mp hx with h | h
  · refine reach_down g stm L.inv v hvmem habove x ?_ ?_
    · rw [hBstack]
      exact List.mem_append_left _ h
    · exact le_of_lt (hsplit.2.2 x h v (List.mem_cons_self _ _))
  · rcases List.mem_cons.mp h with rfl | h'
    · exact Reaches.refl _
    · have hpair := hBstack ▸ L.inv.stack_reach
      have hsplit2 := List.pairwise_append.mp hpair
      exact (List.pairwise_cons.mp hsplit2.2.1).1 x h'

theorem idxOf_keep {stm stm' : TarjanState}
    (hk : ∀ x k, alistGet stm.indices x = some k →
      alistGet stm'.indices x = some k)
    (x : String) (hx : alistHas stm.indices x = true) :
    idxOf stm' x = idxOf stm x := by
  obtain ⟨k, hke⟩ := get_of_has _ _ hx
  simp [idxOf, alistGetD, hke, hk x k hke]

theorem lowOf_set_eq (st : TarjanState) (v : String) (nl : Nat) :
    lowOf { st with lowlinks := alistSet st.lowlinks v nl } v = nl := by
  simp [lowOf, alistGetD, alistGet_set_eq]

theorem lowOf_set_ne (st : TarjanState) (v x : String) (nl : Nat)
    (h : x ≠ v) :
    lowOf { st with lowlinks := alistSet st.lowlinks v nl } x = lowOf st x := by
  simp [lowOf, alistGetD, alistGet_set_ne st.lowlinks v x nl h]

theorem lowOf_eq_of_get {stm stm' : TarjanState} {x : String}
    (h : alistGet stm'.lowlinks x = alistGet stm.lowlinks x) :
    lowOf stm' x = lowOf stm x := by
  simp [lowOf, alistGetD, h]

/-- One step of the successor loop of `strongConnect`. -/
theorem scStep_spec (g : DependencyGraph)
    (hwf : ∀ u w, w ∈ alistGetD g.adjacency u [] → w ∈ g.nodes)
    (fuel : Nat)
    (IH : ∀ (st : TarjanState) (u : String), TInv g st →
      alistHas st.indices u = false → u ∈ g.nodes →
      (∀ x ∈ st.stack, Reaches g x u) → (whites g st).length < fuel →
      SCPost g st (strongConnect g fuel st u) u)
    (st0 : TarjanState) (v : String)
    (hfuel : (whites g st0).length ≤ fuel)
    (w : String) (hw : w ∈ alistGetD g.adjacency v [])
    (stm : TarjanState) (L : LoopInv g st0 v stm) :
    ∃ stm₁, stm₁ = (if ¬ alistHas stm.indices w then
        let st := strongConnect g fuel stm w
        let low := min (alistGetD st.lowlinks v 0) (alistGetD st.lowlinks w 0)
        { st with lowlinks := alistSet st.lowlinks v low }
      else if alistGetD stm.onStack w false then
        let low := min (alistGetD stm.lowlinks v 0) (alistGetD stm.indices w 0)
        { stm with lowlinks := alistSet stm.lowlinks v low }
      else stm) ∧
      LoopInv g st0 v stm₁ ∧
      (∀ x k, alistGet stm.indices x = some k →
        alistGet stm₁.indices x = some k) ∧
      lowOf stm₁ v ≤ lowOf stm v ∧
      (∀ x, alistHas stm.indices x = true → x ∉ stm.stack →
        x ∉ stm₁.stack) ∧
      (alistHas stm₁.indices w = true ∧
        (lowOf stm₁ v ≤ idxOf stm₁ w ∨ w ∉ stm₁.stack)) := by
  obtain ⟨B, hBstack, hBwhite0, hBedge, hBmin, hBlt⟩ := L.shape
  have hvhas_stm : alistHas stm.indices v = true := hasOf_get _ _ _ L.v_idx
  have hvstack_stm : v ∈ stm.stack := by
    rw [hBstack]
    exact List.mem_append_right _ (List.mem_cons_self _ _)
  have hvB : v ∉ B := by
    intro hmem
    have hnd := hBstack ▸ L.inv.stack_nodup
    exact (List.nodup_append.mp hnd).2.2 hmem (List.mem_cons_self _ _)
  have hidxv_stm : idxOf stm v = st0.index := by
    simp [idxOf, alistGetD, L.v_idx]
  by_cases hwh : alistHas stm.indices w = true
  · have hcond : ¬ ¬ alistHas stm.indices w = true := fun h => h hwh
    by_cases hon : alistGetD stm.onStack w false = true
    · -- on stack: take min with the index of w
      have hwstack : w ∈ stm.stack := (L.inv.onStack_iff w).mp hon
      set nl := min (alistGetD stm.lowlinks v 0) (alistGetD stm.indices w 0)
        with hnl
      set s1 : TarjanState := { stm with lowlinks := alistSet stm.lowlinks v nl }
        with hs1
      have hlow_v1 : lowOf s1 v = nl := lowOf_set_eq stm v nl
      have hlow_ne1 : ∀ x, x ≠ v → lowOf s1 x = lowOf stm x :=
        fun x hx => lowOf_set_ne stm v x nl hx
      have hnl_le : nl ≤ lowOf stm v := min_le_left _ _
      have hinv1 : TInv g s1 := by
        refine TInv_setLow g stm v nl L.inv hvstack_stm hnl_le ?_
        rcases le_total (alistGetD stm.lowlinks v 0)
            (alistGetD stm.indices w 0) with h | h
        · obtain ⟨z, hz, hvz, hzid⟩ := L.inv.low_sound v hvstack_stm
          exact ⟨z, hz, hvz, by rw [hnl, min_eq_left h]; exact hzid⟩
        · exact ⟨w, hwstack, reaches_edge hw, by rw [hnl, min_eq_right h]; rfl⟩
      refine ⟨s1, ?_, ?_, fun x k h => h, by rw [hlow_v1]; exact hnl_le,
        fun x _ h => h, hwh, Or.inl ?_⟩
      · rw [if_neg hcond, if_pos hon]
      · refine ⟨hinv1, L.v_idx, L.index_ge, ?_, L.idx_keep0, L.idx_new0, ?_,
          L.black_mono0, L.sccs_mono0, L.whites_lt0, L.reach0⟩
        · refine ⟨B, hBstack, hBwhite0, ?_, ?_, ?_⟩
          · intro x hx w2 hw2
            obtain ⟨hh, hbound⟩ := hBedge x hx w2 hw2
            have hxv : x ≠ v := fun he => hvB (he ▸ hx)
            refine ⟨hh, ?_⟩
            rcases hbound with hb | hb
            · exact Or.inl (by rw [hlow_ne1 x hxv]; exact hb)
            · exact Or.inr hb
          · intro x hx
            have hxv : x ≠ v := fun he => hvB (he ▸ hx)
            rw [hlow_v1, hlow_ne1 x hxv]
            have h1 := hBmin x hx
            omega
          · intro x hx
            have hxv : x ≠ v := fun he => hvB (he ▸ hx)
            rw [hlow_ne1 x hxv]
            exact hBlt x hx
        · intro x hx hxv
          show alistGet (alistSet stm.lowlinks v nl) x = _
          rw [alistGet_set_ne stm.lowlinks v x nl hxv]
          exact L.low_keep0 x hx hxv
      · rw [hlow_v1]
        exact min_le_right _ _
    · -- visited, off stack: no change
      refine ⟨stm, ?_, L, fun x k h => h, le_refl _, fun x _ h => h, hwh,
        Or.inr ?_⟩
      · rw [if_neg hcond, if_neg hon]
      · intro hmem
        exact hon ((L.inv.onStack_iff w).mpr hmem)
  · -- unvisited: recursive call
    have hwh' : alistHas stm.indices w = false := by
      cases h : alistHas stm.indices w
      · rfl
      · exact absurd h hwh
    have hreachw : ∀ x ∈ stm.stack, Reaches g x w := fun x hx =>
      reaches_trans (loopInv_reach g st0 v stm
        ⟨L.inv, L.v_idx, L.index_ge, ⟨B, hBstack, hBwhite0, hBedge, hBmin,
          hBlt⟩, L.idx_keep0, L.idx_new0, L.low_keep0, L.black_mono0,
          L.sccs_mono0, L.whites_lt0, L.reach0⟩ x hx) (reaches_edge hw)
    have hfuelw : (whites g stm).length < fuel :=
      lt_of_lt_of_le L.whites_lt0 hfuel
    have P := IH stm w L.inv hwh' (hwf v w hw) hreachw hfuelw
    set stc := strongConnect g fuel stm w with hstc
    have hvw : v ≠ w := by
      intro he
      rw [← he, hvhas_stm] at hwh'
      cases hwh'
    have hv_idx_c : alistGet stc.indices v = some st0.index :=
      P.idx_keep v _ L.v_idx
    have hlowv_c : lowOf stc v = lowOf stm v :=
      lowOf_eq_of_get (P.low_keep v hvhas_stm hvw)
    have hvstack_c : v ∈ stc.stack := by
      rcases P.shape with ⟨he, _⟩ | ⟨N, he, _⟩
      · rw [he]
        exact hvstack_stm
      · rw [he]
        exact List.mem_append_right _ hvstack_stm
    set nl := min (alistGetD stc.lowlinks v 0) (alistGetD stc.lowlinks w 0)
      with hnl
    set s1 : TarjanState := { stc with lowlinks := alistSet stc.lowlinks v nl }
      with hs1
    have hlow_v1 : lowOf s1 v = nl := lowOf_set_eq stc v nl
    have hlow_ne1 : ∀ x, x ≠ v → lowOf s1 x = lowOf stc x :=
      fun x hx => lowOf_set_ne stc v x nl hx
    have hstack1 : s1.stack = stc.stack := rfl
    have hidx1 : ∀ x, idxOf s1 x = idxOf stc x := fun x => rfl
    have hnl_le : nl ≤ lowOf stc v := min_le_left _ _
    have hwhas_c : alistHas stc.indices w = true := hasOf_get _ _ _ P.v_idx
    have hBstm : ∀ x ∈ B, x ∈ stm.stack := by
      intro x hx
      rw [hBstack]
      exact List.mem_append_left _ hx
    have hBhas : ∀ x ∈ B, alistHas stm.indices x = true :=
      fun x hx => L.inv.stack_indexed x (hBstm x hx)
    have hBnw : ∀ x ∈ B, x ≠ w := by
      intro x hx he
      have h1 := hBhas x hx
      rw [he, hwh'] at h1
      cases h1
    have hBlow_keep : ∀ x ∈ B, lowOf stc x = lowOf stm x := by
      intro x hx
      exact lowOf_eq_of_get (P.low_keep x (hBhas x hx) (hBnw x hx))
    have hBidx_keep : ∀ x ∈ B, idxOf stc x = idxOf stm x :=
      fun x hx => idxOf_keep P.idx_keep x (hBhas x hx)
    have hinv1 : TInv g s1 := by
      refine TInv_setLow g stc v nl P.inv hvstack_c hnl_le ?_
      rcases le_total (alistGetD stc.lowlinks v 0)
          (alistGetD stc.lowlinks w 0) with h | h
      · obtain ⟨z, hz, hvz, hzid⟩ := P.inv.low_sound v hvstack_c
        exact ⟨z, hz, hvz, by rw [hnl, min_eq_left h]; exact hzid⟩
      · by_cases hws : w ∈ stc.stack
        · obtain ⟨z, hz, hwz, hzid⟩ := P.inv.low_sound w hws
          exact ⟨z, hz, reaches_trans (reaches_edge hw) hwz,
            by rw [hnl, min_eq_right h]; exact hzid⟩
        · exfalso
          rcases P.shape with ⟨he, hle⟩ | ⟨N, he, hwN, _⟩
          · have hidxw : idxOf stc w = stm.index := by
              simp [idxOf, alistGetD, P.v_idx]
            have h2 := L.inv.low_le v hvstack_stm
            have h3 := L.index_ge
            rw [hidxv_stm] at h2
            have h4 : lowOf stc w = stm.index := by rw [hle, hidxw]
            have h5 : lowOf stc v = lowOf stm v := hlowv_c
            simp only [lowOf] at h4 h5
            simp only [lowOf] at h2
            omega
          · exact hws (he ▸ List.mem_append_left _ hwN)
    have hL1 : LoopInv g st0 v s1 := by
      refine ⟨hinv1, hv_idx_c, le_trans L.index_ge P.index_mono, ?_, ?_, ?_,
        ?_, ?_, ?_, ?_, L.reach0⟩
      · -- shape
        rcases P.shape with ⟨he, hle⟩ | ⟨N, he, hwN, hNwhite, hNedge, hNmin,
            hNlt⟩
        · refine ⟨B, by rw [hstack1, he, hBstack], hBwhite0, ?_, ?_, ?_⟩
          · intro x hx w2 hw2
            obtain ⟨hh, hbound⟩ := hBedge x hx w2 hw2
            have hxv : x ≠ v := fun hq => hvB (hq ▸ hx)
            obtain ⟨k2, hk2⟩ := get_of_has _ _ hh
            refine ⟨hasOf_get _ _ _ (P.idx_keep w2 k2 hk2), ?_⟩
            rcases hbound with hb | hb
            · left
              rw [hlow_ne1 x hxv, hBlow_keep x hx, hidx1,
                idxOf_keep P.idx_keep w2 hh]
              exact hb
            · right
              rw [hstack1, he]
              exact hb
          · intro x hx
            have hxv : x ≠ v := fun hq => hvB (hq ▸ hx)
            rw [hlow_v1, hlow_ne1 x hxv, hBlow_keep x hx]
            have h1 := hBmin x hx
            have h2 : nl ≤ lowOf stc v := hnl_le
            rw [hlowv_c] at h2
            omega
          · intro x hx
            have hxv : x ≠ v := fun hq => hvB (hq ▸ hx)
            rw [hlow_ne1 x hxv, hBlow_keep x hx, hidx1, hBidx_keep x hx]
            exact hBlt x hx
        · -- child pushed N
          have hNnv : ∀ x ∈ N, x ≠ v := by
            intro x hx he
            have := hNwhite x hx
            rw [he, hvhas_stm] at this
            cases this
          refine ⟨N ++ B, ?_, ?_, ?_, ?_, ?_⟩
          · rw [hstack1, he, hBstack, List.append_assoc]
          · intro x hx
            rcases List.mem_append.mp hx with h | h
            · cases hq : alistHas st0.indices x
              · rfl
              · exfalso
                obtain ⟨k, hk⟩ := get_of_has _ _ hq
                have h2 := hasOf_get _ _ _ (L.idx_keep0 x k hk)
                rw [hNwhite x h] at h2
                cases h2
            · exact hBwhite0 x h
          · intro x hx w2 hw2
            rcases List.mem_append.mp hx with h | h
            · obtain ⟨hh, hbound⟩ := hNedge x h w2 hw2
              refine ⟨hh, ?_⟩
              rcases hbound with hb | hb
              · left
                rw [hlow_ne1 x (hNnv x h), hidx1]
                exact hb
              · right
                rw [hstack1]
                exact hb
            · obtain ⟨hh, hbound⟩ := hBedge x h w2 hw2
              have hxv : x ≠ v := fun hq => hvB (hq ▸ h)
              obtain ⟨k2, hk2⟩ := get_of_has _ _ hh
              refine ⟨hasOf_get _ _ _ (P.idx_keep w2 k2 hk2), ?_⟩
              rcases hbound with hb | hb
              · left
                rw [hlow_ne1 x hxv, hBlow_keep x h, hidx1,
                  idxOf_keep P.idx_keep w2 hh]
                exact hb
              · right
                rw [hstack1]
                exact P.black_mono w2 hh hb
          · intro x hx
            rw [hlow_v1]
            rcases List.mem_append.mp hx with h | h
            · rw [hlow_ne1 x (hNnv x h)]
              have h1 := hNmin x h
              have h2 : nl ≤ lowOf stc w := min_le_right _ _
              omega
            · have hxv : x ≠ v := fun hq => hvB (hq ▸ h)
              rw [hlow_ne1 x hxv, hBlow_keep x h]
              have h1 := hBmin x h
              have h2 : nl ≤ lowOf stc v := hnl_le
              rw [hlowv_c] at h2
              omega
          · intro x hx
            rcases List.mem_append.mp hx with h | h
            · rw [hlow_ne1 x (hNnv x h), hidx1]
              exact hNlt x h
            · have hxv : x ≠ v := fun hq => hvB (hq ▸ h)
              rw [hlow_ne1 x hxv, hBlow_keep x h, hidx1, hBidx_keep x h]
              exact hBlt x h
      · intro x k h
        exact P.idx_keep x k (L.idx_keep0 x k h)
      · intro x hx1 hx2
        by_cases hxs : alistHas stm.indices x = true
        · obtain ⟨hr, hge⟩ := L.idx_new0 x hx1 hxs
          refine ⟨hr, ?_⟩
          rw [show idxOf s1 x = idxOf stc x from rfl,
            idxOf_keep P.idx_keep x hxs]
          exact hge
        · have hxs' : alistHas stm.indices x = false := by
            cases h : alistHas stm.indices x
            · rfl
            · exact absurd h hxs
          obtain ⟨hr, hge⟩ := P.idx_new x hxs' hx2
          refine ⟨reaches_trans (reaches_edge hw) hr, ?_⟩
          have := L.index_ge
          rw [show idxOf s1 x = idxOf stc x from rfl]
          omega
      · intro x hx hxv
        have hxstm : alistHas stm.indices x = true := by
          obtain ⟨k, hk⟩ := get_of_has _ _ hx
          exact hasOf_get _ _ _ (L.idx_keep0 x k hk)
        have hxw : x ≠ w := by
          intro he
          rw [he, hwh'] at hxstm
          cases hxstm
        show alistGet (alistSet stc.lowlinks v nl) x = _
        rw [alistGet_set_ne stc.lowlinks v x nl hxv, P.low_keep x hxstm hxw]
        exact L.low_keep0 x hx hxv
      · intro x hx hxs
        have hxstm : alistHas stm.indices x = true := by
          obtain ⟨k, hk⟩ := get_of_has _ _ hx
          exact hasOf_get _ _ _ (L.idx_keep0 x k hk)
        rw [show s1.stack = stc.stack from rfl]
        exact P.black_mono x hxstm (L.black_mono0 x hx hxs)
      · intro comp hcomp
        exact P.sccs_mono comp (L.sccs_mono0 comp hcomp)
      · exact lt_trans P.whites_lt L.whites_lt0
    refine ⟨s1, ?_, hL1, ?_, ?_, ?_, ?_, ?_⟩
    · rw [if_pos hwh]
    · intro x k h
      exact P.idx_keep x k h
    · rw [hlow_v1, ← hlowv_c]
      exact hnl_le
    · intro x hx hxs
      rw [show s1.stack = stc.stack from rfl]
      exact P.black_mono x hx hxs
    · exact hwhas_c
    · by_cases hws : w ∈ stc.stack
      · left
        rw [hlow_v1, show idxOf s1 w = idxOf stc w from rfl]
        have := P.inv.low_le w hws
        have h2 : nl ≤ lowOf stc w := min_le_right _ _
        omega
      · right
        rw [show s1.stack = stc.stack from rfl]
        exact hws

/-- The successor loop of `strongConnect` preserves the loop invariant
and records a lowlink bound for every processed successor. -/
theorem scLoop_spec (g : DependencyGraph)
    (hwf : ∀ u w, w ∈ alistGetD g.adjacency u [] → w ∈ g.nodes)
    (fuel : Nat)
    (IH : ∀ (st : TarjanState) (u : String), TInv g st →
      alistHas st.indices u = false → u ∈ g.nodes →
      (∀ x ∈ st.stack, Reaches g x u) → (whites g st).length < fuel →
      SCPost g st (strongConnect g fuel st u) u)
    (st0 : TarjanState) (v : String)
    (hfuel : (whites g st0).length ≤ fuel) :
    ∀ (todo : List String) (stm : TarjanState),
    (∀ w ∈ todo, w ∈ alistGetD g.adjacency v []) →
    LoopInv g st0 v stm →
    ∃ stf, stf = todo.foldl (fun st w =>
      if ¬ alistHas st.indices w then
        let st := strongConnect g fuel st w
        let low := min (alistGetD st.lowlinks v 0) (alistGetD st.lowlinks w 0)
        { st with lowlinks := alistSet st.lowlinks v low }
      else if alistGetD st.onStack w false then
        let low := min (alistGetD st.lowlinks v 0) (alistGetD st.indices w 0)
        { st with lowlinks := alistSet st.lowlinks v low }
      else st) stm ∧
    LoopInv g st0 v stf ∧
    (∀ x k, alistGet stm.indices x = some k →
      alistGet stf.indices x = some k) ∧
    lowOf stf v ≤ lowOf stm v ∧
    (∀ x, alistHas stm.indices x = true → x ∉ stm.stack → x ∉ stf.stack) ∧
    (∀ w ∈ todo, alistHas stf.indices w = true ∧
      (lowOf stf v ≤ idxOf stf w ∨ w ∉ stf.stack)) := by
  intro todo
  induction todo with
  | nil =>
      intro stm _ L
      exact ⟨stm, rfl, L, fun x k h => h, le_refl _, fun x _ h => h, by simp⟩
  | cons w rest ihl =>
      intro stm hadj L
      have hw : w ∈ alistGetD g.adjacency v [] :=
        hadj w (List.mem_cons_self _ _)
      obtain ⟨stm₁, hstm₁, L₁, hkeep₁, hlow₁, hblack₁, hfact₁⟩ :=
        scStep_spec g hwf fuel IH st0 v hfuel w hw stm L
      obtain ⟨stf, hstf, Lf, hkeepf, hlowf, hblackf, hfactf⟩ :=
        ihl stm₁ (fun w2 hw2 => hadj w2 (List.mem_cons_of_mem _ hw2)) L₁
      refine ⟨stf, ?_, Lf, ?_, ?_, ?_, ?_⟩
      · rw [List.foldl_cons, ← hstm₁]
        exact hstf
      · intro x k h
        exact hkeepf x k (hkeep₁ x k h)
      · exact le_trans hlowf hlow₁
      · intro x hx hxs
        have hx₁ : alistHas stm₁.indices x = true := by
          obtain ⟨k, hk⟩ := get_of_has _ _ hx
          exact hasOf_get _ _ _ (hkeep₁ x k hk)
        exact hblackf x hx₁ (hblack₁ x hx hxs)
      · intro w2 hw2
        rcases List.mem_cons.mp hw2 with rfl | hw2'
        · refine ⟨?_, ?_⟩
          · obtain ⟨k, hk⟩ := get_of_has _ _ hfact₁.1
            exact hasOf_get _ _ _ (hkeepf w2 k hk)
          · rcases hfact₁.2 with hb | hb
            · left
              refine le_trans hlowf ?_
              rw [idxOf_keep hkeepf w2 hfact₁.1]
              exact hb
            · right
              exact hblackf w2 hfact₁.1 hb
        · exact hfactf w2 hw2'

/-- One `strongConnect` call on an unvisited vertex satisfies its
postcondition. -/
theorem strongConnect_spec (g : DependencyGraph)
    (hwf : ∀ u w, w ∈ alistGetD g.adjacency u [] → w ∈ g.nodes) :
    ∀ (fuel : Nat) (st : TarjanState) (u : String), TInv g st →
      alistHas st.indices u = false → u ∈ g.nodes →
      (∀ x ∈ st.stack, Reaches g x u) → (whites g st).length < fuel →
      SCPost g st (strongConnect g fuel st u) u := by
  intro fuel
  induction fuel with
  | zero =>
      intro st u _ _ _ _ hlt
      exact absurd hlt (by omega)
  | succ n ihn =>
      intro st v hInv hwhite hnode hreach hlt
      show SCPost g st (strongConnect g (n + 1) st v) v
      rw [strongConnect]
      set st1 : TarjanState := { st with
        indices := alistSet st.indices v st.index,
        lowlinks := alistSet st.lowlinks v st.index,
        index := st.index + 1,
        stack := v :: st.stack,
        onStack := alistSet st.onStack v true } with hst1
      have hinv1 : TInv g st1 := TInv_push g st v hInv hwhite hreach
      have hvget1 : alistGet st1.indices v = some st.index :=
        alistGet_set_eq _ _ _
      have hL1 : LoopInv g st v st1 := by
        refine ⟨hinv1, hvget1, le_refl _,
          ⟨[], rfl, by simp, by simp, by simp, by simp⟩, ?_, ?_, ?_, ?_,
          fun comp h => h, ?_, hreach⟩
        · intro x k h
          have hxv : x ≠ v := by
            intro he
            subst he
            rw [show alistHas st.indices x = true from hasOf_get _ _ _ h]
              at hwhite
            cases hwhite
          show alistGet (alistSet st.indices v st.index) x = some k
          rw [alistGet_set_ne st.indices v x st.index hxv]
          exact h
        · intro x hx1 hx2
          have h2 := hx2
          rw [show st1.indices = alistSet st.indices v st.index from rfl,
            alistHas_set st.indices v x st.index, hx1] at h2
          simp at h2
          subst h2
          have h3 : idxOf st1 x = st.index := by
            simp [idxOf, alistGetD, hvget1]
          exact ⟨Reaches.refl x, le_of_eq h3.symm⟩
        · intro x hx hxv
          show alistGet (alistSet st.lowlinks v st.index) x = _
          rw [alistGet_set_ne st.lowlinks v x st.index hxv]
        · intro x hx hxs
          intro hmem
          have hmem' : x ∈ v :: st.stack := hmem
          rcases List.mem_cons.mp hmem' with he | hm
          · rw [he, hwhite] at hx
            cases hx
          · exact hxs hm
        · refine whites_dec g st v hnode hwhite st1 ?_ (hasOf_get _ _ _ hvget1)
          intro x hx
          show alistHas (alistSet st.indices v st.index) x = true
          rw [alistHas_set]
          simp [hx]
      have hfuel' : (whites g st).length ≤ n := Nat.lt_succ_iff.mp hlt
      obtain ⟨stf, hstf, Lf, hkeepf, hlowf, hblackf, hfactf⟩ :=
        scLoop_spec g hwf n ihn st v hfuel' (alistGetD g.adjacency v []) st1
          (fun w hw => hw) hL1
      rw [← hstf]
      obtain ⟨B, hBstack, hBwhite0, hBedge, hBmin, hBlt⟩ := Lf.shape
      have hvstackf : v ∈ stf.stack := by
        rw [hBstack]
        exact List.mem_append_right _ (List.mem_cons_self _ _)
      have hvB : v ∉ B := by
        intro hmem
        have hnd := hBstack ▸ Lf.inv.stack_nodup
        exact (List.nodup_append.mp hnd).2.2 hmem (List.mem_cons_self _ _)
      by_cases hroot : alistGetD stf.lowlinks v 0 = alistGetD stf.indices v 0
      · rw [if_pos hroot]
        have hpop : popSCC v stf.stack = (B ++ [v], st.stack) := by
          rw [hBstack]
          exact popSCC_eq v B st.stack hvB
        rw [hpop]
        rw [if_pos (show ((B ++ [v], st.stack).1).length > 0 by simp)]
        have hedge2 : ∀ x ∈ B ++ [v], ∀ w ∈ alistGetD g.adjacency x [],
            alistHas stf.indices w = true ∧
            (lowOf stf x ≤ idxOf stf w ∨ w ∉ stf.stack) := by
          intro x hx
          rcases List.mem_append.mp hx with h | h
          · exact hBedge x h
          · rw [List.mem_singleton.mp h]
            exact hfactf
        have hpopInv := TInv_pop g stf v B st.stack Lf.inv hBstack hBlt
          hedge2 hBmin hroot
        refine ⟨hpopInv.1, le_trans (Nat.le_succ _) Lf.index_ge,
          fun x k h => Lf.idx_keep0 x k h, fun x h1 h2 => Lf.idx_new0 x h1 h2,
          Lf.v_idx, fun x h1 h2 => Lf.low_keep0 x h1 h2, fun x _ h => h,
          fun comp h => List.mem_append_left _ (Lf.sccs_mono0 comp h),
          Lf.whites_lt0, Or.inl ⟨rfl, hroot⟩⟩
      · rw [if_neg hroot]
        have hlowle := Lf.inv.low_le v hvstackf
        refine ⟨Lf.inv, le_trans (Nat.le_succ _) Lf.index_ge,
          fun x k h => Lf.idx_keep0 x k h, fun x h1 h2 => Lf.idx_new0 x h1 h2,
          Lf.v_idx, fun x h1 h2 => Lf.low_keep0 x h1 h2,
          fun x h1 h2 => Lf.black_mono0 x h1 h2,
          fun comp h => Lf.sccs_mono0 comp h, Lf.whites_lt0,
          Or.inr ⟨B ++ [v], ?_, ?_, ?_, ?_, ?_, ?_⟩⟩
        · rw [hBstack, List.append_assoc]
          rfl
        · exact List.mem_append_right _ (List.mem_singleton.mpr rfl)
        · intro x hx
          rcases List.mem_append.mp hx with h | h
          · exact hBwhite0 x h
          · rw [List.mem_singleton.mp h]
            exact hwhite
        · intro x hx
          rcases List.mem_append.mp hx with h | h
          · exact hBedge x h
          · rw [List.mem_singleton.mp h]
            exact hfactf
        · intro x hx
          rcases List.mem_append.mp hx with h | h
          · exact hBmin x h
          · rw [List.mem_singleton.mp h]
        · intro x hx
          rcases List.mem_append.mp hx with h | h
          · exact hBlt x h
          · rw [List.mem_singleton.mp h]
            have hne : lowOf stf v ≠ idxOf stf v := hroot
            simp only [lowOf, idxOf] at hlowle hne ⊢
            omega

/-- The outer fold of `findSCCs` keeps the stack empty and indexes
every processed node. -/
theorem findSCCs_fold (g : DependencyGraph)
    (hwf : ∀ u w, w ∈ alistGetD g.adjacency u [] → w ∈ g.nodes) :
    ∀ (todo : List String) (st : TarjanState),
    (∀ x ∈ todo, x ∈ g.nodes) → TInv g st → st.stack = [] →
    ∃ stf, stf = todo.foldl (fun st node =>
        if ¬ alistHas st.indices node then
          strongConnect g (g.nodes.length + 1) st node
        else st) st ∧
      TInv g stf ∧ stf.stack = [] ∧
      (∀ x k, alistGet st.indices x = some k →
        alistGet stf.indices x = some k) ∧
      (∀ x ∈ todo, alistHas stf.indices x = true) := by
  intro todo
  induction todo with
  | nil =>
      intro st _ hInv hempty
      exact ⟨st, rfl, hInv, hempty, fun x k h => h, by simp⟩
  | cons node rest ih =>
      intro st hmem hInv hempty
      by_cases hn : alistHas st.indices node = true
      · obtain ⟨stf, hstf, hinvf, hemptyf, hkeepf, hallf⟩ :=
          ih st (fun x hx => hmem x (List.mem_cons_of_mem _ hx)) hInv hempty
        refine ⟨stf, ?_, hinvf, hemptyf, hkeepf, ?_⟩
        · rw [List.foldl_cons, if_neg (by simp [hn])]
          exact hstf
        · intro x hx
          rcases List.mem_cons.mp hx with rfl | hx'
          · obtain ⟨k, hk⟩ := get_of_has _ _ hn
            exact hasOf_get _ _ _ (hkeepf x k hk)
          · exact hallf x hx'
      · have hn' : alistHas st.indices node = false := by
          cases h : alistHas st.indices node
          · rfl
          · exact absurd h hn
        have hfuel : (whites g st).length < g.nodes.length + 1 := by
          have := List.length_filter_le
            (fun x => ¬ alistHas st.indices x) g.nodes
          simp only [whites]
          omega
        have P := strongConnect_spec g hwf (g.nodes.length + 1) st node hInv
          hn' (hmem node (List.mem_cons_self _ _))
          (by rw [hempty]; intro x hx; cases hx) hfuel
        set st1 := strongConnect g (g.nodes.length + 1) st node with hst1
        have hempty1 : st1.stack = [] := by
          rcases P.shape with ⟨he, _⟩ |
            ⟨N, he, hNv, hNwhite, hNedge, hNmin, hNlt⟩
          · rw [he, hempty]
          · exfalso
            have hvs : node ∈ st1.stack := by
              rw [he]
              exact List.mem_append_left _ hNv
            have hstackN : st1.stack = N := by
              rw [he, hempty, List.append_nil]
            obtain ⟨z, hz, hvz, hzidx⟩ := P.inv.low_sound node hvs
            have hzN : z ∈ N := hstackN ▸ hz
            have hlow : lowOf st1 node < idxOf st1 node := hNlt node hNv
            have hidxnode : idxOf st1 node = st.index := by
              simp [idxOf, alistGetD, P.v_idx]
            have hzwhite : alistHas st.indices z = false := hNwhite z hzN
            have hzhas : alistHas st1.indices z = true :=
              P.inv.stack_indexed z hz
            have hge := (P.idx_new z hzwhite hzhas).2
            omega
        obtain ⟨stf, hstf, hinvf, hemptyf, hkeepf, hallf⟩ :=
          ih st1 (fun x hx => hmem x (List.mem_cons_of_mem _ hx)) P.inv hempty1
        refine ⟨stf, ?_, hinvf, hemptyf, ?_, ?_⟩
        · rw [List.foldl_cons, if_pos (by simp [hn']), ← hst1]
          exact hstf
        · intro x k h
          exact hkeepf x k (P.idx_keep x k h)
        · intro x hx
          rcases List.mem_cons.mp hx with rfl | hx'
          · exact hasOf_get _ _ _ (hkeepf x st.index P.v_idx)
          · exact hallf x hx'

/-- Completeness of the embedded `FindSCCs`: two mutually reachable
nodes land in one emitted component, which is closed under mutual
reachability and stores its own length as its size. -/
theorem findSCCs_complete (g : DependencyGraph)
    (hwf : ∀ u w, w ∈ alistGetD g.adjacency u [] → w ∈ g.nodes)
    (u v : String) (hu : u ∈ g.nodes) (hv : v ∈ g.nodes)
    (huv : Reaches g u v) (hvu : Reaches g v u) :
    ∃ comp ∈ findSCCs g, u ∈ comp.filePaths ∧ v ∈ comp.filePaths ∧
      comp.size = comp.filePaths.length ∧
      (∀ y, Reaches g u y → Reaches g y u → y ∈ comp.filePaths) := by
  have hInv0 : TInv g ⟨0, [], [], [], [], []⟩ := by
    refine ⟨List.nodup_nil, ?_, ?_, ?_, ?_, ?_, ?_, ?_, ?_, ?_, ?_⟩ <;>
      simp [alistHas, alistGet, alistGetD, idxOf, lowOf]
  obtain ⟨stf, hstf, hinvf, hemptyf, _, hallf⟩ :=
    findSCCs_fold g hwf g.nodes ⟨0, [], [], [], [], []⟩ (fun x hx => hx)
      hInv0 rfl
  have hufin : alistHas stf.indices u = true := hallf u hu
  have hunst : u ∉ stf.stack := by
    rw [hemptyf]
    simp
  obtain ⟨comp, hcomp, huc⟩ := hinvf.black_sccs u hufin hunst
  have hcl := (hinvf.sccs_closed comp hcomp u huc).2.2.2
  have hvc : v ∈ comp.filePaths := hcl v huv hvu
  have hsccs : findSCCs g = stf.sccs := by
    simp only [findSCCs]
    rw [← hstf]
  exact ⟨comp, hsccs ▸ hcomp, huc, hvc, hinvf.sccs_size comp hcomp, hcl⟩


/-- Adjacency targets of the built graph are graph nodes. -/
theorem buildDependencyGraph_wf (files : List FileChange)
    (deps : List Dependency) :
    ∀ u w, w ∈ alistGetD (buildDependencyGraph files deps).adjacency u [] →
      w ∈ (buildDependencyGraph files deps).nodes := by
  intro u w hmem
  have hcont : (alistGetD (buildDependencyGraph files deps).adjacency
      u []).contains w = true := List.elem_iff.mpr hmem
  simp only [buildDependencyGraph] at hcont ⊢
  rw [graphFold_adj] at hcont
  rw [graphFold_nodes]
  rcases hcont with h | ⟨d, hd, hfrom, hto, hns1, hns2⟩
  · simp [alistGetD, alistGet] at h
  · show w ∈ (files.foldl (fun m f => alistSet m f.path true) []).map (·.1)
    rw [hto] at hns2
    rcases (nodeSet_getD files w []).mp hns2 with h0 | hmem'
    · simp [alistGetD, alistGet] at h0
    · exact (nodeSet_mem_keys files w []).mpr (Or.inr hmem')

/-- Every graph node is the path of one of the input files. -/
theorem buildDependencyGraph_nodes_paths (files : List FileChange)
    (deps : List Dependency) :
    ∀ x ∈ (buildDependencyGraph files deps).nodes, x ∈ getFilePaths files := by
  intro x hx
  simp only [buildDependencyGraph] at hx
  rw [graphFold_nodes] at hx
  have hx' : x ∈ (files.foldl (fun m f => alistSet m f.path true) []).map (·.1) :=
    hx
  rcases (nodeSet_mem_keys files x []).mp hx' with h | h
  · simp at h
  · exact h

/-- A list holding two distinct elements has length at least two. -/
theorem two_le_length_of_mem_ne {α : Type} {l : List α} {u v : α}
    (hu : u ∈ l) (hv : v ∈ l) (huv : u ≠ v) : 2 ≤ l.length := by
  match l with
  | [] => cases hu
  | [a] =>
      rw [List.mem_singleton.mp hu, List.mem_singleton.mp hv] at huv
      exact absurd rfl huv
  | a :: b :: t =>
      simp only [List.length_cons]
      omega

/-- Every Phase A partition survives into the full partition list. -/
theorem circParts_mem_all
    (ord : List (String × List FileChange) → List (String × List FileChange))
    (files : List FileChange) (g : DependencyGraph) (sccs : List SCCData)
    (cfg : Config) :
    ∀ part ∈ (createCircularDependencyPartitions sccs files [] cfg []).1,
    part ∈ createAllPartitionsOrd ord files g sccs cfg := by
  intro part hp
  simp only [createAllPartitionsOrd]
  set r := createCircularDependencyPartitions sccs files [] cfg [] with hrdef
  by_cases hrem : (getRemainingFiles files r.2).length > 0
  · rw [if_pos hrem]
    set depParts := createDependencyPartitions (getRemainingFiles files r.2) g
      r.1 cfg with hdepdef
    set allocAB := depParts.foldl (fun m part =>
      part.files.foldl (fun m file => alistSet m file.path true) m) r.2
      with haborig
    by_cases hun : (getRemainingFiles files allocAB).length > 0
    · rw [if_pos hun]
      exact List.mem_append_left _ (List.mem_append_left _ hp)
    · rw [if_neg hun]
      exact List.mem_append_left _ hp
  · rw [if_neg hrem]
    by_cases hun : (getRemainingFiles files r.2).length > 0
    · rw [if_pos hun]
      exact List.mem_append_left _ hp
    · rw [if_neg hun]
      exact hp

/-- The two-cycle input of the C4 witness spans the SCC
`\x7b"a", "b"\x7d` of its dependency graph. -/
theorem c4_witness_scc :
    IsSCC (buildDependencyGraph (filterChangedFiles c1Changes) c4Deps)
      ["a", "b"] := by
  have hnodes :
      (buildDependencyGraph (filterChangedFiles c1Changes) c4Deps).nodes =
        ["a", "b"] := rfl
  have hab : Reaches (buildDependencyGraph (filterChangedFiles c1Changes)
      c4Deps) "a" "b" := Reaches.step (by decide) (Reaches.refl _)
  have hba : Reaches (buildDependencyGraph (filterChangedFiles c1Changes)
      c4Deps) "b" "a" := Reaches.step (by decide) (Reaches.refl _)
  refine ⟨by simp, ?_, ?_, ?_⟩
  · intro u hu
    rw [hnodes]
    exact hu
  · intro u hu v hv
    simp only [List.mem_cons, List.mem_singleton, List.not_mem_nil,
      or_false] at hu hv
    rcases hu with rfl | rfl <;> rcases hv with rfl | rfl
    · exact Reaches.refl _
    · exact hab
    · exact hba
    · exact Reaches.refl _
  · intro u hu y hy h1 h2
    rw [hnodes] at hy
    exact hy

/-- C4: for every strongly connected component with two distinct
members (size at least 2) of the dependency graph of the changed
files, the returned plan contains a partition whose file list includes
every member of that SCC — circular groups are never split across
partitions. -/
theorem C4_scc_never_split (approve : List String → Nat → Nat → Bool)
    (changes : List FileChange) (deps : List Dependency) (cfg : Config)
    (plan : PartitionPlan)
    (hok : createPlan approve changes deps cfg = Except.ok plan)
    (S : List String)
    (hS : IsSCC (buildDependencyGraph (filterChangedFiles changes) deps) S)
    (u v : String) (hu : u ∈ S) (hv : v ∈ S) (huv : u ≠ v) :
    ∃ part ∈ plan.partitions, ∀ x ∈ S, x ∈ partitionPaths part := by
  obtain ⟨_, hnodes, hmut, _⟩ := hS
  set files := filterChangedFiles changes with hfilesdef
  set g := buildDependencyGraph files deps with hgdef
  have hwf := buildDependencyGraph_wf files deps
  obtain ⟨comp, hcomp, huc, hvc, hsize, hcl⟩ :=
    findSCCs_complete g hwf u v (hnodes u hu) (hnodes v hv)
      (hmut u hu v hv) (hmut v hv u hu)
  have hScomp : ∀ x ∈ S, x ∈ comp.filePaths := fun x hx =>
    hcl x (hmut u hu x hx) (hmut x hx u hu)
  have hlen : 2 ≤ comp.filePaths.length :=
    two_le_length_of_mem_ne huc hvc huv
  have hcompC : comp ∈ findCircularDependencies g := by
    simp only [findCircularDependencies]
    refine (sortBySizeDesc_perm _).mem_iff.mpr ?_
    refine List.mem_filter.mpr ⟨hcomp, ?_⟩
    simp only [decide_eq_true_eq]
    omega
  obtain ⟨part, hpart, hpfiles⟩ := circFold_scc_partition files [] cfg
    (findCircularDependencies g) ([], []) comp hcompC
  have hplan := createPlan_ok_partitions approve changes deps cfg plan hok
  refine ⟨part, ?_, ?_⟩
  · rw [hplan]
    exact circParts_mem_all id files g (findCircularDependencies g) cfg part
      (by simpa [createCircularDependencyPartitions] using hpart)
  · intro x hx
    have hxc : x ∈ comp.filePaths := hScomp x hx
    have hxp : x ∈ getFilePaths files :=
      buildDependencyGraph_nodes_paths files deps x (hnodes x hx)
    simp only [getFilePaths, List.mem_map] at hxp
    obtain ⟨f, hf, hfp⟩ := hxp
    have hfin : f ∈ getFilesByPaths files comp.filePaths :=
      (getFilesByPaths_mem files comp.filePaths f).mpr ⟨hf, hfp ▸ hxc⟩
    simp only [partitionPaths, getFilePaths, List.mem_map, hpfiles]
    exact ⟨f, hfin, hfp⟩

/-- C4 witness: on the two-file two-cycle input, the plan succeeds and
one partition holds both members of the SCC. -/
theorem C4_scc_never_split_witness :
    IsSCC (buildDependencyGraph (filterChangedFiles c1Changes) c4Deps)
        ["a", "b"] ∧
    ("a" : String) ≠ "b" ∧
    ∃ part ∈ (getPlanD (createPlan approveAll c1Changes c4Deps
        cfgTen)).partitions,
      ∀ x ∈ (["a", "b"] : List String), x ∈ partitionPaths part :=
  ⟨c4_witness_scc, by decide,
    C4_scc_never_split approveAll c1Changes c4Deps cfgTen
      (getPlanD (createPlan approveAll c1Changes c4Deps cfgTen)) rfl
      ["a", "b"] c4_witness_scc "a" "b" (by simp) (by simp) (by decide)⟩

end PRSplit

